import Mathlib

set_option linter.unusedVariables false

set_option allowUnsafeReducibility true in
attribute [semireducible] Rat.mul Rat.inv Rat.sub Rat.add Rat.neg Rat.blt

/-!
Shallow embedding of the touch-planning core of Phisap-Revived:
the frame synthesizer and pointer planner of `src/algo/algo1.py`, and the
touch-injection entry point of `src/control.py`.

Screen coordinates are Python floats; the embedding uses exact rationals.
The chart/judgment-line kinematic model and the screen-geometry helpers
(`distance_of`, `recalc_pos`, `in_screen`, defined in `algo_base.py`, which
is not among the sources) are external collaborators per the specification;
they enter the embedding as function parameters bundled in `ExtFuns` and
`LineModel`.
-/

abbrev Point : Type := ℚ × ℚ

inductive TouchAction where
  | DOWN
  | UP
  | MOVE
deriving DecidableEq, Repr

structure VirtualTouchEvent where
  pos : Point
  action : TouchAction
  pointer_id : ℕ
deriving DecidableEq, Repr

inductive FrameEventAction where
  | TAP
  | DRAG
  | FLICK_START
  | FLICK
  | FLICK_END
  | HOLD_START
  | HOLD
  | HOLD_END
deriving DecidableEq, Repr

structure FrameEvent where
  action : FrameEventAction
  point : Point
  id : ℕ
deriving DecidableEq, Repr

structure Pointer where
  pid : ℕ
  pos : Point
  timestamp : ℤ
  occupied : ℕ
deriving DecidableEq, Repr

/-- A Python `dict` with insertion-order semantics, embedded as an
association list: updating an existing key keeps its position, a fresh key
is appended at the end. -/
abbrev PyDict (κ ν : Type) : Type := List (κ × ν)

def pdFind? [DecidableEq κ] (d : PyDict κ ν) (k : κ) : Option ν :=
  match d with
  | [] => none
  | (k', v) :: t => if k' = k then some v else pdFind? t k

def pdSet [DecidableEq κ] (d : PyDict κ ν) (k : κ) (v : ν) : PyDict κ ν :=
  match d with
  | [] => [(k, v)]
  | (k', v') :: t => if k' = k then (k, v) :: t else (k', v') :: pdSet t k v

def pdErase [DecidableEq κ] (d : PyDict κ ν) (k : κ) : PyDict κ ν :=
  match d with
  | [] => []
  | (k', v') :: t => if k' = k then t else (k', v') :: pdErase t k

/-- Python `d1 |= d2`: existing keys are updated in place, fresh keys are
appended in the order of `d2`. -/
def pdMerge [DecidableEq κ] (d1 d2 : PyDict κ ν) : PyDict κ ν :=
  d2.foldl (fun d e => pdSet d e.1 e.2) d1

def pdKeys (d : PyDict κ ν) : List κ := d.map (·.1)

/-- The external helpers from `algo_base.py` (outside the sources); the
spec lists them as external collaborators, so they are parameters. -/
structure ExtFuns where
  distance_of : Point → Point → ℚ
  recalc_pos : Point → ℚ → ℚ → Point
  in_screen : Point → Bool

/-- The mutable state of `PointerManager`. -/
structure PMState where
  begin_ : ℕ
  delta : ℕ
  max_pointer_id : ℕ
  pointers : PyDict ℕ Pointer
  recycled : List ℕ
  unused : PyDict ℕ Pointer
  unused_now : PyDict ℕ Pointer
  mark_as_released : List ℕ
  now : ℤ
deriving DecidableEq, Repr

/-- `PointerManager.__init__(begin, delta)` (with `now` initialised to `0`;
Python leaves it unset until the planning loop assigns it). -/
def PMState.init (b : ℕ) (delta : ℕ) : PMState :=
  ⟨b, delta, b, [], [], [], [], [], 0⟩

/-- `PointerManager._new`.  Python pops an unspecified element from the
`recycled` set (`set.pop`); the embedding keeps the set as an
insertion-ordered list of its distinct elements and pops the oldest one. -/
def pmNew (s : PMState) : ℕ × PMState :=
  match s.recycled with
  | [] => (s.max_pointer_id, { s with max_pointer_id := s.max_pointer_id + s.delta })
  | p :: rest => (p, { s with recycled := rest })

/-- `PointerManager._del`. -/
def pmDel (s : PMState) (pointer_id : ℕ) : PMState :=
  let recycled' := if pointer_id ∈ s.recycled then s.recycled else s.recycled ++ [pointer_id]
  if (recycled'.length : ℚ) = ((s.max_pointer_id : ℚ) - (s.begin_ : ℚ)) / (s.delta : ℚ) then
    { s with max_pointer_id := s.begin_, recycled := [] }
  else
    { s with recycled := recycled' }

/-- `PointerManager.acquire`. -/
def acquire (ext : ExtFuns) (event : FrameEvent) (new : Bool) (s : PMState) :
    (ℕ × Bool) × PMState :=
  match pdFind? s.pointers event.id with
  | some ptr =>
      let ptr' := { ptr with timestamp := s.now, pos := event.point }
      ((ptr.pid, false), { s with pointers := pdSet s.pointers event.id ptr' })
  | none =>
      let best : Option (ℕ × ℚ × Pointer) :=
        if new then none
        else
          s.unused.foldl
            (fun best e =>
              let d := ext.distance_of event.point e.2.pos
              let score := d + ((s.now : ℚ) - (e.2.timestamp : ℚ)) / 50
              if (match best with
                  | none => true
                  | some (_, m, _) => decide (score < m)) && decide (d < 120) then
                some (e.2.pid, score, e.2)
              else best)
            none
      match best with
      | some (nearest_pid, _, ptr) =>
          let ptr' := { ptr with timestamp := s.now, pos := event.point, occupied := 0 }
          ((ptr.pid, false),
            { s with
              unused := pdErase s.unused nearest_pid,
              pointers := pdSet s.pointers event.id ptr' })
      | none =>
          let (pid, s') := pmNew s
          ((pid, true),
            { s' with pointers := pdSet s'.pointers event.id ⟨pid, event.point, s.now, 0⟩ })

/-- `PointerManager.release`. -/
def release (event : FrameEvent) (s : PMState) : PMState :=
  match pdFind? s.pointers event.id with
  | some ptr =>
      { s with unused_now := pdSet s.unused_now ptr.pid ptr,
               mark_as_released := s.mark_as_released ++ [event.id] }
  | none => s

/-- One iteration of the keyframe aging loop of `PointerManager.recycle`:
the accumulator carries the incremented `unused` entries, the UP events
yielded so far, the pids marked for removal, and the allocator state. -/
def recycleStep (acc : PyDict ℕ Pointer × List (ℕ × ℤ × Point) × List ℕ × PMState)
    (e : ℕ × Pointer) : PyDict ℕ Pointer × List (ℕ × ℤ × Point) × List ℕ × PMState :=
  let (entries, ups, marked, s) := acc
  let ptr := { e.2 with occupied := e.2.occupied + 1 }
  if ptr.occupied > 1 then
    (entries ++ [(e.1, ptr)], ups ++ [(ptr.pid, ptr.timestamp + 1, ptr.pos)],
      marked ++ [ptr.pid], pmDel s ptr.pid)
  else
    (entries ++ [(e.1, ptr)], ups, marked, s)

/-- The `RuntimeError` raised by `recycle` when the pointer budget is
exceeded; its message reports both counts and the current ms. -/
structure PlanError where
  unused_count : ℕ
  pointers_count : ℕ
  ms : ℤ
deriving DecidableEq, Repr

/-- `PointerManager.recycle`.  The generator is embedded as a function
returning the yielded UP events, the post state, and the error (if the
final budget assertion fires). -/
def recycle (is_keyframe : Bool) (s : PMState) :
    List (ℕ × ℤ × Point) × PMState × Option PlanError :=
  let pointers' := s.mark_as_released.foldl pdErase s.pointers
  let s1 := { s with pointers := pointers', mark_as_released := [] }
  let (unusedInc, ups, marked, s2) :=
    if is_keyframe then s1.unused.foldl recycleStep ([], [], [], s1)
    else (s1.unused, [], [], s1)
  let unused' := marked.foldl pdErase unusedInc
  let s3 := { s2 with unused := pdMerge unused' s2.unused_now, unused_now := [] }
  if s3.unused.length + s3.pointers.length > 15 then
    (ups, s3, some ⟨s3.unused.length, s3.pointers.length, s3.now⟩)
  else
    (ups, s3, none)

/-- `PointerManager.finish`. -/
def finish (s : PMState) : List (ℕ × ℤ × Point) :=
  s.unused.map (fun e => (e.2.pid, e.2.timestamp + 1, e.2.pos)) ++
  s.unused_now.map (fun e => (e.2.pid, e.2.timestamp + 1, e.2.pos)) ++
  s.pointers.map (fun e => (e.2.pid, e.2.timestamp + 1, e.2.pos))

abbrev TimedTouch : Type := ℤ × VirtualTouchEvent

/-- Converts a `(pid, ts, pos)` triple yielded by `recycle`/`finish` into the
UP touch event `add_touch_event(ts, pos, TouchAction.UP, pid)` records. -/
def upTouch (u : ℕ × ℤ × Point) : TimedTouch := (u.2.1, ⟨u.2.2, .UP, u.1⟩)

/-- The `match event.action` arms of the planning loop in `solve`: emits the
touch event for this frame event (tagged with the current ms) and updates
the manager state and the keyframe flag. -/
def processEvent (ext : ExtFuns) (acc : List TimedTouch × PMState × Bool)
    (event : FrameEvent) : List TimedTouch × PMState × Bool :=
  let (out, s, kf) := acc
  match event.action with
  | .TAP =>
      let ((pid, _), s1) := acquire ext event true s
      let s2 := release event s1
      (out ++ [(s.now, ⟨event.point, .DOWN, pid⟩)], s2, true)
  | .DRAG =>
      let ((pid, new), s1) := acquire ext event false s
      let act := if new then TouchAction.DOWN else TouchAction.MOVE
      let s2 := release event s1
      (out ++ [(s.now, ⟨event.point, act, pid⟩)], s2, kf)
  | .FLICK_START =>
      let ((pid, new), s1) := acquire ext event false s
      let act := if new then TouchAction.DOWN else TouchAction.MOVE
      (out ++ [(s.now, ⟨event.point, act, pid⟩)], s1, kf)
  | .FLICK | .HOLD =>
      let ((pid, _), s1) := acquire ext event true s
      (out ++ [(s.now, ⟨event.point, .MOVE, pid⟩)], s1, kf)
  | .FLICK_END | .HOLD_END =>
      let ((pid, _), s1) := acquire ext event true s
      let s2 := release event s1
      (out ++ [(s.now, ⟨event.point, .MOVE, pid⟩)], s2, kf)
  | .HOLD_START =>
      let ((pid, _), s1) := acquire ext event true s
      (out ++ [(s.now, ⟨event.point, .DOWN, pid⟩)], s1, true)

/-- The event loop of one frame (`for event in frame`), starting from
`is_keyframe = False`. -/
def processFrameEvents (ext : ExtFuns) (s : PMState) (frame : List FrameEvent) :
    List TimedTouch × PMState × Bool :=
  frame.foldl (processEvent ext) ([], s, false)

/-- One iteration of the planning loop: set `now`, process the frame's
events, then run `recycle` and append its UP events. -/
def processFrame (ext : ExtFuns) (s : PMState) (f : ℤ × List FrameEvent) :
    List TimedTouch × PMState × Option PlanError :=
  let s0 := { s with now := f.1 }
  let (out, s1, kf) := processFrameEvents ext s0 f.2
  let (ups, s2, err) := recycle kf s1
  (out ++ ups.map upTouch, s2, err)

/-- The planning loop over the ms-sorted frames.  A `RuntimeError` from
`recycle` aborts the loop (the error propagates out of `solve`). -/
def planFrames (ext : ExtFuns) : List (ℤ × List FrameEvent) → PMState →
    List TimedTouch × PMState × Option PlanError
  | [], s => ([], s, none)
  | f :: rest, s =>
      match processFrame ext s f with
      | (out, s', some e) => (out, s', some e)
      | (out, s', none) =>
          let (out2, s'', err) := planFrames ext rest s'
          (out ++ out2, s'', err)

/-- One `add_touch_event`/`add_frame_event` call on a `defaultdict(list)`:
append to the bucket of key `t`, creating it at the end if absent. -/
def addTouch (m : PyDict ℤ (List α)) (t : ℤ) (e : α) : PyDict ℤ (List α) :=
  pdSet m t ((pdFind? m t).getD [] ++ [e])

/-- Builds the ms-keyed bucket map from a flat emission-ordered list; both
`frames` and `result` in `solve` are built exactly this way. -/
def buildMap (l : List (ℤ × α)) : PyDict ℤ (List α) :=
  l.foldl (fun m te => addTouch m te.1 te.2) []

/-- Note types from `note.py` (external input). -/
inductive NoteType where
  | TAP
  | DRAG
  | FLICK
  | HOLD
deriving DecidableEq, Repr

/-- The note attributes `solve` consumes. -/
structure Note where
  type : NoteType
  time : ℚ
  x : ℚ
  hold : ℚ

/-- The judgment-line kinematic model: an external collaborator per the
spec.  `sinAngleAt t` and `cosAngleAt t` stand for the composites
`sin(-line.angle(t)·π/180)` and `cos(-line.angle(t)·π/180)`: the line model
and the platform trig functions are outside the sources, so the composite
enters as a parameter. -/
structure LineModel where
  seconds : ℚ → ℚ
  time : ℚ → ℚ
  posAt : ℚ → Point
  sinAngleAt : ℚ → ℚ
  cosAngleAt : ℚ → ℚ
  posOf : Note → ℚ → Point
  notes_above : List Note
  notes_below : List Note

structure Chart where
  judge_lines : List LineModel

/-- Python `int(q)`: truncation toward zero. -/
def pyInt (q : ℚ) : ℤ := if 0 ≤ q then ⌊q⌋ else ⌈q⌉

def FLICK_START_MS : ℤ := -20

def FLICK_END_MS : ℤ := 20

def FLICK_DURATION : ℤ := FLICK_END_MS - FLICK_START_MS

def FLICK_RADIUS : ℚ := 40

/-- `flick_pos` in `solve`. -/
def flick_pos (px py : ℚ) (offset : ℤ) (sina cosa : ℚ) : Point :=
  let rate : ℚ := 1 - 2 * |(offset : ℚ)| / (FLICK_DURATION : ℚ)
  (px - sina * FLICK_RADIUS * rate, py + cosa * FLICK_RADIUS * rate)

/-- `range(-5, 6)`: the micro-adjustment offsets tried for an off-screen
FLICK, in order. -/
def dtRange : List ℤ := (List.range 11).map (fun (i : ℕ) => (i : ℤ) - 5)

/-- Candidate geometry for the off-screen-FLICK rescue at `time + dt`:
the `(pxx, pyy, new_sa, new_ca)` recomputed at the adjusted time. -/
def flickCandidate (line : LineModel) (event : Note) (off_x : ℚ) (dt : ℤ) :
    ℚ × ℚ × ℚ × ℚ :=
  let new_time := event.time + (dt : ℚ)
  let p := line.posAt new_time
  let new_sa := line.sinAngleAt new_time
  let new_ca := line.cosAngleAt new_time
  (p.1 + off_x * new_ca, p.2 + off_x * new_sa, new_sa, new_ca)

/-- The FLICK off-screen fallback block of `solve`: the adopted
`(px, py, sa, ca)`. -/
def flickResolve (ext : ExtFuns) (line : LineModel) (event : Note) (off_x : ℚ)
    (px py sa ca : ℚ) : ℚ × ℚ × ℚ × ℚ :=
  if ext.in_screen (px, py) then (px, py, sa, ca)
  else
    match dtRange.find? (fun dt =>
        let c := flickCandidate line event off_x dt
        ext.in_screen (c.1, c.2.1)) with
    | some dt => flickCandidate line event off_x dt
    | none =>
        let q := ext.recalc_pos (px, py) sa ca
        (q.1, q.2, sa, ca)

/-- The FLICK sample offsets: `range(FLICK_START + 1, FLICK_END)` filtered
by `offset % 2 == 0 or offset == FLICK_END - 1`. -/
def flickOffsets : List ℤ :=
  ((List.range 39).map (fun (i : ℕ) => (i : ℤ) + (FLICK_START_MS + 1))).filter
    (fun o => o % 2 == 0 || o == FLICK_END_MS - 1)

/-- The HOLD sample offsets: `range(1, hold_ms)` filtered by
`offset % step == 0 or offset == hold_ms - 1` with
`step = max(1, hold_ms // 20)` (Python `//` is floor division). -/
def holdOffsets (hold_ms : ℤ) : List ℤ :=
  let step : ℤ := max 1 (Int.fdiv hold_ms 20)
  ((List.range (hold_ms - 1).toNat).map (fun (i : ℕ) => (i : ℤ) + 1)).filter
    (fun o => o % step == 0 || o == hold_ms - 1)

/-- The per-note arm of the frame-statistics loop of `solve`: the frame
events one note contributes, in emission order, tagged with its event id. -/
def noteEvents (ext : ExtFuns) (line : LineModel) (event : Note) (id : ℕ) :
    List (ℤ × FrameEvent) :=
  let ms : ℤ := pyInt (line.seconds event.time * 1000 + 1/2)
  let off_x := event.x * 72
  let p := line.posAt event.time
  let sa := line.sinAngleAt event.time
  let ca := line.cosAngleAt event.time
  let px := p.1 + off_x * ca
  let py := p.2 + off_x * sa
  match event.type with
  | .TAP => [(ms, ⟨.TAP, ext.recalc_pos (px, py) sa ca, id⟩)]
  | .DRAG => [(ms, ⟨.DRAG, ext.recalc_pos (px, py) sa ca, id⟩)]
  | .FLICK =>
      let g := flickResolve ext line event off_x px py sa ca
      let qx := g.1
      let qy := g.2.1
      let gsa := g.2.2.1
      let gca := g.2.2.2
      [(ms + FLICK_START_MS,
        ⟨.FLICK_START, ext.recalc_pos (flick_pos qx qy FLICK_START_MS gsa gca) gsa gca, id⟩)] ++
      flickOffsets.map (fun offset =>
        (ms + offset, ⟨.FLICK, ext.recalc_pos (flick_pos qx qy offset gsa gca) gsa gca, id⟩)) ++
      [(ms + FLICK_END_MS,
        ⟨.FLICK_END, ext.recalc_pos (flick_pos qx qy FLICK_END_MS gsa gca) gsa gca, id⟩)]
  | .HOLD =>
      let hold_ms : ℤ := ⌈line.seconds event.hold * 1000⌉
      [(ms, ⟨.HOLD_START, ext.recalc_pos (px, py) sa ca, id⟩)] ++
      (holdOffsets hold_ms).map (fun offset =>
        (ms + offset,
          ⟨.HOLD,
            ext.recalc_pos (line.posOf event (line.time (((ms + offset : ℤ) : ℚ) / 1000))) sa ca,
            id⟩)) ++
      [(ms + hold_ms,
        ⟨.HOLD_END,
          ext.recalc_pos (line.posOf event (line.time (((ms + hold_ms : ℤ) : ℚ) / 1000))) sa ca,
          id⟩)]

/-- All notes of the chart in iteration order (`notes_above + notes_below`
per line), each paired with its line. -/
def allNotes (chart : Chart) : List (LineModel × Note) :=
  chart.judge_lines.flatMap (fun line =>
    (line.notes_above ++ line.notes_below).map (fun n => (line, n)))

/-- The frame-statistics pass of `solve` as a flat emission-ordered list;
`current_event_id` increments once per note. -/
def synthFlat (ext : ExtFuns) (chart : Chart) : List (ℤ × FrameEvent) :=
  (allNotes chart).enum.flatMap (fun e => noteEvents ext e.2.1 e.2.2 e.1)

/-- `sorted(frames.items())`: the bucket map sorted by its ms key. -/
def sortEnt (l : List (ℤ × α)) : List (ℤ × α) :=
  l.insertionSort (fun a b => a.1 ≤ b.1)

/-- `solve(chart)`: frame synthesis, pointer planning, and the final
`finish` pass.  A `RuntimeError` from `recycle` propagates, so no result is
returned in that case. -/
def solve (ext : ExtFuns) (chart : Chart) :
    Except PlanError (PyDict ℤ (List VirtualTouchEvent)) :=
  let frames := buildMap (synthFlat ext chart)
  match planFrames ext (sortEnt frames) (PMState.init 1000 1) with
  | (out, s, none) => .ok (buildMap (out ++ (finish s).map upTouch))
  | (_, _, some e) => .error e

/-- All touch events of an output map in chronological order: buckets
sorted by their ms key, each bucket kept in its list order. -/
def chron (m : PyDict ℤ (List α)) : List (ℤ × α) :=
  (sortEnt m).flatMap (fun e => e.2.map (fun x => (e.1, x)))

/-- The chronological action sequence of one pointer id in the output. -/
def pidSeq (m : PyDict ℤ (List VirtualTouchEvent)) (pid : ℕ) : List TouchAction :=
  ((chron m).filter (fun x => x.2.pointer_id == pid)).map (fun x => x.2.action)

/-- Automaton step for the language `(DOWN MOVE* UP)*`: `some true` means a
run is open, `some false` means all runs so far are closed, `none` means
the sequence is ill-formed. -/
def runStep (st : Option Bool) (a : TouchAction) : Option Bool :=
  match st, a with
  | some false, .DOWN => some true
  | some true, .MOVE => some true
  | some true, .UP => some false
  | _, _ => none

def parseRuns (l : List TouchAction) : Option Bool := l.foldl runStep (some false)

/-- `l` matches the regular language `(DOWN MOVE* UP)*`. -/
def balancedRuns (l : List TouchAction) : Bool := parseRuns l == some false

/-- `l` matches `(DOWN MOVE* UP)* DOWN MOVE*`: well formed with one run
still open. -/
def openRun (l : List TouchAction) : Bool := parseRuns l == some true

/-!  ## `src/control.py`: `DeviceController.touch`  -/

/-- The exceptions the body of `DeviceController.touch` can raise:
`struct.error` from `struct.pack`, the connection errors
(`BrokenPipeError`, `ConnectionResetError`, `OSError`) from
`control_socket.send`, and any other `Exception`. -/
inductive PyExc where
  | structError
  | connectionError
  | otherError
deriving DecidableEq, Repr

/-- The state of `DeviceController` that `touch` reads or writes. -/
structure CtrlState where
  device_width : ℕ
  device_height : ℕ
  collector_running : Bool
deriving DecidableEq, Repr

/-- The payload of the `struct.pack('!bbQiiHHHII', ...)` touch message. -/
structure TouchPacket where
  action_value : ℕ
  pointer_id : ℕ
  x : ℤ
  y : ℤ
  width : ℕ
  height : ℕ
deriving DecidableEq, Repr

/-- `TouchAction.value` in `control.py`. -/
def TouchAction.value : TouchAction → ℕ
  | .DOWN => 0
  | .UP => 1
  | .MOVE => 2

/-- `max(0, min(v, bound - 1))`: the coordinate clamp in `touch`. -/
def pyClamp (v : ℤ) (bound : ℕ) : ℤ := max 0 (min v ((bound : ℤ) - 1))

/-- `struct.pack('!bbQiiHHHII', ...)`: raises `struct.error` when a field
does not fit its format code (`Q` = u64, `i` = i32, `H` = u16). -/
def packTouch (action : TouchAction) (pointer_id : ℕ) (x y : ℤ) (w h : ℕ) :
    Except PyExc TouchPacket :=
  if pointer_id < 2 ^ 64 ∧ -2 ^ 31 ≤ x ∧ x < 2 ^ 31 ∧ -2 ^ 31 ≤ y ∧ y < 2 ^ 31 ∧
      w < 2 ^ 16 ∧ h < 2 ^ 16 then
    .ok ⟨action.value, pointer_id, x, y, w, h⟩
  else
    .error .structError

/-- The `try` block of `touch`: pack the message, then send it.  The
outcome of `control_socket.send` is an oracle `o` (`none` = success,
`some e` = the raised exception). -/
def touchBody (st : CtrlState) (x y : ℤ) (action : TouchAction) (pointer_id : ℕ)
    (o : Option PyExc) : Except PyExc TouchPacket :=
  match packTouch action pointer_id x y st.device_width st.device_height with
  | .error e => .error e
  | .ok data =>
      match o with
      | some e => .error e
      | none => .ok data

/-- `DeviceController.touch`: clamp the coordinates, then run the `try`
block; connection errors set `collector_running = False`, any other
exception is only logged.  Returns the new state and the packet that was
sent (if any); no exception propagates. -/
def touch (st : CtrlState) (x y : ℤ) (action : TouchAction) (pointer_id : ℕ)
    (o : Option PyExc) : CtrlState × Option TouchPacket :=
  let x' := pyClamp x st.device_width
  let y' := pyClamp y st.device_height
  match touchBody st x' y' action pointer_id o with
  | .ok data => (st, some data)
  | .error .connectionError => ({ st with collector_running := false }, none)
  | .error _ => (st, none)

/-!  ## Generic lemmas about the dict embedding  -/

theorem pdErase_sublist [DecidableEq κ] (d : PyDict κ ν) (k : κ) :
    (pdErase d k).Sublist d := by
  induction d with
  | nil => simp [pdErase]
  | cons a t ih =>
      by_cases hk : a.1 = k
      · simpa [pdErase, hk] using List.sublist_cons_self a t
      · simpa [pdErase, hk] using ih.cons₂ a

theorem nodupKeys_eq_of_key_eq {κ ν : Type} {l : List (κ × ν)}
    (h : (l.map (·.1)).Nodup) {e e' : κ × ν} (he : e ∈ l) (he' : e' ∈ l)
    (hk : e.1 = e'.1) : e = e' := by
  induction l with
  | nil => cases he
  | cons a t ih =>
      simp only [List.map_cons, List.nodup_cons] at h
      rcases List.mem_cons.1 he with rfl | he2
      · rcases List.mem_cons.1 he' with rfl | he2'
        · rfl
        · refine absurd ?_ h.1
          rw [hk]
          exact List.mem_map_of_mem (·.1) he2'
      · rcases List.mem_cons.1 he' with rfl | he2'
        · refine absurd ?_ h.1
          rw [← hk]
          exact List.mem_map_of_mem (·.1) he2
        · exact ih h.2 he2 he2'

theorem pdErase_eq_filter [DecidableEq κ] (d : PyDict κ ν) (k : κ)
    (h : (d.map (·.1)).Nodup) :
    pdErase d k = d.filter (fun e => decide (e.1 ≠ k)) := by
  induction d with
  | nil => rfl
  | cons a t ih =>
      simp only [List.map_cons, List.nodup_cons] at h
      by_cases hk : a.1 = k
      · rw [pdErase, if_pos hk, List.filter_cons_of_neg (by simp [hk])]
        refine (List.filter_eq_self.2 ?_).symm
        intro e he
        simp only [decide_eq_true_eq]
        intro hek
        exact h.1 ((hek.trans hk.symm) ▸ List.mem_map_of_mem (·.1) he)
      · rw [pdErase, if_neg hk, List.filter_cons_of_pos (by simp [hk]), ih h.2]

theorem foldl_pdErase_eq_filter [DecidableEq κ] (ks : List κ) (d : PyDict κ ν)
    (h : (d.map (·.1)).Nodup) :
    ks.foldl pdErase d = d.filter (fun e => decide (e.1 ∉ ks)) := by
  induction ks generalizing d with
  | nil => simp
  | cons k kt ih =>
      have h1 : (((pdErase d k).map (·.1)).Nodup) :=
        h.sublist ((pdErase_sublist d k).map (·.1))
      rw [List.foldl_cons, ih (pdErase d k) h1, pdErase_eq_filter d k h,
        List.filter_filter]
      apply List.filter_congr
      intro e _
      by_cases h1 : e.1 = k <;> by_cases h2 : e.1 ∈ kt <;> simp [h1, h2]

/-!  ## C3: characterisation of `recycle`  -/

/-- A pointer after the `ptr.occupied += 1` of the keyframe aging loop. -/
def incPtr (p : Pointer) : Pointer := { p with occupied := p.occupied + 1 }

/-- The `(max_pointer_id, recycled)` projection of `_del`, as a pure
function of the allocator fields. -/
def allocDel (b delta : ℕ) (a : ℕ × List ℕ) (pointer_id : ℕ) : ℕ × List ℕ :=
  let recycled' := if pointer_id ∈ a.2 then a.2 else a.2 ++ [pointer_id]
  if (recycled'.length : ℚ) = ((a.1 : ℚ) - (b : ℚ)) / (delta : ℚ) then (b, [])
  else (a.1, recycled')

theorem pmDel_proj (t : PMState) (p : ℕ) :
    ((pmDel t p).max_pointer_id, (pmDel t p).recycled) =
      allocDel t.begin_ t.delta (t.max_pointer_id, t.recycled) p ∧
    (pmDel t p).begin_ = t.begin_ ∧ (pmDel t p).delta = t.delta := by
  unfold pmDel allocDel
  by_cases h : ((if p ∈ t.recycled then t.recycled else t.recycled ++ [p]).length : ℚ) =
      ((t.max_pointer_id : ℚ) - (t.begin_ : ℚ)) / (t.delta : ℚ) <;>
    simp [h]

/-- The keyframe aging loop of `recycle`, characterised: every `unused`
entry gets `occupied` incremented; entries whose incremented counter
exceeds 1 each yield one UP at `timestamp + 1` at their last position, are
marked, and have their pid `_del`-ed. -/
theorem foldl_recycleStep (l : List (ℕ × Pointer)) (es : PyDict ℕ Pointer)
    (us : List (ℕ × ℤ × Point)) (ms : List ℕ) (st : PMState) :
    l.foldl recycleStep (es, us, ms, st) =
      (es ++ l.map (fun e => (e.1, incPtr e.2)),
       us ++ (l.filter (fun e => decide (e.2.occupied + 1 > 1))).map
         (fun e => (e.2.pid, e.2.timestamp + 1, e.2.pos)),
       ms ++ (l.filter (fun e => decide (e.2.occupied + 1 > 1))).map (fun e => e.2.pid),
       l.foldl (fun t e => if e.2.occupied + 1 > 1 then pmDel t e.2.pid else t) st) := by
  induction l generalizing es us ms st with
  | nil => simp
  | cons a t ih =>
      by_cases h : a.2.occupied + 1 > 1
      · have h' : 0 < a.2.occupied := by omega
        simp [recycleStep, incPtr, h, h', ih, List.filter_cons]
      · have h' : ¬ 0 < a.2.occupied := by omega
        simp [recycleStep, incPtr, h, h', ih, List.filter_cons]

theorem foldl_ite_filter (l : List α) (p : α → Prop) [DecidablePred p]
    (f : β → α → β) (b : β) :
    l.foldl (fun acc x => if p x then f acc x else acc) b =
      (l.filter (fun x => decide (p x))).foldl f b := by
  induction l generalizing b with
  | nil => rfl
  | cons a t ih =>
      by_cases h : p a <;> simp [List.filter_cons, h, ih]

theorem foldl_pmDel_proj (l : List (ℕ × Pointer)) (t : PMState) :
    ((l.foldl (fun t e => pmDel t e.2.pid) t).max_pointer_id,
     (l.foldl (fun t e => pmDel t e.2.pid) t).recycled) =
      l.foldl (fun a e => allocDel t.begin_ t.delta a e.2.pid)
        (t.max_pointer_id, t.recycled) := by
  induction l generalizing t with
  | nil => rfl
  | cons a r ih =>
      have hp := pmDel_proj t a.2.pid
      simp only [List.foldl_cons]
      rw [ih (pmDel t a.2.pid), hp.2.1, hp.2.2, hp.1]

theorem pmDel_fields (t : PMState) (p : ℕ) :
    (pmDel t p).pointers = t.pointers ∧ (pmDel t p).unused = t.unused ∧
    (pmDel t p).unused_now = t.unused_now ∧
    (pmDel t p).mark_as_released = t.mark_as_released ∧ (pmDel t p).now = t.now := by
  unfold pmDel
  split <;> (dsimp only; split <;> exact ⟨rfl, rfl, rfl, rfl, rfl⟩)

theorem foldl_ite_pmDel_fields (l : List (ℕ × Pointer)) (t : PMState)
    (c : ℕ × Pointer → Prop) [DecidablePred c] :
    (l.foldl (fun t e => if c e then pmDel t e.2.pid else t) t).pointers = t.pointers ∧
    (l.foldl (fun t e => if c e then pmDel t e.2.pid else t) t).unused = t.unused ∧
    (l.foldl (fun t e => if c e then pmDel t e.2.pid else t) t).unused_now = t.unused_now ∧
    (l.foldl (fun t e => if c e then pmDel t e.2.pid else t) t).mark_as_released =
      t.mark_as_released ∧
    (l.foldl (fun t e => if c e then pmDel t e.2.pid else t) t).now = t.now := by
  induction l generalizing t with
  | nil => exact ⟨rfl, rfl, rfl, rfl, rfl⟩
  | cons a r ih =>
      simp only [List.foldl_cons]
      by_cases h : c a
      · rw [if_pos h]
        have h1 := ih (pmDel t a.2.pid)
        have h2 := pmDel_fields t a.2.pid
        exact ⟨h1.1.trans h2.1, h1.2.1.trans h2.2.1, h1.2.2.1.trans h2.2.2.1,
          h1.2.2.2.1.trans h2.2.2.2.1, h1.2.2.2.2.trans h2.2.2.2.2⟩
      · rw [if_neg h]
        exact ih t

/-- C3 (amended): `recycle(is_keyframe=True)` increments the `occupied`
counter of every pointer in `unused`; each pointer whose counter then
exceeds 1 yields exactly one UP at `ptr.timestamp + 1` (not `now + 1`) at
its last position, has its pid freed via `_del`, and is removed from
`unused` (the survivors, incremented, are then merged with `unused_now`);
`recycle(is_keyframe=False)` yields no UP events. -/
theorem claim_C3_recycle_spec (s : PMState)
    (hk : (s.unused.map (·.1)).Nodup) (hp : ∀ e ∈ s.unused, e.2.pid = e.1) :
    (recycle true s).1 =
      (s.unused.filter (fun e => decide (e.2.occupied + 1 > 1))).map
        (fun e => (e.2.pid, e.2.timestamp + 1, e.2.pos)) ∧
    (recycle true s).2.1.unused =
      pdMerge ((s.unused.filter (fun e => decide (¬ e.2.occupied + 1 > 1))).map
        (fun e => (e.1, incPtr e.2))) s.unused_now ∧
    ((recycle true s).2.1.max_pointer_id, (recycle true s).2.1.recycled) =
      (s.unused.filter (fun e => decide (e.2.occupied + 1 > 1))).foldl
        (fun a e => allocDel s.begin_ s.delta a e.2.pid)
        (s.max_pointer_id, s.recycled) ∧
    (recycle false s).1 = [] := by
  have hmarked :
      ((s.unused.filter (fun e => decide (e.2.occupied + 1 > 1))).map
          (fun e => e.2.pid)).foldl pdErase
        (s.unused.map (fun e => (e.1, incPtr e.2))) =
      (s.unused.filter (fun e => decide (¬ e.2.occupied + 1 > 1))).map
        (fun e => (e.1, incPtr e.2)) := by
    rw [foldl_pdErase_eq_filter _ _ (by simpa using hk), List.filter_map]
    congr 1
    apply List.filter_congr
    intro e he
    simp only [Function.comp, decide_eq_decide, incPtr]
    constructor
    · intro hnot hcond
      apply hnot
      simp only [List.mem_map, List.mem_filter]
      exact ⟨e, ⟨he, by simpa using hcond⟩, hp e he⟩
    · intro hncond hmem
      simp only [List.mem_map, List.mem_filter] at hmem
      obtain ⟨e', ⟨he', hc'⟩, hpe'⟩ := hmem
      have : e' = e := nodupKeys_eq_of_key_eq hk he' he ((hp e' he').symm.trans hpe')
      subst this
      exact hncond (by simpa using hc')
  constructor
  · unfold recycle
    simp only [if_true, foldl_recycleStep, List.nil_append]
    split <;> rfl
  constructor
  · unfold recycle
    simp only [if_true, foldl_recycleStep, List.nil_append]
    have hfield := foldl_ite_pmDel_fields s.unused
      ({ s with pointers := s.mark_as_released.foldl pdErase s.pointers,
                mark_as_released := [] })
      (fun e => 0 < e.2.occupied)
    split <;> simp_all [hmarked, hfield.2.2.1]
  constructor
  · unfold recycle
    simp only [if_true, foldl_recycleStep, List.nil_append]
    have hfd := foldl_ite_filter s.unused (fun e => e.2.occupied + 1 > 1)
      (fun t e => pmDel t e.2.pid)
      ({ s with pointers := s.mark_as_released.foldl pdErase s.pointers,
                mark_as_released := [] })
    have hproj := foldl_pmDel_proj
      (s.unused.filter (fun e => decide (0 < e.2.occupied)))
      ({ s with pointers := s.mark_as_released.foldl pdErase s.pointers,
                mark_as_released := [] })
    split <;> simp_all [hfd, hproj]
  · unfold recycle
    simp only [if_neg Bool.false_ne_true]
    split <;> rfl

/-!  ## Concrete fixtures for counterexamples and witnesses  -/

/-- A concrete instantiation of the external helpers: taxicab distance,
identity projection, everything on-screen. -/
def extW : ExtFuns := ⟨fun p q => |p.1 - q.1| + |p.2 - q.2|, fun p _ _ => p, fun _ => true⟩

def tapNote (t : ℚ) : Note := ⟨.TAP, t, 0, 0⟩

/-- A stationary judgment line whose `seconds` is the identity. -/
def lineW (notes : List Note) : LineModel :=
  ⟨fun t => t, fun t => t, fun _ => (0, 0), fun _ => 0, fun _ => 1, fun _ _ => (0, 0),
    notes, []⟩

/-- A state reachable by a release at ms 0 followed by a keyframe recycle
at a later ms: one unused pointer with `timestamp = 0`, `occupied = 1`,
observed by `recycle` at `now = 10`. -/
def recycleCEState : PMState :=
  ⟨1000, 1, 1001, [], [], [(1000, ⟨1000, (0, 0), 0, 1⟩)], [], [], 10⟩

/-- C3 counterexample: at `recycleCEState` the keyframe recycle yields the
UP `(1000, 1, pos)` — timestamp `ptr.timestamp + 1 = 1` — whereas the claim
says the UP carries `now + 1 = 11`. -/
theorem claim_C3_counterexample :
    (recycle true recycleCEState).1 = [(1000, 1, ((0 : ℚ), (0 : ℚ)))] ∧
    recycleCEState.now + 1 = 11 ∧ (1 : ℤ) ≠ 11 := by decide

/-- Witness for C3: the hypotheses hold at `recycleCEState` and the
characterisation evaluates there. -/
theorem claim_C3_witness :
    (recycleCEState.unused.map (·.1)).Nodup ∧
    (recycle true recycleCEState).1 = [(1000, 1, ((0 : ℚ), (0 : ℚ)))] :=
  ⟨by decide,
    ((claim_C3_recycle_spec recycleCEState (by decide) (by decide)).1).trans (by decide)⟩

/-!  ## C2: the pointer budget  -/

theorem recycle_now_eq (kf : Bool) (s : PMState) : (recycle kf s).2.1.now = s.now := by
  cases kf
  · unfold recycle
    dsimp only
    rw [if_neg (show ¬(false = true) by simp)]
    split <;> rfl
  · unfold recycle
    dsimp only
    rw [if_pos (show (true = true) from rfl), foldl_recycleStep]
    have hfield := foldl_ite_pmDel_fields s.unused
      ({ s with pointers := s.mark_as_released.foldl pdErase s.pointers,
                mark_as_released := [] })
      (fun e => e.2.occupied + 1 > 1)
    split <;> simp_all

/-- The overall shape of `recycle`: the error is present exactly when the
final budget check fails, and it carries both counts and the current ms. -/
theorem recycle_shape (kf : Bool) (s : PMState) :
    (recycle kf s).2.2 =
      if 15 < (recycle kf s).2.1.unused.length + (recycle kf s).2.1.pointers.length then
        some ⟨(recycle kf s).2.1.unused.length, (recycle kf s).2.1.pointers.length,
              (recycle kf s).2.1.now⟩
      else none := by
  cases kf
  · unfold recycle
    dsimp only
    rw [if_neg (show ¬(false = true) by simp)]
    split
    · dsimp only
    · dsimp only
  · unfold recycle
    dsimp only
    rw [if_pos (show (true = true) from rfl), foldl_recycleStep]
    split
    · dsimp only
    · dsimp only

/-- C2 (amended): after every `recycle` that completes without raising, the
invariant `len(unused) + len(pointers) ≤ 15` holds; when `recycle` finds
the count above 15 it raises an error that names the current ms and carries
both counts; and the planning loop stops at the first raising frame, so the
frames after it contribute nothing.  (Mid-frame — between `acquire` calls
and the `recycle` check — the count can exceed 15 without an error; see the
counterexample.) -/
theorem claim_C2_budget :
    (∀ (kf : Bool) (s : PMState),
      ((recycle kf s).2.2 = none →
        (recycle kf s).2.1.unused.length + (recycle kf s).2.1.pointers.length ≤ 15) ∧
      (∀ e, (recycle kf s).2.2 = some e →
        e.ms = s.now ∧
        15 < (recycle kf s).2.1.unused.length + (recycle kf s).2.1.pointers.length ∧
        e.unused_count = (recycle kf s).2.1.unused.length ∧
        e.pointers_count = (recycle kf s).2.1.pointers.length)) ∧
    (∀ (ext : ExtFuns) (f : ℤ × List FrameEvent) (rest : List (ℤ × List FrameEvent))
      (s : PMState) (e : PlanError),
      (processFrame ext s f).2.2 = some e →
        planFrames ext (f :: rest) s =
          ((processFrame ext s f).1, (processFrame ext s f).2.1, some e)) := by
  constructor
  · intro kf s
    have hsh := recycle_shape kf s
    have hnow := recycle_now_eq kf s
    by_cases hc : 15 < (recycle kf s).2.1.unused.length + (recycle kf s).2.1.pointers.length
    · rw [if_pos hc] at hsh
      refine ⟨fun h => absurd (h.symm.trans hsh) (by simp), fun e he => ?_⟩
      have : some e = some (⟨(recycle kf s).2.1.unused.length,
          (recycle kf s).2.1.pointers.length, (recycle kf s).2.1.now⟩ : PlanError) :=
        he.symm.trans hsh
      injection this with h2
      subst h2
      exact ⟨hnow, hc, rfl, rfl⟩
    · rw [if_neg hc] at hsh
      exact ⟨fun _ => by omega, fun e he => absurd (he.symm.trans hsh) (by simp)⟩
  · intro ext f rest s e he
    have hval : processFrame ext s f =
        ((processFrame ext s f).1, (processFrame ext s f).2.1, some e) := by
      rw [← he]
    unfold planFrames
    rw [hval]

instance [DecidableEq ε] [DecidableEq α] : DecidableEq (Except ε α) := fun x y =>
  match x, y with
  | .ok a, .ok b => decidable_of_iff (a = b) (by simp)
  | .error a, .error b => decidable_of_iff (a = b) (by simp)
  | .ok _, .error _ => isFalse (by simp)
  | .error _, .ok _ => isFalse (by simp)

/-- The planner state produced by a frame of 16 simultaneous TAP notes:
16 live pointers, nothing unused yet. -/
def budget16State : PMState :=
  ⟨1000, 1, 1016, (List.range 16).map (fun i => (i, ⟨1000 + i, (0, 0), 0, 0⟩)),
    [], [], [], [], 0⟩

/-- Witness for C2: at `budget16State` the recycle check fires and the
error names the current ms and both counts. -/
theorem claim_C2_witness :
    (recycle false budget16State).2.2 = some (⟨0, 16, 0⟩ : PlanError) ∧
    ((⟨0, 16, 0⟩ : PlanError).ms = budget16State.now ∧
     15 < (recycle false budget16State).2.1.unused.length +
       (recycle false budget16State).2.1.pointers.length ∧
     (⟨0, 16, 0⟩ : PlanError).unused_count =
       (recycle false budget16State).2.1.unused.length ∧
     (⟨0, 16, 0⟩ : PlanError).pointers_count =
       (recycle false budget16State).2.1.pointers.length) :=
  ⟨by decide, (claim_C2_budget.1 false budget16State).2 ⟨0, 16, 0⟩ (by decide)⟩

/-- A chart with 16 TAP notes at the same judgment ms. -/
def chart16 : Chart := ⟨[lineW (List.replicate 16 (tapNote 0))]⟩

/-- The single frame the synthesizer produces for `chart16`. -/
def frame16 : ℤ × List FrameEvent := (sortEnt (buildMap (synthFlat extW chart16))).headI

/-- The planner state reached while planning `chart16`, after the frame's
event loop (16 `acquire`/`release` pairs) and before `recycle`. -/
def mid16 : PMState :=
  (processFrameEvents extW ({ PMState.init 1000 1 with now := frame16.1 }) frame16.2).2.1

/-- C2 counterexample: during planning of `chart16`, between the event loop
and the `recycle` check, `len(pointers) + len(unused) = 16 > 15` with no
error raised yet — the claimed "at most 15 at every point" fails; `solve`
then aborts with the budget error at ms 0. -/
theorem claim_C2_counterexample :
    mid16.pointers.length + mid16.unused.length = 16 ∧
    solve extW chart16 = .error ⟨16, 0, 0⟩ := by decide

/-!  ## C6 and C8: `acquire` -/

/-- The reuse score of `acquire`: spatial distance plus the time factor
`(now - timestamp) / 50`. -/
def reuseScore (ext : ExtFuns) (event : FrameEvent) (now : ℤ) (p : Pointer) : ℚ :=
  ext.distance_of event.point p.pos + ((now : ℚ) - (p.timestamp : ℚ)) / 50

/-- Invariant of the candidate-search loop of `acquire`: over the entries
seen so far, either no candidate is within distance 120 and the best is
still `None`, or the best is a qualified entry of minimum score. -/
def BestInv (ext : ExtFuns) (event : FrameEvent) (s : PMState)
    (l : List (ℕ × Pointer)) (b : Option (ℕ × ℚ × Pointer)) : Prop :=
  (b = none ∧ ∀ e ∈ l, ¬ ext.distance_of event.point e.2.pos < 120) ∨
  (∃ e ∈ l, b = some (e.2.pid, reuseScore ext event s.now e.2, e.2) ∧
    ext.distance_of event.point e.2.pos < 120 ∧
    ∀ e' ∈ l, ext.distance_of event.point e'.2.pos < 120 →
      reuseScore ext event s.now e.2 ≤ reuseScore ext event s.now e'.2)

theorem bestFold_inv (ext : ExtFuns) (event : FrameEvent) (s : PMState)
    (l : List (ℕ × Pointer)) (pre : List (ℕ × Pointer))
    (b0 : Option (ℕ × ℚ × Pointer)) (hInv : BestInv ext event s pre b0) :
    BestInv ext event s (pre ++ l)
      (l.foldl
        (fun best e =>
          let d := ext.distance_of event.point e.2.pos
          let score := d + ((s.now : ℚ) - (e.2.timestamp : ℚ)) / 50
          if (match best with
              | none => true
              | some (_, m, _) => decide (score < m)) && decide (d < 120) then
            some (e.2.pid, score, e.2)
          else best)
        b0) := by
  induction l generalizing pre b0 with
  | nil => simpa using hInv
  | cons a t ih =>
      rw [List.foldl_cons]
      have hstep : BestInv ext event s (pre ++ [a])
          ((fun (best : Option (ℕ × ℚ × Pointer)) (e : ℕ × Pointer) =>
            let d := ext.distance_of event.point e.2.pos
            let score := d + ((s.now : ℚ) - (e.2.timestamp : ℚ)) / 50
            if (match best with
                | none => true
                | some (_, m, _) => decide (score < m)) && decide (d < 120) then
              some (e.2.pid, score, e.2)
            else best) b0 a) := by
        dsimp only
        by_cases hq : ext.distance_of event.point a.2.pos < 120
        · rcases hInv with ⟨hb, hall⟩ | ⟨e, he, hb, heq, hmin⟩
          · subst hb
            rw [if_pos (by simp [hq])]
            refine Or.inr ⟨a, by simp, rfl, hq, ?_⟩
            intro e' he' hq'
            rcases List.mem_append.1 he' with he' | he'
            · exact absurd hq' (hall e' he')
            · simp only [List.mem_singleton] at he'
              subst he'
              exact le_refl _
          · subst hb
            by_cases hlt : (ext.distance_of event.point a.2.pos +
                ((s.now : ℚ) - (a.2.timestamp : ℚ)) / 50) < reuseScore ext event s.now e.2
            · rw [if_pos (by simp [hq, reuseScore] at hlt ⊢; exact hlt)]
              refine Or.inr ⟨a, by simp, rfl, hq, ?_⟩
              intro e' he' hq'
              rcases List.mem_append.1 he' with he' | he'
              · calc ext.distance_of event.point a.2.pos +
                      ((s.now : ℚ) - (a.2.timestamp : ℚ)) / 50
                    ≤ reuseScore ext event s.now e.2 := le_of_lt hlt
                  _ ≤ reuseScore ext event s.now e'.2 := hmin e' he' hq'
              · simp only [List.mem_singleton] at he'
                subst he'
                exact le_refl _
            · rw [if_neg ?hneg]
              case hneg =>
                simp only [Bool.and_eq_true, decide_eq_true_eq, not_and]
                intro hless
                exact absurd (by simpa [reuseScore] using hless) hlt
              refine Or.inr ⟨e, List.mem_append_left _ he, rfl, heq, ?_⟩
              intro e' he' hq'
              rcases List.mem_append.1 he' with he' | he'
              · exact hmin e' he' hq'
              · simp only [List.mem_singleton] at he'
                subst he'
                simp only [reuseScore] at hlt ⊢
                exact le_of_not_lt hlt
        · rw [if_neg (by simp [hq])]
          rcases hInv with ⟨hb, hall⟩ | ⟨e, he, hb, heq, hmin⟩
          · refine Or.inl ⟨hb, ?_⟩
            intro e' he'
            rcases List.mem_append.1 he' with he' | he'
            · exact hall e' he'
            · simp only [List.mem_singleton] at he'
              subst he'
              exact hq
          · refine Or.inr ⟨e, List.mem_append_left _ he, hb, heq, ?_⟩
            intro e' he' hq'
            rcases List.mem_append.1 he' with he' | he'
            · exact hmin e' he' hq'
            · simp only [List.mem_singleton] at he'
              subst he'
              exact absurd hq' hq
      have h2 := ih (pre ++ [a]) _ hstep
      rw [List.append_assoc] at h2
      exact h2

/-- C6: when `acquire(event, new=False)` finds no live pointer for the
event id, any reused pointer is a member of `unused` within spatial
distance 120 of the event point that minimises
`distance + (now - timestamp)/50` among all such candidates; and a fresh
pid is allocated exactly when no pointer in `unused` is within distance
120. -/
theorem claim_C6_reuse_min (ext : ExtFuns) (event : FrameEvent) (s : PMState)
    (h : pdFind? s.pointers event.id = none) :
    ((acquire ext event false s).1.2 = false →
      ∃ e ∈ s.unused, (acquire ext event false s).1.1 = e.2.pid ∧
        ext.distance_of event.point e.2.pos < 120 ∧
        ∀ e' ∈ s.unused, ext.distance_of event.point e'.2.pos < 120 →
          reuseScore ext event s.now e.2 ≤ reuseScore ext event s.now e'.2) ∧
    ((acquire ext event false s).1.2 = true ↔
      ∀ e ∈ s.unused, ¬ ext.distance_of event.point e.2.pos < 120) := by
  have hinv := bestFold_inv ext event s s.unused [] none (Or.inl ⟨rfl, by simp⟩)
  rw [List.nil_append] at hinv
  unfold acquire
  rw [h]
  dsimp only
  rw [if_neg (show ¬(false = true) by simp)]
  split
  · rename_i nearest_pid score ptr heq
    rw [heq] at hinv
    rcases hinv with ⟨hnone, _⟩ | ⟨e, he, hb, hq, hmin⟩
    · exact absurd hnone (by simp)
    · injection hb with hb
      have hpid : nearest_pid = e.2.pid := congrArg Prod.fst hb
      have hptr : ptr = e.2 := congrArg (fun x => x.2.2) hb
      constructor
      · intro _
        exact ⟨e, he, by rw [hptr], hq, hmin⟩
      · constructor
        · intro hfalse
          exact absurd hfalse (by simp)
        · intro hall
          exact absurd hq (hall e he)
  · rename_i heq
    rw [heq] at hinv
    constructor
    · intro hfalse
      exact absurd hfalse (by simp)
    · refine ⟨fun _ => ?_, fun _ => rfl⟩
      rcases hinv with ⟨_, hall⟩ | ⟨e, he, hb, hq, hmin⟩
      · exact hall
      · exact absurd hb (by simp)

/-- Witness state for the `acquire` theorems: one close unused pointer at
distance 10 and a far one at distance 200. -/
def acquireWState : PMState :=
  ⟨1000, 1, 1002, [], [],
    [(1000, ⟨1000, (10, 0), 0, 0⟩), (1001, ⟨1001, (200, 0), 0, 0⟩)], [], [], 5⟩

def acquireWEvent : FrameEvent := ⟨.DRAG, (0, 0), 7⟩

/-- Witness for C6: at `acquireWState` the reuse search runs with a live
candidate set and the reuse branch is taken. -/
theorem claim_C6_witness :
    pdFind? acquireWState.pointers acquireWEvent.id = none ∧
    ((acquire extW acquireWEvent false acquireWState).1.2 = true ↔
      ∀ e ∈ acquireWState.unused, ¬ extW.distance_of acquireWEvent.point e.2.pos < 120) :=
  ⟨by decide, (claim_C6_reuse_min extW acquireWEvent acquireWState (by decide)).2⟩

/-- C8 (amended): when `acquire` allocates a fresh pid (no live pointer for
the event id and no reuse candidate within distance 120), the pid comes
from `_new`: when `recycled` is non-empty, it is some element of
`recycled`, which is removed (Python `set.pop` does not specify which
element, so not necessarily the smallest); when `recycled` is empty, it is
`max_pointer_id`, which is then advanced by `delta`. -/
theorem claim_C8_fresh_alloc (ext : ExtFuns) (event : FrameEvent) (new : Bool)
    (s : PMState) (h1 : pdFind? s.pointers event.id = none)
    (h2 : ∀ e ∈ s.unused, ¬ ext.distance_of event.point e.2.pos < 120) :
    (acquire ext event new s).1 = ((pmNew s).1, true) ∧
    (s.recycled ≠ [] →
      (pmNew s).1 ∈ s.recycled ∧
      (pmNew s).1 :: (pmNew s).2.recycled = s.recycled ∧
      (pmNew s).2.max_pointer_id = s.max_pointer_id) ∧
    (s.recycled = [] →
      (pmNew s).1 = s.max_pointer_id ∧
      (pmNew s).2.max_pointer_id = s.max_pointer_id + s.delta ∧
      (pmNew s).2.recycled = []) := by
  refine ⟨?_, ?_, ?_⟩
  · have hinv := bestFold_inv ext event s s.unused [] none (Or.inl ⟨rfl, by simp⟩)
    rw [List.nil_append] at hinv
    unfold acquire
    rw [h1]
    dsimp only
    cases new
    · rw [if_neg (show ¬(false = true) by simp)]
      split
      · rename_i nearest_pid score ptr heq
        rw [heq] at hinv
        rcases hinv with ⟨hnone, _⟩ | ⟨e, he, hb, hq, hmin⟩
        · exact absurd hnone (by simp)
        · exact absurd hq (h2 e he)
      · rfl
    · rw [if_pos (show (true = true) from rfl)]
  · intro hne
    match hr : s.recycled with
    | [] => exact absurd hr hne
    | p :: rest =>
        unfold pmNew
        rw [hr]
        exact ⟨by simp, rfl, rfl⟩
  · intro hr
    unfold pmNew
    rw [hr]
    exact ⟨rfl, rfl, rfl⟩

/-- A state whose `recycled` set was built by `_del(1010)` then
`_del(1003)` under `begin = 1000`, `delta = 1`, `max_pointer_id = 1011`. -/
def allocCEState : PMState :=
  pmDel (pmDel ⟨1000, 1, 1011, [], [], [], [], [], 0⟩ 1010) 1003

/-- C8 counterexample: with `recycled = {1010, 1003}` (recycled in that
order), `_new` pops 1010 — not the smallest element 1003. -/
theorem claim_C8_counterexample :
    allocCEState.recycled = [1010, 1003] ∧ (pmNew allocCEState).1 = 1010 ∧
    (1003 : ℕ) ∈ allocCEState.recycled ∧ (1003 : ℕ) < 1010 := by decide

/-- Witness for C8: at `allocCEState` with an empty `unused`, a fresh
acquisition pops an element of `recycled`. -/
theorem claim_C8_witness :
    (pdFind? allocCEState.pointers acquireWEvent.id = none ∧
      ∀ e ∈ allocCEState.unused, ¬ extW.distance_of acquireWEvent.point e.2.pos < 120) ∧
    (acquire extW acquireWEvent true allocCEState).1 = ((pmNew allocCEState).1, true) :=
  ⟨⟨by decide, by decide⟩,
    (claim_C8_fresh_alloc extW acquireWEvent true allocCEState (by decide) (by decide)).1⟩

/-!  ## C4 and C5: FLICK and HOLD synthesis  -/

theorem mem_range_map_add (n : ℕ) (c : ℤ) (o : ℤ) :
    o ∈ (List.range n).map (fun (i : ℕ) => (i : ℤ) + c) ↔ c ≤ o ∧ o < (n : ℤ) + c := by
  constructor
  · intro h
    obtain ⟨i, hi, rfl⟩ := List.mem_map.1 h
    have := List.mem_range.1 hi
    omega
  · intro h
    exact List.mem_map.2 ⟨(o - c).toNat, List.mem_range.2 (by omega), by omega⟩

/-- C4: a FLICK note with judgment ms `ms` contributes exactly, all under
its fresh event id: `FLICK_START` at `ms - 20`, a `FLICK` sample at
`ms + o` for exactly the offsets `-20 < o < 20` with `o` even or `o = 19`,
and `FLICK_END` at `ms + 20` — nothing else. -/
theorem claim_C4_flick_schedule (ext : ExtFuns) (line : LineModel) (event : Note)
    (id : ℕ) (h : event.type = .FLICK) :
    ((noteEvents ext line event id).map (fun e => (e.1, e.2.action, e.2.id)) =
      [(pyInt (line.seconds event.time * 1000 + 1/2) - 20, FrameEventAction.FLICK_START, id)] ++
      flickOffsets.map (fun o =>
        (pyInt (line.seconds event.time * 1000 + 1/2) + o, FrameEventAction.FLICK, id)) ++
      [(pyInt (line.seconds event.time * 1000 + 1/2) + 20, FrameEventAction.FLICK_END, id)]) ∧
    (∀ o : ℤ, o ∈ flickOffsets ↔ (-20 < o ∧ o < 20 ∧ (Even o ∨ o = 19))) := by
  constructor
  · unfold noteEvents
    rw [h]
    dsimp only
    rw [List.map_append, List.map_append, List.map_map]
    refine congrArg₂ _ (congrArg₂ _ ?_ rfl) ?_
    · simp only [List.map_cons, List.map_nil, FLICK_START_MS]
      rw [show ∀ a : ℤ, a + -20 = a - 20 from fun a => by omega]
    · simp only [List.map_cons, List.map_nil, FLICK_END_MS]
  · intro o
    constructor
    · intro hmem
      have h1 := (List.mem_filter.1 hmem).1
      have h2 := (List.mem_filter.1 hmem).2
      rw [mem_range_map_add] at h1
      simp only [FLICK_START_MS] at h1
      simp only [Bool.or_eq_true, beq_iff_eq, decide_eq_true_eq, FLICK_END_MS] at h2
      refine ⟨by omega, by omega, ?_⟩
      rcases h2 with hmod | h19
      · exact Or.inl (Int.even_iff.2 hmod)
      · exact Or.inr (by omega)
    · rintro ⟨h1, h2, h3⟩
      refine List.mem_filter.2 ⟨?_, ?_⟩
      · rw [mem_range_map_add]
        simp only [FLICK_START_MS]
        omega
      · simp only [Bool.or_eq_true, beq_iff_eq, decide_eq_true_eq, FLICK_END_MS]
        rcases h3 with he | h19
        · exact Or.inl (Int.even_iff.1 he)
        · exact Or.inr (by omega)

/-- C5: a HOLD note with judgment ms `ms` and
`hold_ms = ceil(line.seconds(hold)·1000)` contributes exactly, all under
its fresh event id: `HOLD_START` at `ms`, a `HOLD` sample at `ms + o` for
exactly the offsets `o ∈ [1, hold_ms - 1]` with `o % step = 0` or
`o = hold_ms - 1` where `step = max(1, hold_ms // 20)`, and `HOLD_END` at
`ms + hold_ms` — nothing else. -/
theorem claim_C5_hold_schedule (ext : ExtFuns) (line : LineModel) (event : Note)
    (id : ℕ) (h : event.type = .HOLD) :
    ((noteEvents ext line event id).map (fun e => (e.1, e.2.action, e.2.id)) =
      [(pyInt (line.seconds event.time * 1000 + 1/2), FrameEventAction.HOLD_START, id)] ++
      (holdOffsets ⌈line.seconds event.hold * 1000⌉).map (fun o =>
        (pyInt (line.seconds event.time * 1000 + 1/2) + o, FrameEventAction.HOLD, id)) ++
      [(pyInt (line.seconds event.time * 1000 + 1/2) + ⌈line.seconds event.hold * 1000⌉,
        FrameEventAction.HOLD_END, id)]) ∧
    (∀ hold_ms o : ℤ, o ∈ holdOffsets hold_ms ↔
      (1 ≤ o ∧ o ≤ hold_ms - 1 ∧
        (o % max 1 (Int.fdiv hold_ms 20) = 0 ∨ o = hold_ms - 1))) := by
  constructor
  · unfold noteEvents
    rw [h]
    dsimp only
    rw [List.map_append, List.map_append, List.map_map]
    rfl
  · intro hold_ms o
    constructor
    · intro hmem
      have h1 := (List.mem_filter.1 hmem).1
      have h2 := (List.mem_filter.1 hmem).2
      rw [mem_range_map_add] at h1
      simp only [Bool.or_eq_true, beq_iff_eq, decide_eq_true_eq] at h2
      exact ⟨by omega, by omega, h2⟩
    · rintro ⟨h1, h2, h3⟩
      refine List.mem_filter.2 ⟨?_, ?_⟩
      · rw [mem_range_map_add]
        omega
      · simp only [Bool.or_eq_true, beq_iff_eq, decide_eq_true_eq]
        exact h3

def flickNote : Note := ⟨.FLICK, 0, 0, 0⟩

/-- Witness for C4: the offset characterisation applied at offset 19 for a
concrete FLICK note. -/
theorem claim_C4_witness :
    flickNote.type = NoteType.FLICK ∧
    ((19 : ℤ) ∈ flickOffsets ↔
      (-20 < (19 : ℤ) ∧ (19 : ℤ) < 20 ∧ (Even (19 : ℤ) ∨ (19 : ℤ) = 19))) :=
  ⟨rfl, (claim_C4_flick_schedule extW (lineW []) flickNote 0 rfl).2 19⟩

def holdNote : Note := ⟨.HOLD, 0, 0, 1⟩

/-- Witness for C5: the offset characterisation applied at `hold_ms = 7`,
offset 6 for a concrete HOLD note. -/
theorem claim_C5_witness :
    holdNote.type = NoteType.HOLD ∧
    ((6 : ℤ) ∈ holdOffsets 7 ↔
      (1 ≤ (6 : ℤ) ∧ (6 : ℤ) ≤ 7 - 1 ∧
        ((6 : ℤ) % max 1 (Int.fdiv 7 20) = 0 ∨ (6 : ℤ) = 7 - 1))) :=
  ⟨rfl, (claim_C5_hold_schedule extW (lineW []) holdNote 0 rfl).2 7 6⟩

/-!  ## C7: the off-screen FLICK rescue  -/

theorem mem_dtRange (o : ℤ) : o ∈ dtRange ↔ -5 ≤ o ∧ o ≤ 5 := by
  constructor
  · intro h
    obtain ⟨i, hi, rfl⟩ := List.mem_map.1 h
    have := List.mem_range.1 hi
    omega
  · intro h
    exact List.mem_map.2 ⟨(o + 5).toNat, List.mem_range.2 (by omega), by omega⟩

theorem find?_sorted_first (p : ℤ → Bool) :
    ∀ (l : List ℤ), l.Pairwise (· < ·) → ∀ dt : ℤ, dt ∈ l → p dt = true →
      (∀ x ∈ l, x < dt → p x = false) → l.find? p = some dt
  | [], _, dt, hmem, _, _ => absurd hmem (List.not_mem_nil dt)
  | a :: t, hs, dt, hmem, hp, hfirst => by
      rcases List.mem_cons.1 hmem with rfl | hmem2
      · exact List.find?_cons_of_pos t hp
      · have ha : a < dt := (List.pairwise_cons.1 hs).1 dt hmem2
        have hpa : p a = false := hfirst a (List.mem_cons_self a t) ha
        rw [List.find?_cons_of_neg t (by simp [hpa])]
        exact find?_sorted_first p t (List.pairwise_cons.1 hs).2 dt hmem2 hp
          (fun x hx hlt => hfirst x (List.mem_cons_of_mem a hx) hlt)

/-- C7: for a FLICK whose raw judge point is off-screen, the geometry is
recomputed at `time + dt` for `dt` in order `-5, …, 5` and the first
on-screen candidate is adopted (position and angle); if none is on-screen
the fallback `recalc_pos((px, py), sa, ca)` is used; an on-screen raw point
leaves the geometry unchanged. -/
theorem claim_C7_offscreen_rescue (ext : ExtFuns) (line : LineModel) (event : Note)
    (off_x px py sa ca : ℚ) :
    (ext.in_screen (px, py) = true →
      flickResolve ext line event off_x px py sa ca = (px, py, sa, ca)) ∧
    (∀ dt : ℤ, ext.in_screen (px, py) = false →
      -5 ≤ dt → dt ≤ 5 →
      ext.in_screen ((flickCandidate line event off_x dt).1,
        (flickCandidate line event off_x dt).2.1) = true →
      (∀ dt' : ℤ, -5 ≤ dt' → dt' < dt →
        ext.in_screen ((flickCandidate line event off_x dt').1,
          (flickCandidate line event off_x dt').2.1) = false) →
      flickResolve ext line event off_x px py sa ca =
        flickCandidate line event off_x dt) ∧
    (ext.in_screen (px, py) = false →
      (∀ dt ∈ dtRange,
        ext.in_screen ((flickCandidate line event off_x dt).1,
          (flickCandidate line event off_x dt).2.1) = false) →
      flickResolve ext line event off_x px py sa ca =
        ((ext.recalc_pos (px, py) sa ca).1, (ext.recalc_pos (px, py) sa ca).2, sa, ca)) := by
  refine ⟨?_, ?_, ?_⟩
  · intro hon
    unfold flickResolve
    rw [if_pos hon]
  · intro dt hoff h5a h5b hp hfirst
    have hfind := find?_sorted_first
      (fun dt =>
        let c := flickCandidate line event off_x dt
        ext.in_screen (c.1, c.2.1))
      dtRange (by decide) dt ((mem_dtRange dt).2 ⟨h5a, h5b⟩) hp
      (fun x hx hlt => hfirst x ((mem_dtRange x).1 hx).1 hlt)
    unfold flickResolve
    rw [if_neg (by simp [hoff]), hfind]
  · intro hoff hnone
    unfold flickResolve
    rw [if_neg (by simp [hoff]), List.find?_eq_none.2 (by simpa using hnone)]

/-- External helpers whose screen is the half-plane `x ≥ 0`. -/
def ext7 : ExtFuns :=
  ⟨fun p q => |p.1 - q.1| + |p.2 - q.2|, fun p _ _ => p, fun p => decide (0 ≤ p.1)⟩

/-- A line moving along the x axis: position `(t, 0)` at chart time `t`. -/
def line7 : LineModel :=
  ⟨fun t => t, fun t => t, fun t => (t, 0), fun _ => 0, fun _ => 1, fun _ _ => (0, 0), [], []⟩

def note7 : Note := ⟨.FLICK, -3, 0, 0⟩

/-- Witness for C7: a FLICK at chart time −3 is off-screen and the rescue
adopts the first on-screen candidate, `dt = 3`. -/
theorem claim_C7_witness :
    ext7.in_screen ((-3 : ℚ), (0 : ℚ)) = false ∧
    flickResolve ext7 line7 note7 0 (-3) 0 0 1 = flickCandidate line7 note7 0 3 :=
  ⟨by decide,
    (claim_C7_offscreen_rescue ext7 line7 note7 0 (-3) 0 0 1).2.1 3 (by decide)
      (by decide) (by decide) (by decide)
      (fun dt' h1 h2 => by interval_cases dt' <;> decide)⟩

/-- C10: `DeviceController.touch` clamps the coordinates into
`[0, device_width - 1] × [0, device_height - 1]` before encoding, every
packet it sends carries the clamped coordinates, and every failure of the
`try` body is caught internally — the connection errors additionally set
`collector_running = False`, any other exception leaves the state
untouched — so nothing propagates to the caller and a failed injection is
dropped. -/
theorem claim_C10_touch_no_raise (st : CtrlState) (x y : ℤ) (action : TouchAction)
    (pointer_id : ℕ) (o : Option PyExc)
    (hw : 1 ≤ st.device_width) (hh : 1 ≤ st.device_height) :
    (0 ≤ pyClamp x st.device_width ∧
      pyClamp x st.device_width ≤ (st.device_width : ℤ) - 1 ∧
      0 ≤ pyClamp y st.device_height ∧
      pyClamp y st.device_height ≤ (st.device_height : ℤ) - 1) ∧
    (∀ pkt, (touch st x y action pointer_id o).2 = some pkt →
      pkt.x = pyClamp x st.device_width ∧ pkt.y = pyClamp y st.device_height ∧
      pkt.width = st.device_width ∧ pkt.height = st.device_height ∧
      pkt.action_value = action.value ∧ pkt.pointer_id = pointer_id) ∧
    (∀ e, touchBody st (pyClamp x st.device_width) (pyClamp y st.device_height)
        action pointer_id o = .error e →
      (touch st x y action pointer_id o).2 = none ∧
      (e = .connectionError →
        (touch st x y action pointer_id o).1.collector_running = false) ∧
      (e ≠ .connectionError → (touch st x y action pointer_id o).1 = st)) := by
  refine ⟨⟨?_, ?_, ?_, ?_⟩, ?_, ?_⟩
  · simp only [pyClamp]
    omega
  · simp only [pyClamp]
    omega
  · simp only [pyClamp]
    omega
  · simp only [pyClamp]
    omega
  · intro pkt hpkt
    unfold touch at hpkt
    dsimp only at hpkt
    revert hpkt
    split
    · rename_i data hbody
      intro hpkt
      injection hpkt with hpkt
      subst hpkt
      unfold touchBody at hbody
      revert hbody
      split
      · intro hbody
        cases hbody
      · rename_i data2 hpack
        cases o
        · intro hbody
          injection hbody with hbody
          subst hbody
          unfold packTouch at hpack
          revert hpack
          split
          · intro hpack
            injection hpack with hpack
            subst hpack
            exact ⟨rfl, rfl, rfl, rfl, rfl, rfl⟩
          · intro hpack
            cases hpack
        · intro hbody
          cases hbody
    · intro hpkt
      cases hpkt
    · intro hpkt
      cases hpkt
  · intro e hbody
    unfold touch
    dsimp only
    rw [hbody]
    refine ⟨?_, ?_, ?_⟩
    · cases e <;> rfl
    · intro he
      subst he
      rfl
    · intro he
      cases e
      · rfl
      · exact absurd rfl he
      · rfl

def ctrlW : CtrlState := ⟨1080, 1920, true⟩

/-- Witness for C10: a send failure with a connection error is swallowed
and shuts down the collector; the clamp bounds hold at the concrete
device size. -/
theorem claim_C10_witness :
    (1 ≤ ctrlW.device_width ∧ 1 ≤ ctrlW.device_height) ∧
    (0 ≤ pyClamp 5000 ctrlW.device_width ∧
      pyClamp 5000 ctrlW.device_width ≤ (ctrlW.device_width : ℤ) - 1 ∧
      0 ≤ pyClamp (-7) ctrlW.device_height ∧
      pyClamp (-7) ctrlW.device_height ≤ (ctrlW.device_height : ℤ) - 1) :=
  ⟨⟨by decide, by decide⟩,
    (claim_C10_touch_no_raise ctrlW 5000 (-7) .DOWN 1000 (some .connectionError)
      (by decide) (by decide)).1⟩

/-!  ## C1 and C9: planner invariants

The remaining two claims quantify over whole planning runs.  The proof
follows the loop: a state/trace invariant (`PlanInv`) is carried through
every `acquire`/`release`/`recycle`, driven by a well-formedness condition
(`IdsInv`) on the stream of frame events still to be processed, which the
synthesizer's output satisfies. -/

/-- The pids currently owned by the manager, with the pointers already
released this frame (still present in `pointers` pending the deferred
deletion) counted through `unused_now` only. -/
def livePidsMid (s : PMState) : List ℕ :=
  (s.pointers.filter (fun e => decide (e.1 ∉ s.mark_as_released))).map (fun e => e.2.pid) ++
  s.unused.map (·.1) ++ s.unused_now.map (·.1)

/-- All pids currently owned: `pointers` values, `unused` keys and
`unused_now` keys. -/
def livePids (s : PMState) : List ℕ :=
  s.pointers.map (fun e => e.2.pid) ++ s.unused.map (·.1) ++ s.unused_now.map (·.1)

/-- The trace events of one pid, in emission order. -/
def pidTouches (F : List TimedTouch) (pid : ℕ) : List TimedTouch :=
  F.filter (fun x => x.2.pointer_id == pid)

def touchActs (l : List TimedTouch) : List TouchAction := l.map (·.2.action)

def lastTime (l : List TimedTouch) : Option ℤ := l.getLast?.map (·.1)

def isMiddle : FrameEventAction → Bool
  | .FLICK | .HOLD => true
  | _ => false

def isEnder : FrameEventAction → Bool
  | .FLICK_END | .HOLD_END => true
  | _ => false

/-- `middle* ender`: the part of a FLICK/HOLD gesture after its start. -/
def isMidTail : List FrameEventAction → Bool
  | [] => false
  | [a] => isEnder a
  | a :: rest => isMiddle a && isMidTail rest

/-- The per-id action sequences the synthesizer can emit: a lone TAP or
DRAG, or a start followed by samples and exactly one end. -/
def isGesture : List FrameEventAction → Bool
  | [.TAP] => true
  | [.DRAG] => true
  | .FLICK_START :: rest => isMidTail rest
  | .HOLD_START :: rest => isMidTail rest
  | _ => false

/-- The actions of one event id in a stream of frame events. -/
def idActs (R : List FrameEvent) (id : ℕ) : List FrameEventAction :=
  (R.filter (fun e => e.id == id)).map (·.action)

/-- Well-formedness of the still-unprocessed stream `R` relative to the
manager state: each id is untouched with a whole gesture (or nothing)
ahead, or mid-gesture with the tail of its gesture ahead, or released this
frame with nothing ahead. -/
def IdsInv (R : List FrameEvent) (s : PMState) : Prop :=
  ∀ id : ℕ,
    (pdFind? s.pointers id = none ∧
      (idActs R id = [] ∨ isGesture (idActs R id) = true)) ∨
    ((∃ ptr, pdFind? s.pointers id = some ptr) ∧ id ∉ s.mark_as_released ∧
      isMidTail (idActs R id) = true) ∨
    ((∃ ptr, pdFind? s.pointers id = some ptr) ∧ id ∈ s.mark_as_released ∧
      idActs R id = [])

/-- The planner invariant, carried at bound `B` for the aged collections
and `m` (the current ms) for everything touched this frame; at a frame
boundary `B = m`. -/
structure PlanInv (s : PMState) (B m : ℤ) (F : List TimedTouch) : Prop where
  ptr_keys_nodup : (s.pointers.map (·.1)).Nodup
  unused_keys_nodup : (s.unused.map (·.1)).Nodup
  unow_keys_nodup : (s.unused_now.map (·.1)).Nodup
  unused_pid_eq : ∀ e ∈ s.unused, e.2.pid = e.1
  unow_pid_eq : ∀ e ∈ s.unused_now, e.2.pid = e.1
  mark_nodup : s.mark_as_released.Nodup
  mark_sub : ∀ id ∈ s.mark_as_released, ∃ ptr,
    pdFind? s.pointers id = some ptr ∧ pdFind? s.unused_now ptr.pid = some ptr
  live_nodup : (livePidsMid s).Nodup
  rec_nodup : s.recycled.Nodup
  rec_range : ∀ p ∈ s.recycled, s.begin_ ≤ p ∧ p < s.max_pointer_id
  live_range : ∀ p ∈ livePidsMid s, s.begin_ ≤ p ∧ p < s.max_pointer_id
  rec_live_disj : ∀ p ∈ s.recycled, p ∉ livePidsMid s
  delta_eq : s.delta = 1
  begin_le_max : s.begin_ ≤ s.max_pointer_id
  now_eq : s.now = m
  ts_ptr : ∀ e ∈ s.pointers, e.2.timestamp ≤ m
  ts_unused : ∀ e ∈ s.unused, e.2.timestamp ≤ B
  ts_unow : ∀ e ∈ s.unused_now, e.2.timestamp ≤ m
  occ_aged : ∀ e ∈ s.unused, 1 ≤ e.2.occupied →
    e.2.timestamp + (e.2.occupied : ℤ) ≤ B
  occ_ptr : ∀ e ∈ s.pointers, e.2.occupied = 0
  occ_unow : ∀ e ∈ s.unused_now, e.2.occupied = 0
  f_times : ∀ x ∈ F, x.1 ≤ m
  f_sorted : ∀ pid, (pidTouches F pid).Pairwise (fun a b => a.1 ≤ b.1)
  open_ptr : ∀ e ∈ s.pointers, e.1 ∉ s.mark_as_released →
    openRun (touchActs (pidTouches F e.2.pid)) = true ∧
    lastTime (pidTouches F e.2.pid) = some e.2.timestamp
  open_unused : ∀ e ∈ s.unused,
    openRun (touchActs (pidTouches F e.2.pid)) = true ∧
    lastTime (pidTouches F e.2.pid) = some e.2.timestamp
  open_unow : ∀ e ∈ s.unused_now,
    openRun (touchActs (pidTouches F e.2.pid)) = true ∧
    lastTime (pidTouches F e.2.pid) = some e.2.timestamp
  f_closed : ∀ pid : ℕ, pid ∉ livePidsMid s →
    balancedRuns (touchActs (pidTouches F pid)) = true

/-!  ### further dict lemmas  -/

theorem pdFind?_eq_none_iff [DecidableEq κ] (d : PyDict κ ν) (k : κ) :
    pdFind? d k = none ↔ k ∉ d.map (·.1) := by
  induction d with
  | nil => simp [pdFind?]
  | cons a t ih =>
      by_cases h : a.1 = k
      · simp [pdFind?, h]
      · simp [pdFind?, h, ih, Ne.symm h]

theorem pdFind?_mem [DecidableEq κ] {d : PyDict κ ν} {k : κ} {v : ν}
    (h : pdFind? d k = some v) : (k, v) ∈ d := by
  induction d with
  | nil => cases h
  | cons a t ih =>
      by_cases ha : a.1 = k
      · rw [pdFind?, if_pos ha] at h
        injection h with h
        subst h
        subst ha
        exact List.mem_cons_self a t
      · rw [pdFind?, if_neg ha] at h
        exact List.mem_cons_of_mem a (ih h)

theorem pdFind?_of_mem [DecidableEq κ] {d : PyDict κ ν}
    (hnd : (d.map (·.1)).Nodup) {e : κ × ν} (h : e ∈ d) :
    pdFind? d e.1 = some e.2 := by
  induction d with
  | nil => cases h
  | cons a t ih =>
      simp only [List.map_cons, List.nodup_cons] at hnd
      rcases List.mem_cons.1 h with rfl | h2
      · simp [pdFind?]
      · have hne : a.1 ≠ e.1 := by
          intro hk
          exact hnd.1 (hk ▸ List.mem_map_of_mem (·.1) h2)
        simp only [pdFind?]
        rw [if_neg hne]
        exact ih hnd.2 h2

theorem pdSet_of_fresh [DecidableEq κ] {d : PyDict κ ν} {k : κ} (v : ν)
    (h : k ∉ d.map (·.1)) : pdSet d k v = d ++ [(k, v)] := by
  induction d with
  | nil => rfl
  | cons a t ih =>
      simp only [List.map_cons, List.mem_cons] at h
      push_neg at h
      simp only [pdSet]
      rw [if_neg (fun hh => h.1 hh.symm), ih h.2, List.cons_append]

theorem pdSet_eq_map [DecidableEq κ] {d : PyDict κ ν} {k : κ} (v : ν)
    (hnd : (d.map (·.1)).Nodup) (h : k ∈ d.map (·.1)) :
    pdSet d k v = d.map (fun e => if e.1 = k then (k, v) else e) := by
  induction d with
  | nil => cases h
  | cons a t ih =>
      simp only [List.map_cons, List.nodup_cons] at hnd
      by_cases ha : a.1 = k
      · simp only [pdSet, List.map_cons]
        rw [if_pos ha, if_pos ha]
        have ht : t.map (fun e => if e.1 = k then (k, v) else e) = t := by
          conv_rhs => rw [show t = t.map id from (List.map_id t).symm]
          apply List.map_congr_left
          intro e he
          have hne : e.1 ≠ k := by
            intro hk
            exact hnd.1 (ha ▸ hk ▸ List.mem_map_of_mem (·.1) he)
          simp [hne]
        rw [ht]
      · simp only [pdSet, List.map_cons]
        rw [if_neg ha, if_neg ha]
        have hmem : k ∈ t.map (·.1) := by
          rcases List.mem_cons.1 h with h1 | h1
          · exact absurd h1.symm ha
          · exact h1
        rw [ih hnd.2 hmem]

/-!  ### trace and parser lemmas  -/

theorem parseRuns_append (l : List TouchAction) (a : TouchAction) :
    parseRuns (l ++ [a]) = runStep (parseRuns l) a := by
  simp [parseRuns, List.foldl_append]

theorem openRun_parse {l : List TouchAction} (h : openRun l = true) :
    parseRuns l = some true := by
  simpa [openRun] using h

theorem balancedRuns_parse {l : List TouchAction} (h : balancedRuns l = true) :
    parseRuns l = some false := by
  simpa [balancedRuns] using h

theorem openRun_append_move {l : List TouchAction} (h : openRun l = true) :
    openRun (l ++ [TouchAction.MOVE]) = true := by
  simp [openRun, parseRuns_append, openRun_parse h, runStep]

theorem openRun_append_up {l : List TouchAction} (h : openRun l = true) :
    balancedRuns (l ++ [TouchAction.UP]) = true := by
  simp [balancedRuns, parseRuns_append, openRun_parse h, runStep]

theorem balancedRuns_append_down {l : List TouchAction} (h : balancedRuns l = true) :
    openRun (l ++ [TouchAction.DOWN]) = true := by
  simp [openRun, parseRuns_append, balancedRuns_parse h, runStep]

theorem pidTouches_append (F G : List TimedTouch) (pid : ℕ) :
    pidTouches (F ++ G) pid = pidTouches F pid ++ pidTouches G pid := by
  simp [pidTouches, List.filter_append]

theorem pidTouches_single_eq (x : TimedTouch) (pid : ℕ) (h : x.2.pointer_id = pid) :
    pidTouches [x] pid = [x] := by
  simp [pidTouches, h]

theorem pidTouches_single_ne (x : TimedTouch) (pid : ℕ) (h : x.2.pointer_id ≠ pid) :
    pidTouches [x] pid = [] := by
  simp [pidTouches, h]

theorem touchActs_append (l1 l2 : List TimedTouch) :
    touchActs (l1 ++ l2) = touchActs l1 ++ touchActs l2 := by
  simp [touchActs]

theorem lastTime_append_single (l : List TimedTouch) (x : TimedTouch) :
    lastTime (l ++ [x]) = some x.1 := by
  simp [lastTime, List.getLast?_concat]

theorem lastTime_le {l : List TimedTouch} {t : ℤ}
    (hs : l.Pairwise (fun a b => a.1 ≤ b.1)) (hl : lastTime l = some t)
    {x : TimedTouch} (hx : x ∈ l) : x.1 ≤ t := by
  simp only [lastTime, Option.map_eq_some'] at hl
  obtain ⟨y, hy, rfl⟩ := hl
  rcases List.getLast?_eq_some_iff.1 hy with ⟨l', rfl⟩
  rcases List.mem_append.1 hx with hx | hx
  · exact List.pairwise_append.1 (by simpa using hs) |>.2.2 x hx y (by simp)
  · simp only [List.mem_singleton] at hx
    subst hx
    exact le_refl _

theorem pdMerge_disjoint [DecidableEq κ] (d1 d2 : PyDict κ ν)
    (hnd : (d2.map (·.1)).Nodup)
    (hdis : ∀ k ∈ d2.map (·.1), k ∉ d1.map (·.1)) : pdMerge d1 d2 = d1 ++ d2 := by
  induction d2 generalizing d1 with
  | nil => simp [pdMerge]
  | cons e t ih =>
      simp only [List.map_cons, List.nodup_cons] at hnd
      have h1 : e.1 ∉ d1.map (·.1) := hdis e.1 (by simp)
      have hset : pdSet d1 e.1 e.2 = d1 ++ [e] := by
        rw [pdSet_of_fresh e.2 h1]
      have hstep : pdMerge d1 (e :: t) = pdMerge (d1 ++ [e]) t := by
        simp only [pdMerge, List.foldl_cons, hset]
      rw [hstep, ih (d1 ++ [e]) hnd.2 ?_, List.append_assoc]
      · rfl
      · intro k hk
        simp only [List.map_append, List.mem_append, List.map_cons, List.mem_singleton]
        push_neg
        refine ⟨hdis k (by simp [hk]), ?_⟩
        simp only [List.map_nil, List.mem_cons, List.not_mem_nil, or_false]
        intro hke
        exact hnd.1 (hke ▸ hk)

theorem pdFind?_pdSet_self [DecidableEq κ] (d : PyDict κ ν) (k : κ) (v : ν) :
    pdFind? (pdSet d k v) k = some v := by
  induction d with
  | nil => simp [pdSet, pdFind?]
  | cons a t ih =>
      by_cases h : a.1 = k
      · simp [pdSet, pdFind?, h]
      · simp only [pdSet, pdFind?]
        rw [if_neg h, pdFind?, if_neg h]
        exact ih

theorem pdFind?_pdSet_ne [DecidableEq κ] (d : PyDict κ ν) (k k' : κ) (v : ν)
    (h : k ≠ k') : pdFind? (pdSet d k v) k' = pdFind? d k' := by
  induction d with
  | nil => simp [pdSet, pdFind?, h]
  | cons a t ih =>
      by_cases ha : a.1 = k
      · simp only [pdSet]
        rw [if_pos ha, pdFind?, pdFind?, if_neg h, if_neg (ha ▸ (ha ▸ h : a.1 ≠ k'))]
      · simp only [pdSet]
        rw [if_neg ha, pdFind?, pdFind?]
        by_cases hk' : a.1 = k'
        · rw [if_pos hk', if_pos hk']
        · rw [if_neg hk', if_neg hk']
          exact ih

theorem pdFind?_append_left [DecidableEq κ] (d1 d2 : PyDict κ ν) (k : κ)
    (h : k ∈ d1.map (·.1)) : pdFind? (d1 ++ d2) k = pdFind? d1 k := by
  induction d1 with
  | nil => cases h
  | cons a t ih =>
      by_cases ha : a.1 = k
      · simp only [List.cons_append, pdFind?]
        rw [if_pos ha, if_pos ha]
      · simp only [List.cons_append, pdFind?]
        rw [if_neg ha, if_neg ha]
        refine ih ?_
        simp only [List.map_cons, List.mem_cons] at h
        rcases h with h1 | h1
        · exact absurd h1.symm ha
        · exact h1

theorem pdFind?_append_right [DecidableEq κ] (d1 d2 : PyDict κ ν) (k : κ)
    (h : k ∉ d1.map (·.1)) : pdFind? (d1 ++ d2) k = pdFind? d2 k := by
  induction d1 with
  | nil => simp
  | cons a t ih =>
      simp only [List.map_cons, List.mem_cons] at h
      push_neg at h
      simp only [List.cons_append, pdFind?]
      rw [if_neg (fun hh => h.1 hh.symm)]
      exact ih h.2

/-- Releasing an id: the pointers kept by the extended mark are, up to
permutation, the pointers kept by the old mark minus the released entry. -/
theorem filter_mark_extend (d : PyDict ℕ Pointer) (mark : List ℕ) (id : ℕ)
    (ptr : Pointer) (hnd : (d.map (·.1)).Nodup) (hid : pdFind? d id = some ptr)
    (hnm : id ∉ mark) :
    (d.filter (fun e => decide (e.1 ∉ mark))).Perm
      ((id, ptr) :: d.filter (fun e => decide (e.1 ∉ mark ++ [id]))) := by
  induction d with
  | nil => cases hid
  | cons a t ih =>
      simp only [List.map_cons, List.nodup_cons] at hnd
      by_cases ha : a.1 = id
      · rw [pdFind?, if_pos ha] at hid
        injection hid with hid
        have hfil : t.filter (fun e => decide (e.1 ∉ mark)) =
            t.filter (fun e => decide (e.1 ∉ mark ++ [id])) := by
          apply List.filter_congr
          intro e he
          have : e.1 ≠ id := by
            intro hk
            exact hnd.1 (ha ▸ hk ▸ List.mem_map_of_mem (·.1) he)
          simp [this]
        rw [List.filter_cons_of_pos (by simp [ha, hnm]),
          List.filter_cons_of_neg (by simp [ha]), hfil]
        have : a = (id, ptr) := by
          rcases a with ⟨a1, a2⟩
          simp only at ha hid
          rw [ha, hid]
        rw [this]
      · rw [pdFind?, if_neg ha] at hid
        by_cases hm : a.1 ∈ mark
        · rw [List.filter_cons_of_neg (by simp [hm]),
            List.filter_cons_of_neg (by simp [hm])]
          exact ih hnd.2 hid
        · rw [List.filter_cons_of_pos (by simp [hm]),
            List.filter_cons_of_pos (by simp [hm, ha])]
          exact ((ih hnd.2 hid).cons a).trans (List.Perm.swap _ _ _)

theorem pdFind?_append_single_ne [DecidableEq κ] (d : PyDict κ ν) (k k' : κ) (v : ν)
    (h : k' ≠ k) : pdFind? (d ++ [(k, v)]) k' = pdFind? d k' := by
  induction d with
  | nil =>
      simp only [List.nil_append, pdFind?]
      rw [if_neg (fun hh : k = k' => h hh.symm)]
  | cons a t ih =>
      simp only [List.cons_append, pdFind?]
      by_cases ha : a.1 = k'
      · rw [if_pos ha, if_pos ha]
      · rw [if_neg ha, if_neg ha]
        exact ih

theorem pdFind?_filter_key [DecidableEq κ] (d : PyDict κ ν) (q : κ → Bool) (k : κ) :
    pdFind? (d.filter (fun e => q e.1)) k =
      if q k then pdFind? d k else none := by
  induction d with
  | nil => simp [pdFind?]
  | cons a t ih =>
      by_cases ha : a.1 = k
      · subst ha
        by_cases hq : q a.1
        · rw [List.filter_cons_of_pos (by simpa using hq), pdFind?, if_pos rfl,
            if_pos hq, pdFind?, if_pos rfl]
        · rw [List.filter_cons_of_neg (by simpa using hq), ih,
            if_neg hq, if_neg hq]
      · by_cases hq : q a.1
        · rw [List.filter_cons_of_pos (by simpa using hq), pdFind?, if_neg ha, ih,
            pdFind?, if_neg ha]
        · rw [List.filter_cons_of_neg (by simpa using hq), ih, pdFind?, if_neg ha]

theorem filter_key_keys (d : PyDict κ ν) (q : κ × ν → Bool) :
    ((d.filter q).map (·.1)).Sublist (d.map (·.1)) :=
  (List.filter_sublist d).map (·.1)

/-- With distinct keys, filtering an association list by one key picks out
exactly the entry `pdFind?` finds. -/
theorem filter_eq_key [DecidableEq κ] (d : PyDict κ ν)
    (hnd : (d.map (·.1)).Nodup) (k : κ) :
    d.filter (fun e => e.1 == k) =
      match pdFind? d k with
      | some v => [(k, v)]
      | none => [] := by
  induction d with
  | nil => rfl
  | cons a t ih =>
      simp only [List.map_cons, List.nodup_cons] at hnd
      by_cases ha : a.1 = k
      · rw [List.filter_cons_of_pos (by simpa using ha), pdFind?, if_pos ha]
        have ht : t.filter (fun e => e.1 == k) = [] := by
          apply List.filter_eq_nil_iff.2
          intro e he
          simp only [beq_iff_eq]
          intro hek
          exact hnd.1 ((ha.symm ▸ hek : e.1 = a.1) ▸ List.mem_map_of_mem (·.1) he)
        rw [ht]
        rcases a with ⟨a1, a2⟩
        simp only at ha
        rw [ha]
      · rw [List.filter_cons_of_neg (by simpa using ha), pdFind?, if_neg ha, ih hnd.2]

/-- Pigeonhole for pid ranges: a duplicate-free list inside `[a, b)` of full
length contains every element of the interval. -/
theorem nodup_sub_range_full {l : List ℕ} {a b : ℕ} (hn : l.Nodup)
    (hsub : ∀ p ∈ l, a ≤ p ∧ p < b) (hlen : b - a ≤ l.length) :
    ∀ q, a ≤ q → q < b → q ∈ l := by
  intro q hq1 hq2
  have hsubs : l.toFinset ⊆ Finset.Ico a b := by
    intro p hp
    rw [List.mem_toFinset] at hp
    exact Finset.mem_Ico.2 (hsub p hp)
  have hcard : (Finset.Ico a b).card ≤ l.toFinset.card := by
    rw [Nat.card_Ico, List.toFinset_card_of_nodup hn]
    exact hlen
  have heq : l.toFinset = Finset.Ico a b :=
    Finset.eq_of_subset_of_card_le hsubs hcard
  have : q ∈ l.toFinset := heq ▸ Finset.mem_Ico.2 ⟨hq1, hq2⟩
  exact List.mem_toFinset.1 this

/-- Appending an element at a time at least every existing one keeps a
trace weakly sorted. -/
theorem pairwise_le_append_single {l : List TimedTouch} {x : TimedTouch}
    (hs : l.Pairwise (fun a b => a.1 ≤ b.1)) (hx : ∀ y ∈ l, y.1 ≤ x.1) :
    (l ++ [x]).Pairwise (fun a b => a.1 ≤ b.1) := by
  rw [List.pairwise_append]
  exact ⟨hs, List.pairwise_singleton _ _, fun y hy z hz => by
    simp only [List.mem_singleton] at hz
    subst hz
    exact hx y hy⟩

theorem nat_cast_sub_eq {n mx b : ℕ} (h : b ≤ mx) :
    ((n : ℚ) = (mx : ℚ) - (b : ℚ)) ↔ n = mx - b := by
  constructor
  · intro hq
    have h2 : ((n + b : ℕ) : ℚ) = (mx : ℕ) := by
      push_cast
      linarith
    have h3 : n + b = mx := Nat.cast_injective h2
    omega
  · intro hn
    subst hn
    push_cast [Nat.cast_sub h]
    ring

/-- Invariant of the `_del` chain performed by the aging loop: the recycled
set stays duplicate-free inside the allocated range, and every pid that is
still owned stays allocated and unrecycled.  The reset branch
(`max_pointer_id = begin`) can only fire when nothing is owned any more. -/
theorem allocDel_fold_inv (b : ℕ) :
    ∀ (L : List ℕ) (mx : ℕ) (rec live : List ℕ),
      rec.Nodup → (∀ p ∈ rec, b ≤ p ∧ p < mx) →
      L.Nodup → (∀ p ∈ L, b ≤ p ∧ p < mx) → (∀ p ∈ L, p ∉ rec) →
      (∀ p ∈ live, b ≤ p ∧ p < mx) → (∀ p ∈ live, p ∉ rec) →
      (∀ p ∈ live, p ∉ L) → b ≤ mx →
      (L.foldl (allocDel b 1) (mx, rec)).2.Nodup ∧
      (∀ p ∈ (L.foldl (allocDel b 1) (mx, rec)).2,
        b ≤ p ∧ p < (L.foldl (allocDel b 1) (mx, rec)).1) ∧
      (∀ p ∈ live, (b ≤ p ∧ p < (L.foldl (allocDel b 1) (mx, rec)).1) ∧
        p ∉ (L.foldl (allocDel b 1) (mx, rec)).2) ∧
      b ≤ (L.foldl (allocDel b 1) (mx, rec)).1 := by
  intro L
  induction L with
  | nil =>
      intro mx rec live h1 h2 _ _ _ h6 h7 _ hbm
      exact ⟨h1, h2, fun p hp => ⟨h6 p hp, h7 p hp⟩, hbm⟩
  | cons p L' ih =>
      intro mx rec live h1 h2 h3 h4 h5 h6 h7 h8 hbm
      simp only [List.nodup_cons] at h3
      have hpL : b ≤ p ∧ p < mx := h4 p (by simp)
      have hpr : p ∉ rec := h5 p (by simp)
      have hbmx : b < mx := lt_of_le_of_lt hpL.1 hpL.2
      have hstep : allocDel b 1 (mx, rec) p =
          if ((rec ++ [p]).length : ℚ) = ((mx : ℚ) - (b : ℚ)) / ((1 : ℕ) : ℚ)
          then (b, []) else (mx, rec ++ [p]) := by
        simp [allocDel, hpr]
      have hrecp_nodup : (rec ++ [p]).Nodup := by
        simp [List.nodup_append, h1, hpr, fun h => hpr h]
      by_cases hc : ((rec ++ [p]).length : ℚ) = ((mx : ℚ) - (b : ℚ)) / ((1 : ℕ) : ℚ)
      · -- the reset branch: recycled covered the whole range, nothing is owned
        have hlen : (rec ++ [p]).length = mx - b := by
          rw [Nat.cast_one, div_one] at hc
          exact (nat_cast_sub_eq (le_of_lt hbmx)).1 (by exact_mod_cast hc)
        have hfull : ∀ q, b ≤ q → q < mx → q ∈ rec ++ [p] := by
          refine nodup_sub_range_full hrecp_nodup ?_ (le_of_eq hlen.symm)
          intro q hq
          rcases List.mem_append.1 hq with hq | hq
          · exact h2 q hq
          · simp only [List.mem_singleton] at hq
            subst hq
            exact hpL
        have hL' : L' = [] := by
          rw [List.eq_nil_iff_forall_not_mem]
          intro q hq
          have hq4 := h4 q (by simp [hq])
          rcases List.mem_append.1 (hfull q hq4.1 hq4.2) with hmem | hmem
          · exact h5 q (by simp [hq]) hmem
          · simp only [List.mem_singleton] at hmem
            exact h3.1 (hmem ▸ hq)
        have hlive : ∀ q ∈ live, False := by
          intro q hq
          have hq6 := h6 q hq
          rcases List.mem_append.1 (hfull q hq6.1 hq6.2) with hmem | hmem
          · exact h7 q hq hmem
          · simp only [List.mem_singleton] at hmem
            exact h8 q hq (by simp [hmem])
        subst hL'
        simp only [List.foldl_cons, List.foldl_nil, hstep, if_pos hc]
        exact ⟨List.nodup_nil, by simp,
          fun q hq => absurd (hlive q hq) not_false, le_refl b⟩
      · simp only [List.foldl_cons, hstep, if_neg hc]
        refine ih mx (rec ++ [p]) live hrecp_nodup ?_ h3.2 ?_ ?_ h6 ?_ ?_ hbm
        · intro q hq
          rcases List.mem_append.1 hq with hq | hq
          · exact h2 q hq
          · simp only [List.mem_singleton] at hq
            subst hq
            exact hpL
        · intro q hq
          exact h4 q (by simp [hq])
        · intro q hq
          rw [List.mem_append]
          push_neg
          refine ⟨h5 q (by simp [hq]), ?_⟩
          simp only [List.mem_singleton]
          intro hqp
          exact h3.1 (hqp ▸ hq)
        · intro q hq
          rw [List.mem_append]
          push_neg
          refine ⟨h7 q hq, ?_⟩
          simp only [List.mem_singleton]
          intro hqp
          exact h8 q hq (by simp [hqp])
        · intro q hq
          intro hmem
          exact h8 q hq (by simp [hmem])

theorem nodup_map_eq_of_eq {f : α → β} {l : List α} {a : α} :
    (l.map f).Nodup → a ∈ l → ∀ b ∈ l, f a = f b → a = b := by
  induction l with
  | nil => intro _ ha; cases ha
  | cons x t ih =>
      intro h ha b hb hab
      simp only [List.map_cons, List.nodup_cons] at h
      rcases List.mem_cons.1 ha with rfl | ha2
      · rcases List.mem_cons.1 hb with rfl | hb2
        · rfl
        · exact absurd (hab ▸ List.mem_map_of_mem f hb2) h.1
      · rcases List.mem_cons.1 hb with rfl | hb2
        · exact absurd (hab ▸ List.mem_map_of_mem f ha2) h.1
        · exact ih h.2 ha2 b hb2 hab

theorem mem_live_ptr {s : PMState} {e : ℕ × Pointer} (he : e ∈ s.pointers)
    (hnm : e.1 ∉ s.mark_as_released) : e.2.pid ∈ livePidsMid s := by
  unfold livePidsMid
  refine List.mem_append.2 (Or.inl (List.mem_append.2 (Or.inl ?_)))
  exact List.mem_map_of_mem _ (List.mem_filter.2 ⟨he, by simpa using hnm⟩)

theorem mem_live_unused {s : PMState} {e : ℕ × Pointer} (he : e ∈ s.unused) :
    e.1 ∈ livePidsMid s := by
  unfold livePidsMid
  refine List.mem_append.2 (Or.inl (List.mem_append.2 (Or.inr ?_)))
  exact List.mem_map_of_mem _ he

theorem mem_live_unow {s : PMState} {e : ℕ × Pointer} (he : e ∈ s.unused_now) :
    e.1 ∈ livePidsMid s := by
  unfold livePidsMid
  exact List.mem_append.2 (Or.inr (List.mem_map_of_mem _ he))

/-- Updating a live pointer's record in place (same pid) leaves the owned
pid list unchanged. -/
theorem livePidsMid_set {s : PMState} {id : ℕ} {ptr : Pointer} (ptr' : Pointer)
    (hnd : (s.pointers.map (·.1)).Nodup)
    (hfind : pdFind? s.pointers id = some ptr) (hpid : ptr'.pid = ptr.pid) :
    livePidsMid { s with pointers := pdSet s.pointers id ptr' } = livePidsMid s := by
  have hmem : (id, ptr) ∈ s.pointers := pdFind?_mem hfind
  have hkm : id ∈ s.pointers.map (·.1) := List.mem_map_of_mem (·.1) hmem
  have hX : ((pdSet s.pointers id ptr').filter
      (fun e => decide (e.1 ∉ s.mark_as_released))).map (fun e => e.2.pid) =
      (s.pointers.filter (fun e => decide (e.1 ∉ s.mark_as_released))).map
        (fun e => e.2.pid) := by
    rw [pdSet_eq_map ptr' hnd hkm, List.filter_map]
    have hfc : s.pointers.filter
        ((fun e => decide (e.1 ∉ s.mark_as_released)) ∘
          (fun e => if e.1 = id then (id, ptr') else e)) =
        s.pointers.filter (fun e => decide (e.1 ∉ s.mark_as_released)) := by
      apply List.filter_congr
      intro e _
      by_cases he : e.1 = id <;> simp [Function.comp, he]
    rw [hfc, List.map_map]
    apply List.map_congr_left
    intro e he
    by_cases hid : e.1 = id
    · have : e = (id, ptr) :=
        nodupKeys_eq_of_key_eq hnd (List.mem_of_mem_filter he) hmem hid
      subst this
      simp [Function.comp, hpid]
    · simp [Function.comp, hid]
  unfold livePidsMid
  simp only
  rw [hX]

/-- `acquire` on an id that owns a live pointer: the record is updated in
place and the whole planner invariant is preserved by the emitted MOVE. -/
theorem planInv_set_live {s : PMState} {B m : ℤ} {T : List TimedTouch}
    (hP : PlanInv s B m T) {id : ℕ} {ptr ptr' : Pointer} {pt q : Point}
    (hfind : pdFind? s.pointers id = some ptr) (hnm : id ∉ s.mark_as_released)
    (hptr' : ptr' = { ptr with timestamp := s.now, pos := pt }) :
    PlanInv { s with pointers := pdSet s.pointers id ptr' } B m
      (T ++ [(s.now, ⟨q, .MOVE, ptr.pid⟩)]) := by
  subst hptr'
  have hmem : (id, ptr) ∈ s.pointers := pdFind?_mem hfind
  have hkm : id ∈ s.pointers.map (·.1) := List.mem_map_of_mem (·.1) hmem
  have hnd := hP.ptr_keys_nodup
  have hnow := hP.now_eq
  have hset := pdSet_eq_map { ptr with timestamp := s.now, pos := pt } hnd hkm
  have hlive := livePidsMid_set { ptr with timestamp := s.now, pos := pt }
    hnd hfind rfl
  have hg1 : ∀ e : ℕ × Pointer,
      ((if e.1 = id then (id, { ptr with timestamp := s.now, pos := pt }) else e) :
        ℕ × Pointer).1 = e.1 := by
    intro e
    by_cases he : e.1 = id <;> simp [he]
  have hkeys : ((s.pointers.map (fun e =>
      if e.1 = id then (id, { ptr with timestamp := s.now, pos := pt }) else e)).map
        (·.1)) = s.pointers.map (·.1) := by
    rw [List.map_map]
    exact List.map_congr_left (fun e _ => hg1 e)
  -- membership in the updated dict
  have hmem' : ∀ e' ∈ pdSet s.pointers id { ptr with timestamp := s.now, pos := pt },
      (e'.1 = id ∧ e' = (id, { ptr with timestamp := s.now, pos := pt })) ∨
      (e'.1 ≠ id ∧ e' ∈ s.pointers) := by
    rw [hset]
    intro e' he'
    rcases List.mem_map.1 he' with ⟨e, he, rfl⟩
    by_cases hid : e.1 = id
    · rw [if_pos hid]
      exact Or.inl ⟨rfl, rfl⟩
    · rw [if_neg hid]
      exact Or.inr ⟨hid, he⟩
  -- the pid of the updated entry is distinct from every other live pid holder
  have hptrSeg : ((s.pointers.filter
      (fun e => decide (e.1 ∉ s.mark_as_released))).map (fun e => e.2.pid)).Nodup :=
    (List.nodup_append.1 (List.nodup_append.1 hP.live_nodup).1).1
  have hptr_in : (id, ptr) ∈ s.pointers.filter
      (fun e => decide (e.1 ∉ s.mark_as_released)) :=
    List.mem_filter.2 ⟨hmem, by simpa using hnm⟩
  have hpid_ne : ∀ e ∈ s.pointers, e.1 ∉ s.mark_as_released → e.1 ≠ id →
      e.2.pid ≠ ptr.pid := by
    intro e he hem hne hpe
    have he' : e ∈ s.pointers.filter (fun e => decide (e.1 ∉ s.mark_as_released)) :=
      List.mem_filter.2 ⟨he, by simpa using hem⟩
    have := nodup_map_eq_of_eq hptrSeg he' _ hptr_in hpe
    exact hne (congrArg (·.1) this)
  have hdisjAB := (List.nodup_append.1 (List.nodup_append.1 hP.live_nodup).1).2.2
  have hdisjC := (List.nodup_append.1 hP.live_nodup).2.2
  have hpid_live : ptr.pid ∈ (s.pointers.filter
      (fun e => decide (e.1 ∉ s.mark_as_released))).map (fun e => e.2.pid) :=
    List.mem_map_of_mem _ hptr_in
  have hpid_not_unused : ∀ e ∈ s.unused, e.2.pid ≠ ptr.pid := by
    intro e he hpe
    refine hdisjAB hpid_live ?_
    rw [← hpe, hP.unused_pid_eq e he]
    exact List.mem_map_of_mem (·.1) he
  have hpid_not_unow : ∀ e ∈ s.unused_now, e.2.pid ≠ ptr.pid := by
    intro e he hpe
    refine hdisjC (List.mem_append.2 (Or.inl hpid_live)) ?_
    rw [← hpe, hP.unow_pid_eq e he]
    exact List.mem_map_of_mem (·.1) he
  -- trace bookkeeping
  have htr_ne : ∀ p : ℕ, p ≠ ptr.pid →
      pidTouches (T ++ [(s.now, ⟨q, .MOVE, ptr.pid⟩)]) p = pidTouches T p := by
    intro p hp
    rw [pidTouches_append, pidTouches_single_ne _ _ (fun h => hp h.symm),
      List.append_nil]
  have htr_eq : pidTouches (T ++ [(s.now, ⟨q, .MOVE, ptr.pid⟩)]) ptr.pid =
      pidTouches T ptr.pid ++ [(s.now, ⟨q, .MOVE, ptr.pid⟩)] := by
    rw [pidTouches_append, pidTouches_single_eq _ _ rfl]
  have hopen_old := hP.open_ptr (id, ptr) hmem (by simpa using hnm)
  refine ⟨?_, hP.unused_keys_nodup, hP.unow_keys_nodup, hP.unused_pid_eq,
    hP.unow_pid_eq, hP.mark_nodup, ?_, ?_, hP.rec_nodup, hP.rec_range, ?_, ?_,
    hP.delta_eq, hP.begin_le_max, hP.now_eq, ?_, hP.ts_unused, hP.ts_unow,
    hP.occ_aged, ?_, hP.occ_unow, ?_, ?_, ?_, ?_, ?_, ?_⟩
  · simpa only [hset, hkeys] using hnd
  · -- mark_sub
    intro id' hid'
    obtain ⟨p', hp1, hp2⟩ := hP.mark_sub id' hid'
    refine ⟨p', ?_, hp2⟩
    have hne : id ≠ id' := fun h => hnm (h ▸ hid')
    simpa only [pdFind?_pdSet_ne s.pointers id id' _ hne] using hp1
  · simpa only [hlive] using hP.live_nodup
  · simpa only [hlive] using hP.live_range
  · simpa only [hlive] using hP.rec_live_disj
  · -- ts_ptr
    intro e' he'
    rcases hmem' e' he' with ⟨_, rfl⟩ | ⟨_, he⟩
    · simpa using le_of_eq hnow
    · exact hP.ts_ptr e' he
  · -- occ_ptr
    intro e' he'
    rcases hmem' e' he' with ⟨_, rfl⟩ | ⟨_, he⟩
    · simpa using hP.occ_ptr (id, ptr) hmem
    · exact hP.occ_ptr e' he
  · -- f_times
    intro x hx
    rcases List.mem_append.1 hx with hx | hx
    · exact hP.f_times x hx
    · simp only [List.mem_singleton] at hx
      subst hx
      exact le_of_eq hnow
  · -- f_sorted
    intro p
    by_cases hp : p = ptr.pid
    · subst hp
      rw [htr_eq]
      refine pairwise_le_append_single (hP.f_sorted ptr.pid) ?_
      intro y hy
      exact le_of_le_of_eq (hP.f_times y (List.mem_of_mem_filter hy)) hnow.symm
    · rw [htr_ne p hp]
      exact hP.f_sorted p
  · -- open_ptr
    intro e' he' hem'
    rcases hmem' e' he' with ⟨_, rfl⟩ | ⟨hne, he⟩
    · simp only at hem' ⊢
      rw [htr_eq, touchActs_append, lastTime_append_single]
      exact ⟨openRun_append_move hopen_old.1, rfl⟩
    · have hem : e'.1 ∉ s.mark_as_released := hem'
      rw [htr_ne e'.2.pid (hpid_ne e' he hem hne)]
      exact hP.open_ptr e' he hem
  · -- open_unused
    intro e he
    rw [htr_ne e.2.pid (hpid_not_unused e he)]
    exact hP.open_unused e he
  · -- open_unow
    intro e he
    rw [htr_ne e.2.pid (hpid_not_unow e he)]
    exact hP.open_unow e he
  · -- f_closed
    intro p hp
    rw [hlive] at hp
    have hne : p ≠ ptr.pid := by
      intro h
      exact hp (h ▸ mem_live_ptr hmem hnm)
    rw [htr_ne p hne]
    exact hP.f_closed p hp

/-- The state surgery `release` performs on a live id: park the pointer in
`unused_now` and mark the id. -/
def parkRelease (s : PMState) (id : ℕ) (ptr : Pointer) : PMState :=
  { s with unused_now := pdSet s.unused_now ptr.pid ptr,
           mark_as_released := s.mark_as_released ++ [id] }

theorem release_eq {ev : FrameEvent} {s : PMState} {ptr : Pointer}
    (hfind : pdFind? s.pointers ev.id = some ptr) :
    release ev s = parkRelease s ev.id ptr := by
  unfold release parkRelease
  rw [hfind]

/-- `release` on a live, not-yet-marked id: the pointer is parked in
`unused_now` and the id marked; the owned pids are only permuted, the trace
untouched. -/
theorem planInv_release {s : PMState} {B m : ℤ} {T : List TimedTouch}
    (hP : PlanInv s B m T) {id : ℕ} {ptr : Pointer}
    (hfind : pdFind? s.pointers id = some ptr) (hnm : id ∉ s.mark_as_released) :
    PlanInv (parkRelease s id ptr) B m T := by
  unfold parkRelease
  have hmem : (id, ptr) ∈ s.pointers := pdFind?_mem hfind
  have hptr_in : (id, ptr) ∈ s.pointers.filter
      (fun e => decide (e.1 ∉ s.mark_as_released)) :=
    List.mem_filter.2 ⟨hmem, by simpa using hnm⟩
  have hpid_live : ptr.pid ∈ (s.pointers.filter
      (fun e => decide (e.1 ∉ s.mark_as_released))).map (fun e => e.2.pid) :=
    List.mem_map_of_mem _ hptr_in
  have hdisjC := (List.nodup_append.1 hP.live_nodup).2.2
  have hpid_notC : ptr.pid ∉ s.unused_now.map (·.1) :=
    hdisjC (List.mem_append.2 (Or.inl hpid_live))
  have hsetw : pdSet s.unused_now ptr.pid ptr = s.unused_now ++ [(ptr.pid, ptr)] :=
    pdSet_of_fresh ptr hpid_notC
  have hAperm := filter_mark_extend s.pointers s.mark_as_released id ptr
    hP.ptr_keys_nodup hfind hnm
  have hApidperm := hAperm.map (fun e => e.2.pid)
  have hperm : (livePidsMid (parkRelease s id ptr)).Perm (livePidsMid s) := by
    unfold parkRelease livePidsMid
    simp only [hsetw, List.map_append, List.map_cons, List.map_nil]
    have hA : (List.map (fun e => e.2.pid)
        (List.filter (fun e => decide (e.1 ∉ s.mark_as_released)) s.pointers)).Perm
        (ptr.pid :: List.map (fun e => e.2.pid)
          (List.filter (fun e => decide (e.1 ∉ s.mark_as_released ++ [id]))
            s.pointers)) := by
      simpa using hApidperm
    refine List.Perm.symm ?_
    refine List.Perm.trans ((hA.append_right _).append_right _) ?_
    simp only [List.cons_append, ← List.append_assoc]
    exact (List.perm_append_singleton _ _).symm
  refine ⟨hP.ptr_keys_nodup, hP.unused_keys_nodup, ?_, hP.unused_pid_eq, ?_, ?_,
    ?_, ?_, hP.rec_nodup, hP.rec_range, ?_, ?_, hP.delta_eq, hP.begin_le_max,
    hP.now_eq, hP.ts_ptr, hP.ts_unused, ?_, hP.occ_aged, hP.occ_ptr, ?_,
    hP.f_times, hP.f_sorted, ?_, hP.open_unused, ?_, ?_⟩
  · -- unow_keys_nodup
    simp only [hsetw, List.map_append, List.map_cons, List.map_nil]
    rw [List.nodup_append]
    exact ⟨hP.unow_keys_nodup, List.nodup_singleton _,
      fun a ha hb => by
        simp only [List.mem_singleton] at hb
        exact hpid_notC (hb ▸ ha)⟩
  · -- unow_pid_eq
    intro e he
    simp only [hsetw] at he
    rcases List.mem_append.1 he with he | he
    · exact hP.unow_pid_eq e he
    · simp only [List.mem_singleton] at he
      subst he
      rfl
  · -- mark_nodup
    rw [List.nodup_append]
    exact ⟨hP.mark_nodup, List.nodup_singleton _, fun a ha hb => by
      simp only [List.mem_singleton] at hb
      exact hnm (hb ▸ ha)⟩
  · -- mark_sub
    intro id' hid'
    rcases List.mem_append.1 hid' with hid' | hid'
    · obtain ⟨p', hp1, hp2⟩ := hP.mark_sub id' hid'
      refine ⟨p', hp1, ?_⟩
      have hpm : p'.pid ∈ s.unused_now.map (·.1) := by
        have := pdFind?_mem hp2
        exact List.mem_map_of_mem (·.1) this
      simpa only [hsetw] using
        (pdFind?_append_single_ne s.unused_now ptr.pid p'.pid ptr
          (fun h => hpid_notC (h ▸ hpm))).symm ▸ hp2
    · simp only [List.mem_singleton] at hid'
      subst hid'
      refine ⟨ptr, hfind, ?_⟩
      simp only [hsetw]
      rw [pdFind?_append_right s.unused_now _ _ hpid_notC]
      simp [pdFind?]
  · -- live_nodup
    exact hperm.nodup_iff.2 hP.live_nodup
  · -- live_range
    intro p hp
    exact hP.live_range p (hperm.mem_iff.1 hp)
  · -- rec_live_disj
    intro p hp hmemp
    exact hP.rec_live_disj p hp (hperm.mem_iff.1 hmemp)
  · -- ts_unow
    intro e he
    simp only [hsetw] at he
    rcases List.mem_append.1 he with he | he
    · exact hP.ts_unow e he
    · simp only [List.mem_singleton] at he
      subst he
      exact hP.ts_ptr (id, ptr) hmem
  · -- occ_unow
    intro e he
    simp only [hsetw] at he
    rcases List.mem_append.1 he with he | he
    · exact hP.occ_unow e he
    · simp only [List.mem_singleton] at he
      subst he
      exact hP.occ_ptr (id, ptr) hmem
  · -- open_ptr
    intro e he hem
    simp only [List.mem_append, List.mem_singleton] at hem
    push_neg at hem
    exact hP.open_ptr e he hem.1
  · -- open_unow
    intro e he
    simp only [hsetw] at he
    rcases List.mem_append.1 he with he | he
    · exact hP.open_unow e he
    · simp only [List.mem_singleton] at he
      subst he
      exact hP.open_ptr (id, ptr) hmem (by simpa using hnm)
  · -- f_closed
    intro p hp
    exact hP.f_closed p (fun hm2 => hp (hperm.mem_iff.2 hm2))

/-- The state surgery of `acquire` on a live id: update the record in
place. -/
def liveUpd (s : PMState) (id : ℕ) (ptr' : Pointer) : PMState :=
  { s with pointers := pdSet s.pointers id ptr' }

/-- The state surgery of the reuse branch of `acquire`. -/
def reuseUpd (s : PMState) (id npid : ℕ) (ptr' : Pointer) : PMState :=
  { s with unused := pdErase s.unused npid,
           pointers := pdSet s.pointers id ptr' }

/-- The candidate-search loop of `acquire`, as a function of the state. -/
def reuseFold (ext : ExtFuns) (event : FrameEvent) (s : PMState) :
    Option (ℕ × ℚ × Pointer) :=
  s.unused.foldl
    (fun best e =>
      let d := ext.distance_of event.point e.2.pos
      let score := d + ((s.now : ℚ) - (e.2.timestamp : ℚ)) / 50
      if (match best with
          | none => true
          | some (_, m, _) => decide (score < m)) && decide (d < 120) then
        some (e.2.pid, score, e.2)
      else best)
    none

theorem acquire_live_eq {ext : ExtFuns} {ev : FrameEvent} {new : Bool}
    {s : PMState} {ptr : Pointer} (hfind : pdFind? s.pointers ev.id = some ptr) :
    acquire ext ev new s = ((ptr.pid, false),
      liveUpd s ev.id { ptr with timestamp := s.now, pos := ev.point }) := by
  unfold acquire liveUpd
  rw [hfind]

theorem acquire_true_eq {ext : ExtFuns} {ev : FrameEvent} {s : PMState}
    (hfind : pdFind? s.pointers ev.id = none) :
    acquire ext ev true s = (((pmNew s).1, true),
      liveUpd (pmNew s).2 ev.id ⟨(pmNew s).1, ev.point, s.now, 0⟩) := by
  unfold acquire liveUpd
  rw [hfind]
  dsimp only
  rw [if_pos (show (true = true) from rfl)]

theorem acquire_false_none_eq {ext : ExtFuns} {ev : FrameEvent} {s : PMState}
    (hfind : pdFind? s.pointers ev.id = none)
    (hfold : reuseFold ext ev s = none) :
    acquire ext ev false s = (((pmNew s).1, true),
      liveUpd (pmNew s).2 ev.id ⟨(pmNew s).1, ev.point, s.now, 0⟩) := by
  unfold reuseFold at hfold
  unfold acquire liveUpd
  rw [hfind]
  dsimp only
  rw [if_neg (by simp)]
  rw [hfold]

theorem acquire_false_some_eq {ext : ExtFuns} {ev : FrameEvent} {s : PMState}
    {npid : ℕ} {sc : ℚ} {p : Pointer} (hfind : pdFind? s.pointers ev.id = none)
    (hfold : reuseFold ext ev s = some (npid, sc, p)) :
    acquire ext ev false s = ((p.pid, false),
      reuseUpd s ev.id npid { p with timestamp := s.now, pos := ev.point, occupied := 0 }) := by
  unfold reuseFold at hfold
  unfold acquire reuseUpd
  rw [hfind]
  dsimp only
  rw [if_neg (by simp)]
  rw [hfold]

/-- The chosen reuse candidate is an `unused` entry (keyed by its own pid,
as all `unused` entries are). -/
theorem reuseFold_mem {ext : ExtFuns} {ev : FrameEvent} {s : PMState}
    {npid : ℕ} {sc : ℚ} {p : Pointer}
    (hpe : ∀ e ∈ s.unused, e.2.pid = e.1)
    (hfold : reuseFold ext ev s = some (npid, sc, p)) :
    (p.pid, p) ∈ s.unused ∧ npid = p.pid := by
  have hinv := bestFold_inv ext ev s s.unused [] none (Or.inl ⟨rfl, by simp⟩)
  rw [List.nil_append] at hinv
  have hfold' : s.unused.foldl
      (fun best e =>
        let d := ext.distance_of ev.point e.2.pos
        let score := d + ((s.now : ℚ) - (e.2.timestamp : ℚ)) / 50
        if (match best with
            | none => true
            | some (_, m, _) => decide (score < m)) && decide (d < 120) then
          some (e.2.pid, score, e.2)
        else best)
      none = some (npid, sc, p) := hfold
  rw [hfold'] at hinv
  rcases hinv with ⟨hnone, _⟩ | ⟨e, he, heq, _⟩
  · cases hnone
  · injection heq with heq
    have h1 : npid = e.2.pid := congrArg (·.1) heq
    have h2 : p = e.2 := congrArg (·.2.2) heq
    subst h2
    refine ⟨?_, h1⟩
    rw [hpe e he]
    exact he

/-- The combined state surgery of a fresh allocation: new allocator fields
and the new pointer inserted. -/
def freshUpd (s : PMState) (mx1 : ℕ) (rec1 : List ℕ) (id : ℕ) (ptr : Pointer) :
    PMState :=
  { s with max_pointer_id := mx1, recycled := rec1,
           pointers := pdSet s.pointers id ptr }

theorem planInv_fresh_core {s : PMState} {B m : ℤ} {T : List TimedTouch}
    (hP : PlanInv s B m T) {id pid mx1 : ℕ} {rec1 : List ℕ} {pt q : Point}
    (hfind : pdFind? s.pointers id = none)
    (hpidlive : pid ∉ livePidsMid s)
    (hrecn : rec1.Nodup) (hrecr : ∀ r ∈ rec1, s.begin_ ≤ r ∧ r < mx1)
    (hrecd : ∀ r ∈ rec1, r ∉ livePidsMid s ∧ r ≠ pid)
    (hliver : ∀ r ∈ livePidsMid s, s.begin_ ≤ r ∧ r < mx1)
    (hpidr : s.begin_ ≤ pid ∧ pid < mx1) :
    PlanInv (freshUpd s mx1 rec1 id (Pointer.mk pid pt s.now 0)) B m
      (T ++ [(s.now, ⟨q, .DOWN, pid⟩)]) := by
  have hnow := hP.now_eq
  have hkeyfresh : id ∉ s.pointers.map (·.1) := (pdFind?_eq_none_iff _ _).1 hfind
  have hset : pdSet s.pointers id (Pointer.mk pid pt s.now 0) =
      s.pointers ++ [(id, Pointer.mk pid pt s.now 0)] :=
    pdSet_of_fresh _ hkeyfresh
  have hidnm : id ∉ s.mark_as_released := by
    intro hmem
    obtain ⟨p', hp1, _⟩ := hP.mark_sub id hmem
    rw [hfind] at hp1
    cases hp1
  have hlive' : livePidsMid (freshUpd s mx1 rec1 id (Pointer.mk pid pt s.now 0)) =
      ((s.pointers.filter (fun e => decide (e.1 ∉ s.mark_as_released))).map
          (fun e => e.2.pid) ++ [pid]) ++
        s.unused.map (·.1) ++ s.unused_now.map (·.1) := by
    unfold freshUpd livePidsMid
    simp only [hset, List.filter_append, List.map_append]
    rw [List.filter_cons_of_pos (by simpa using hidnm)]
    simp
  have hlperm : (livePidsMid (freshUpd s mx1 rec1 id (Pointer.mk pid pt s.now 0))).Perm
      (pid :: livePidsMid s) := by
    rw [hlive']
    unfold livePidsMid
    refine List.Perm.trans
      (((List.perm_append_singleton _ _).append_right _).append_right _) ?_
    simp [List.cons_append]
  have hmem' : ∀ e' ∈ (freshUpd s mx1 rec1 id (Pointer.mk pid pt s.now 0)).pointers,
      e' ∈ s.pointers ∨ e' = (id, Pointer.mk pid pt s.now 0) := by
    unfold freshUpd
    simp only [hset]
    intro e' he'
    rcases List.mem_append.1 he' with he' | he'
    · exact Or.inl he'
    · simp only [List.mem_singleton] at he'
      exact Or.inr he'
  have htr_ne : ∀ r : ℕ, r ≠ pid →
      pidTouches (T ++ [(s.now, ⟨q, .DOWN, pid⟩)]) r = pidTouches T r := by
    intro r hr
    rw [pidTouches_append, pidTouches_single_ne _ _ (fun h => hr h.symm),
      List.append_nil]
  have htr_eq : pidTouches (T ++ [(s.now, ⟨q, .DOWN, pid⟩)]) pid =
      pidTouches T pid ++ [(s.now, ⟨q, .DOWN, pid⟩)] := by
    rw [pidTouches_append, pidTouches_single_eq _ _ rfl]
  have hpid_of_live : ∀ e ∈ s.pointers, e.1 ∉ s.mark_as_released → e.2.pid ≠ pid := by
    intro e he hem hpe
    exact hpidlive (hpe ▸ mem_live_ptr he hem)
  refine ⟨?_, hP.unused_keys_nodup, hP.unow_keys_nodup, hP.unused_pid_eq,
    hP.unow_pid_eq, hP.mark_nodup, ?_, ?_, hrecn, hrecr, ?_, ?_, hP.delta_eq,
    le_trans hpidr.1 (le_of_lt hpidr.2), hP.now_eq, ?_, hP.ts_unused, hP.ts_unow,
    hP.occ_aged, ?_, hP.occ_unow, ?_, ?_, ?_, ?_, ?_, ?_⟩
  · -- ptr_keys_nodup
    unfold freshUpd
    simp only [hset, List.map_append, List.map_cons, List.map_nil]
    rw [List.nodup_append]
    refine ⟨hP.ptr_keys_nodup, List.nodup_singleton _, ?_⟩
    intro a ha hb
    simp only [List.mem_singleton] at hb
    exact hkeyfresh (hb ▸ ha)
  · -- mark_sub
    intro id' hid'
    obtain ⟨p', hp1, hp2⟩ := hP.mark_sub id' hid'
    refine ⟨p', ?_, hp2⟩
    unfold freshUpd
    simp only [hset]
    rw [pdFind?_append_single_ne s.pointers id id' (Pointer.mk pid pt s.now 0)
      (fun h : id' = id => hidnm (h ▸ hid'))]
    exact hp1
  · -- live_nodup
    exact hlperm.nodup_iff.2 (List.nodup_cons.2 ⟨hpidlive, hP.live_nodup⟩)
  · -- live_range
    intro r hr
    rcases List.mem_cons.1 (hlperm.mem_iff.1 hr) with rfl | hr2
    · exact hpidr
    · exact hliver r hr2
  · -- rec_live_disj
    intro r hr hmem
    rcases List.mem_cons.1 (hlperm.mem_iff.1 hmem) with rfl | hr2
    · exact (hrecd r hr).2 rfl
    · exact (hrecd r hr).1 hr2
  · -- ts_ptr
    intro e' he'
    rcases hmem' e' he' with he | rfl
    · exact hP.ts_ptr e' he
    · exact le_of_eq hnow
  · -- occ_ptr
    intro e' he'
    rcases hmem' e' he' with he | rfl
    · exact hP.occ_ptr e' he
    · rfl
  · -- f_times
    intro x hx
    rcases List.mem_append.1 hx with hx | hx
    · exact hP.f_times x hx
    · simp only [List.mem_singleton] at hx
      subst hx
      exact le_of_eq hnow
  · -- f_sorted
    intro r
    by_cases hr : r = pid
    · subst hr
      rw [htr_eq]
      refine pairwise_le_append_single (hP.f_sorted r) ?_
      intro y hy
      exact le_of_le_of_eq (hP.f_times y (List.mem_of_mem_filter hy)) hnow.symm
    · rw [htr_ne r hr]
      exact hP.f_sorted r
  · -- open_ptr
    intro e' he' hem'
    rcases hmem' e' he' with he | rfl
    · have hem : e'.1 ∉ s.mark_as_released := hem'
      rw [htr_ne e'.2.pid (hpid_of_live e' he hem)]
      exact hP.open_ptr e' he hem
    · simp only
      rw [htr_eq, touchActs_append, lastTime_append_single]
      refine ⟨?_, rfl⟩
      exact balancedRuns_append_down (hP.f_closed pid hpidlive)
  · -- open_unused
    intro e he
    have : e.2.pid ≠ pid := by
      intro hpe
      exact hpidlive (hpe ▸ (hP.unused_pid_eq e he ▸ mem_live_unused he))
    rw [htr_ne e.2.pid this]
    exact hP.open_unused e he
  · -- open_unow
    intro e he
    have : e.2.pid ≠ pid := by
      intro hpe
      exact hpidlive (hpe ▸ (hP.unow_pid_eq e he ▸ mem_live_unow he))
    rw [htr_ne e.2.pid this]
    exact hP.open_unow e he
  · -- f_closed
    intro r hr
    have h1 : r ≠ pid := by
      intro h
      exact hr (hlperm.mem_iff.2 (h ▸ List.mem_cons_self _ _))
    have h2 : r ∉ livePidsMid s := by
      intro h
      exact hr (hlperm.mem_iff.2 (List.mem_cons_of_mem _ h))
    rw [htr_ne r h1]
    exact hP.f_closed r h2

/-- A fresh allocation through `_new` (either branch) preserves the planner
invariant, emitting the DOWN of the new run. -/
theorem planInv_fresh {s : PMState} {B m : ℤ} {T : List TimedTouch}
    (hP : PlanInv s B m T) {id : ℕ} {pt q : Point}
    (hfind : pdFind? s.pointers id = none) :
    PlanInv (liveUpd (pmNew s).2 id (Pointer.mk (pmNew s).1 pt s.now 0)) B m
      (T ++ [(s.now, ⟨q, .DOWN, (pmNew s).1⟩)]) := by
  rcases hrec : s.recycled with _ | ⟨rp, rest⟩
  · have hpid1 : (pmNew s).1 = s.max_pointer_id := by
      simp [pmNew, hrec]
    have hstate : liveUpd (pmNew s).2 id (Pointer.mk (pmNew s).1 pt s.now 0) =
        freshUpd s (s.max_pointer_id + s.delta) s.recycled id
          (Pointer.mk (pmNew s).1 pt s.now 0) := by
      simp [pmNew, hrec, liveUpd, freshUpd]
    rw [hstate, hpid1, hrec]
    refine planInv_fresh_core hP hfind ?_ List.nodup_nil (by simp) (by simp) ?_ ?_
    · intro hmem
      exact absurd (hP.live_range _ hmem).2 (lt_irrefl _)
    · intro r hr
      have := hP.live_range r hr
      omega
    · have h1 := hP.begin_le_max
      have h2 := hP.delta_eq
      omega
  · have hpid1 : (pmNew s).1 = rp := by
      simp [pmNew, hrec]
    have hstate : liveUpd (pmNew s).2 id (Pointer.mk (pmNew s).1 pt s.now 0) =
        freshUpd s s.max_pointer_id rest id (Pointer.mk (pmNew s).1 pt s.now 0) := by
      simp [pmNew, hrec, liveUpd, freshUpd]
    have hrpmem : rp ∈ s.recycled := by
      rw [hrec]
      exact List.mem_cons_self _ _
    have hnodup : (rp :: rest).Nodup := hrec ▸ hP.rec_nodup
    rw [hstate, hpid1]
    refine planInv_fresh_core hP hfind (hP.rec_live_disj rp hrpmem)
      (List.nodup_cons.1 hnodup).2 ?_ ?_ hP.live_range (hP.rec_range rp hrpmem)
    · intro r hr
      exact hP.rec_range r (by rw [hrec]; exact List.mem_cons_of_mem _ hr)
    · intro r hr
      have hrmem : r ∈ s.recycled := by
        rw [hrec]
        exact List.mem_cons_of_mem _ hr
      refine ⟨hP.rec_live_disj r hrmem, ?_⟩
      intro h
      exact (List.nodup_cons.1 hnodup).1 (h ▸ hr)

theorem nodup_perm_cons_filter {l : List ℕ} (hn : l.Nodup) {a : ℕ} (ha : a ∈ l) :
    l.Perm (a :: l.filter (fun x => decide (x ≠ a))) := by
  induction l with
  | nil => cases ha
  | cons b t ih =>
      simp only [List.nodup_cons] at hn
      by_cases hab : a = b
      · subst hab
        rw [List.filter_cons_of_neg (by simp)]
        have ht : t.filter (fun x => decide (x ≠ a)) = t := by
          apply List.filter_eq_self.2
          intro x hx
          simp only [decide_eq_true_eq]
          intro hxa
          exact hn.1 (hxa ▸ hx)
        rw [ht]
      · have hat : a ∈ t := by
          rcases List.mem_cons.1 ha with h | h
          · exact absurd h hab
          · exact h
        rw [List.filter_cons_of_pos (by simpa using fun h => hab h.symm)]
        refine List.Perm.trans (List.Perm.cons b (ih hn.2 hat)) ?_
        exact List.Perm.swap _ _ _

/-- Reusing an `unused` pointer: the entry moves from `unused` to
`pointers` under the event id, its run continuing with the emitted MOVE. -/
theorem planInv_reuse {s : PMState} {B m : ℤ} {T : List TimedTouch}
    (hP : PlanInv s B m T) {id : ℕ} {p : Pointer} {pt q : Point}
    (hfind : pdFind? s.pointers id = none)
    (hmemu : (p.pid, p) ∈ s.unused) :
    PlanInv (reuseUpd s id p.pid
        { p with timestamp := s.now, pos := pt, occupied := 0 }) B m
      (T ++ [(s.now, ⟨q, .MOVE, p.pid⟩)]) := by
  have hnow := hP.now_eq
  have hkeyfresh : id ∉ s.pointers.map (·.1) := (pdFind?_eq_none_iff _ _).1 hfind
  have hset : pdSet s.pointers id
      { p with timestamp := s.now, pos := pt, occupied := 0 } =
      s.pointers ++ [(id, { p with timestamp := s.now, pos := pt, occupied := 0 })] :=
    pdSet_of_fresh _ hkeyfresh
  have hidnm : id ∉ s.mark_as_released := by
    intro hmem
    obtain ⟨p', hp1, _⟩ := hP.mark_sub id hmem
    rw [hfind] at hp1
    cases hp1
  have hukeys : p.pid ∈ s.unused.map (·.1) := List.mem_map_of_mem (·.1) hmemu
  have herase : pdErase s.unused p.pid =
      s.unused.filter (fun e => decide (e.1 ≠ p.pid)) :=
    pdErase_eq_filter s.unused p.pid hP.unused_keys_nodup
  have herase_keys : (pdErase s.unused p.pid).map (·.1) =
      (s.unused.map (·.1)).filter (fun x => decide (x ≠ p.pid)) := by
    rw [herase, List.filter_map]
    rfl
  have hukeysperm : (s.unused.map (·.1)).Perm
      (p.pid :: (s.unused.map (·.1)).filter (fun x => decide (x ≠ p.pid))) :=
    nodup_perm_cons_filter hP.unused_keys_nodup hukeys
  have hlperm : (livePidsMid (reuseUpd s id p.pid
      { p with timestamp := s.now, pos := pt, occupied := 0 })).Perm
      (livePidsMid s) := by
    unfold reuseUpd livePidsMid
    simp only [hset, List.filter_append, List.map_append, herase_keys]
    rw [List.filter_cons_of_pos (by simpa using hidnm)]
    simp only [List.filter_nil, List.map_cons, List.map_nil, List.append_nil,
      List.append_assoc, List.singleton_append]
    refine List.Perm.append_left _ ?_
    exact (hukeysperm.symm.append_right _)
  have hmem' : ∀ e' ∈ (reuseUpd s id p.pid
      { p with timestamp := s.now, pos := pt, occupied := 0 }).pointers,
      e' ∈ s.pointers ∨
        e' = (id, { p with timestamp := s.now, pos := pt, occupied := 0 }) := by
    unfold reuseUpd
    simp only [hset]
    intro e' he'
    rcases List.mem_append.1 he' with he' | he'
    · exact Or.inl he'
    · simp only [List.mem_singleton] at he'
      exact Or.inr he'
  have hmemu' : ∀ e ∈ (reuseUpd s id p.pid
      { p with timestamp := s.now, pos := pt, occupied := 0 }).unused,
      e ∈ s.unused ∧ e.1 ≠ p.pid := by
    unfold reuseUpd
    simp only [herase]
    intro e he
    have := List.mem_filter.1 he
    exact ⟨this.1, by simpa using this.2⟩
  have htr_ne : ∀ r : ℕ, r ≠ p.pid →
      pidTouches (T ++ [(s.now, ⟨q, .MOVE, p.pid⟩)]) r = pidTouches T r := by
    intro r hr
    rw [pidTouches_append, pidTouches_single_ne _ _ (fun h => hr h.symm),
      List.append_nil]
  have htr_eq : pidTouches (T ++ [(s.now, ⟨q, .MOVE, p.pid⟩)]) p.pid =
      pidTouches T p.pid ++ [(s.now, ⟨q, .MOVE, p.pid⟩)] := by
    rw [pidTouches_append, pidTouches_single_eq _ _ rfl]
  have hdisjAU : ((s.pointers.filter (fun e =>
      decide (e.1 ∉ s.mark_as_released))).map (fun e => e.2.pid)).Disjoint
      (s.unused.map (·.1)) :=
    (List.nodup_append.1 (List.nodup_append.1 hP.live_nodup).1).2.2
  have hdisjW := (List.nodup_append.1 hP.live_nodup).2.2
  have hpid_of_live : ∀ e ∈ s.pointers, e.1 ∉ s.mark_as_released →
      e.2.pid ≠ p.pid := by
    intro e he hem hpe
    refine hdisjAU ?_ hukeys
    rw [← hpe]
    exact List.mem_map_of_mem _ (List.mem_filter.2 ⟨he, by simpa using hem⟩)
  have hopen_old := hP.open_unused (p.pid, p) hmemu
  refine ⟨?_, ?_, hP.unow_keys_nodup, ?_, hP.unow_pid_eq, hP.mark_nodup, ?_, ?_,
    hP.rec_nodup, hP.rec_range, ?_, ?_, hP.delta_eq, hP.begin_le_max, hP.now_eq,
    ?_, ?_, hP.ts_unow, ?_, ?_, hP.occ_unow, ?_, ?_, ?_, ?_, ?_, ?_⟩
  · -- ptr_keys_nodup
    unfold reuseUpd
    simp only [hset, List.map_append, List.map_cons, List.map_nil]
    rw [List.nodup_append]
    refine ⟨hP.ptr_keys_nodup, List.nodup_singleton _, ?_⟩
    intro a ha hb
    simp only [List.mem_singleton] at hb
    exact hkeyfresh (hb ▸ ha)
  · -- unused_keys_nodup
    unfold reuseUpd
    simp only [herase_keys]
    exact hP.unused_keys_nodup.filter _
  · -- unused_pid_eq
    intro e he
    exact hP.unused_pid_eq e (hmemu' e he).1
  · -- mark_sub
    intro id' hid'
    obtain ⟨p', hp1, hp2⟩ := hP.mark_sub id' hid'
    refine ⟨p', ?_, hp2⟩
    unfold reuseUpd
    simp only [hset]
    rw [pdFind?_append_single_ne s.pointers id id' _
      (fun h : id' = id => hidnm (h ▸ hid'))]
    exact hp1
  · -- live_nodup
    exact hlperm.nodup_iff.2 hP.live_nodup
  · -- live_range
    intro r hr
    exact hP.live_range r (hlperm.mem_iff.1 hr)
  · -- rec_live_disj
    intro r hr hmem
    exact hP.rec_live_disj r hr (hlperm.mem_iff.1 hmem)
  · -- ts_ptr
    intro e' he'
    rcases hmem' e' he' with he | rfl
    · exact hP.ts_ptr e' he
    · exact le_of_eq hnow
  · -- ts_unused
    intro e he
    exact hP.ts_unused e (hmemu' e he).1
  · -- occ_aged
    intro e he
    exact hP.occ_aged e (hmemu' e he).1
  · -- occ_ptr
    intro e' he'
    rcases hmem' e' he' with he | rfl
    · exact hP.occ_ptr e' he
    · rfl
  · -- f_times
    intro x hx
    rcases List.mem_append.1 hx with hx | hx
    · exact hP.f_times x hx
    · simp only [List.mem_singleton] at hx
      subst hx
      exact le_of_eq hnow
  · -- f_sorted
    intro r
    by_cases hr : r = p.pid
    · subst hr
      rw [htr_eq]
      refine pairwise_le_append_single (hP.f_sorted p.pid) ?_
      intro y hy
      exact le_of_le_of_eq (hP.f_times y (List.mem_of_mem_filter hy)) hnow.symm
    · rw [htr_ne r hr]
      exact hP.f_sorted r
  · -- open_ptr
    intro e' he' hem'
    rcases hmem' e' he' with he | rfl
    · have hem : e'.1 ∉ s.mark_as_released := hem'
      rw [htr_ne e'.2.pid (hpid_of_live e' he hem)]
      exact hP.open_ptr e' he hem
    · simp only
      rw [htr_eq, touchActs_append, lastTime_append_single]
      exact ⟨openRun_append_move hopen_old.1, rfl⟩
  · -- open_unused
    intro e he
    have h2 := hmemu' e he
    have : e.2.pid ≠ p.pid := by
      rw [hP.unused_pid_eq e h2.1]
      exact h2.2
    rw [htr_ne e.2.pid this]
    exact hP.open_unused e h2.1
  · -- open_unow
    intro e he
    have : e.2.pid ≠ p.pid := by
      intro hpe
      refine hdisjW (List.mem_append.2 (Or.inr hukeys)) ?_
      have h3 : p.pid = e.1 := hpe.symm.trans (hP.unow_pid_eq e he)
      rw [h3]
      exact List.mem_map_of_mem (·.1) he
    rw [htr_ne e.2.pid this]
    exact hP.open_unow e he
  · -- f_closed
    intro r hr
    have h2 : r ∉ livePidsMid s := fun h => hr (hlperm.mem_iff.2 h)
    have h1 : r ≠ p.pid := by
      intro h
      exact h2 (h ▸ mem_live_unused hmemu)
    rw [htr_ne r h1]
    exact hP.f_closed r h2

theorem pmNew_fields (s : PMState) :
    (pmNew s).2.pointers = s.pointers ∧ (pmNew s).2.unused = s.unused ∧
    (pmNew s).2.unused_now = s.unused_now ∧
    (pmNew s).2.mark_as_released = s.mark_as_released ∧ (pmNew s).2.now = s.now := by
  rcases hrec : s.recycled with _ | ⟨rp, rest⟩ <;> simp [pmNew, hrec]

theorem not_marked_of_find_none {s : PMState} {B m : ℤ} {T : List TimedTouch}
    (hP : PlanInv s B m T) {id : ℕ} (hfind : pdFind? s.pointers id = none) :
    id ∉ s.mark_as_released := by
  intro hmem
  obtain ⟨p', hp1, _⟩ := hP.mark_sub id hmem
  rw [hfind] at hp1
  cases hp1

theorem idActs_cons_self (ev : FrameEvent) (R : List FrameEvent) :
    idActs (ev :: R) ev.id = ev.action :: idActs R ev.id := by
  simp [idActs, List.filter_cons]

theorem idActs_cons_ne (ev : FrameEvent) (R : List FrameEvent) {id : ℕ}
    (h : ev.id ≠ id) : idActs (ev :: R) id = idActs R id := by
  simp [idActs, List.filter_cons, h]

theorem isMidTail_cons_dead {a : FrameEventAction} (h1 : isMiddle a = false)
    (h2 : isEnder a = false) (tl : List FrameEventAction) :
    isMidTail (a :: tl) = false := by
  cases tl with
  | nil => simpa [isMidTail] using h2
  | cons b t => simp [isMidTail, h1]

theorem isMidTail_cons_middle {a : FrameEventAction} (h1 : isMiddle a = true)
    {tl : List FrameEventAction} (h : isMidTail (a :: tl) = true) :
    tl = [] → isEnder a = true := by
  intro htl
  subst htl
  simpa [isMidTail] using h

theorem isMidTail_middle_tail {a : FrameEventAction} (h1 : isMiddle a = false →
    isEnder a = true) {tl : List FrameEventAction}
    (h : isMidTail (a :: tl) = true) (hne : tl ≠ []) : isMidTail tl = true := by
  cases tl with
  | nil => exact absurd rfl hne
  | cons b t =>
      simp only [isMidTail, Bool.and_eq_true] at h
      exact h.2

theorem isGesture_tap_tail {tl : List FrameEventAction}
    (h : isGesture (.TAP :: tl) = true) : tl = [] := by
  cases tl with
  | nil => rfl
  | cons b t => simp [isGesture] at h

theorem isGesture_drag_tail {tl : List FrameEventAction}
    (h : isGesture (.DRAG :: tl) = true) : tl = [] := by
  cases tl with
  | nil => rfl
  | cons b t => simp [isGesture] at h

/-- Transfers stream well-formedness across one event: all other ids keep
their lookup and mark status, the processed id supplies its new case. -/
theorem IdsInv_transfer {R : List FrameEvent} {s s2 : PMState} {ev : FrameEvent}
    (hI : IdsInv (ev :: R) s)
    (hptr : ∀ id', id' ≠ ev.id → pdFind? s2.pointers id' = pdFind? s.pointers id')
    (hmark : ∀ id', id' ≠ ev.id →
      (id' ∈ s2.mark_as_released ↔ id' ∈ s.mark_as_released))
    (hself : (pdFind? s2.pointers ev.id = none ∧
        (idActs R ev.id = [] ∨ isGesture (idActs R ev.id) = true)) ∨
      ((∃ ptr, pdFind? s2.pointers ev.id = some ptr) ∧
        ev.id ∉ s2.mark_as_released ∧ isMidTail (idActs R ev.id) = true) ∨
      ((∃ ptr, pdFind? s2.pointers ev.id = some ptr) ∧
        ev.id ∈ s2.mark_as_released ∧ idActs R ev.id = [])) :
    IdsInv R s2 := by
  intro id'
  by_cases hid : id' = ev.id
  · subst hid
    exact hself
  · have hacts : idActs R id' = idActs (ev :: R) id' :=
      (idActs_cons_ne ev R (fun h => hid h.symm)).symm
    rw [hptr id' hid, hacts]
    rcases hI id' with ⟨h1, h2⟩ | ⟨h1, h2, h3⟩ | ⟨h1, h2, h3⟩
    · exact Or.inl ⟨h1, h2⟩
    · exact Or.inr (Or.inl ⟨h1, fun hm => h2 ((hmark id' hid).1 hm), h3⟩)
    · exact Or.inr (Or.inr ⟨h1, (hmark id' hid).2 h2, h3⟩)

/-- A TAP/DRAG-style fresh allocation immediately released. -/
theorem step_fresh_release {s : PMState} {B m : ℤ} {T : List TimedTouch}
    {ev : FrameEvent} {R : List FrameEvent}
    (hP : PlanInv s B m T) (hI : IdsInv (ev :: R) s)
    (hfind : pdFind? s.pointers ev.id = none) (htl : idActs R ev.id = []) :
    PlanInv (parkRelease
        (liveUpd (pmNew s).2 ev.id (Pointer.mk (pmNew s).1 ev.point s.now 0))
        ev.id (Pointer.mk (pmNew s).1 ev.point s.now 0)) B m
      (T ++ [(s.now, ⟨ev.point, .DOWN, (pmNew s).1⟩)]) ∧
    IdsInv R (parkRelease
      (liveUpd (pmNew s).2 ev.id (Pointer.mk (pmNew s).1 ev.point s.now 0))
      ev.id (Pointer.mk (pmNew s).1 ev.point s.now 0)) := by
  have hP1 : PlanInv (liveUpd (pmNew s).2 ev.id
      (Pointer.mk (pmNew s).1 ev.point s.now 0)) B m
      (T ++ [(s.now, ⟨ev.point, .DOWN, (pmNew s).1⟩)]) := planInv_fresh hP hfind
  have hfind2 : pdFind? (liveUpd (pmNew s).2 ev.id
      (Pointer.mk (pmNew s).1 ev.point s.now 0)).pointers ev.id =
      some (Pointer.mk (pmNew s).1 ev.point s.now 0) := by
    unfold liveUpd
    exact pdFind?_pdSet_self _ _ _
  have hnm0 : ev.id ∉ s.mark_as_released := not_marked_of_find_none hP hfind
  have hnm1 : ev.id ∉ (liveUpd (pmNew s).2 ev.id
      (Pointer.mk (pmNew s).1 ev.point s.now 0)).mark_as_released := by
    unfold liveUpd
    dsimp only
    rw [(pmNew_fields s).2.2.2.1]
    exact hnm0
  refine ⟨planInv_release hP1 hfind2 hnm1, ?_⟩
  refine IdsInv_transfer hI ?_ ?_ ?_
  · intro id' hid
    show pdFind? (pdSet (pmNew s).2.pointers ev.id _) id' = _
    rw [pdFind?_pdSet_ne _ _ _ _ (fun h => hid h.symm), (pmNew_fields s).1]
  · intro id' hid
    show id' ∈ (liveUpd (pmNew s).2 ev.id
      (Pointer.mk (pmNew s).1 ev.point s.now 0)).mark_as_released ++ [ev.id] ↔ _
    unfold liveUpd
    dsimp only
    rw [(pmNew_fields s).2.2.2.1]
    simp [hid]
  · refine Or.inr (Or.inr ⟨⟨_, hfind2⟩, ?_, htl⟩)
    show ev.id ∈ _ ++ [ev.id]
    simp

/-- A FLICK_START/HOLD_START-style fresh allocation kept live. -/
theorem step_fresh_keep {s : PMState} {B m : ℤ} {T : List TimedTouch}
    {ev : FrameEvent} {R : List FrameEvent}
    (hP : PlanInv s B m T) (hI : IdsInv (ev :: R) s)
    (hfind : pdFind? s.pointers ev.id = none)
    (hmt : isMidTail (idActs R ev.id) = true) :
    PlanInv (liveUpd (pmNew s).2 ev.id (Pointer.mk (pmNew s).1 ev.point s.now 0))
      B m (T ++ [(s.now, ⟨ev.point, .DOWN, (pmNew s).1⟩)]) ∧
    IdsInv R (liveUpd (pmNew s).2 ev.id
      (Pointer.mk (pmNew s).1 ev.point s.now 0)) := by
  have hP1 : PlanInv (liveUpd (pmNew s).2 ev.id
      (Pointer.mk (pmNew s).1 ev.point s.now 0)) B m
      (T ++ [(s.now, ⟨ev.point, .DOWN, (pmNew s).1⟩)]) := planInv_fresh hP hfind
  have hfind2 : pdFind? (liveUpd (pmNew s).2 ev.id
      (Pointer.mk (pmNew s).1 ev.point s.now 0)).pointers ev.id =
      some (Pointer.mk (pmNew s).1 ev.point s.now 0) := by
    unfold liveUpd
    exact pdFind?_pdSet_self _ _ _
  have hnm0 : ev.id ∉ s.mark_as_released := not_marked_of_find_none hP hfind
  refine ⟨hP1, IdsInv_transfer hI ?_ ?_ ?_⟩
  · intro id' hid
    show pdFind? (pdSet (pmNew s).2.pointers ev.id _) id' = _
    rw [pdFind?_pdSet_ne _ _ _ _ (fun h => hid h.symm), (pmNew_fields s).1]
  · intro id' hid
    show id' ∈ (pmNew s).2.mark_as_released ↔ _
    rw [(pmNew_fields s).2.2.2.1]
  · refine Or.inr (Or.inl ⟨⟨_, hfind2⟩, ?_, hmt⟩)
    show ev.id ∉ (pmNew s).2.mark_as_released
    rw [(pmNew_fields s).2.2.2.1]
    exact hnm0

/-- A DRAG-style reuse immediately released. -/
theorem step_reuse_release {s : PMState} {B m : ℤ} {T : List TimedTouch}
    {ev : FrameEvent} {R : List FrameEvent} {p : Pointer}
    (hP : PlanInv s B m T) (hI : IdsInv (ev :: R) s)
    (hfind : pdFind? s.pointers ev.id = none)
    (hmemu : (p.pid, p) ∈ s.unused) (htl : idActs R ev.id = []) :
    PlanInv (parkRelease
        (reuseUpd s ev.id p.pid
          { p with timestamp := s.now, pos := ev.point, occupied := 0 })
        ev.id { p with timestamp := s.now, pos := ev.point, occupied := 0 }) B m
      (T ++ [(s.now, ⟨ev.point, .MOVE, p.pid⟩)]) ∧
    IdsInv R (parkRelease
      (reuseUpd s ev.id p.pid
        { p with timestamp := s.now, pos := ev.point, occupied := 0 })
      ev.id { p with timestamp := s.now, pos := ev.point, occupied := 0 }) := by
  have hP1 : PlanInv (reuseUpd s ev.id p.pid
      { p with timestamp := s.now, pos := ev.point, occupied := 0 }) B m
      (T ++ [(s.now, ⟨ev.point, .MOVE, p.pid⟩)]) := planInv_reuse hP hfind hmemu
  have hfind2 : pdFind? (reuseUpd s ev.id p.pid
      { p with timestamp := s.now, pos := ev.point, occupied := 0 }).pointers ev.id =
      some { p with timestamp := s.now, pos := ev.point, occupied := 0 } := by
    unfold reuseUpd
    exact pdFind?_pdSet_self _ _ _
  have hnm0 : ev.id ∉ s.mark_as_released := not_marked_of_find_none hP hfind
  have hP2 := planInv_release hP1 hfind2 hnm0
  refine ⟨hP2, ?_⟩
  refine IdsInv_transfer hI ?_ ?_ ?_
  · intro id' hid
    show pdFind? (pdSet s.pointers ev.id _) id' = _
    rw [pdFind?_pdSet_ne _ _ _ _ (fun h => hid h.symm)]
  · intro id' hid
    show id' ∈ s.mark_as_released ++ [ev.id] ↔ _
    simp [hid]
  · refine Or.inr (Or.inr ⟨⟨_, hfind2⟩, ?_, htl⟩)
    show ev.id ∈ s.mark_as_released ++ [ev.id]
    simp

/-- A FLICK_START-style reuse kept live. -/
theorem step_reuse_keep {s : PMState} {B m : ℤ} {T : List TimedTouch}
    {ev : FrameEvent} {R : List FrameEvent} {p : Pointer}
    (hP : PlanInv s B m T) (hI : IdsInv (ev :: R) s)
    (hfind : pdFind? s.pointers ev.id = none)
    (hmemu : (p.pid, p) ∈ s.unused)
    (hmt : isMidTail (idActs R ev.id) = true) :
    PlanInv (reuseUpd s ev.id p.pid
        { p with timestamp := s.now, pos := ev.point, occupied := 0 }) B m
      (T ++ [(s.now, ⟨ev.point, .MOVE, p.pid⟩)]) ∧
    IdsInv R (reuseUpd s ev.id p.pid
      { p with timestamp := s.now, pos := ev.point, occupied := 0 }) := by
  have hP1 : PlanInv (reuseUpd s ev.id p.pid
      { p with timestamp := s.now, pos := ev.point, occupied := 0 }) B m
      (T ++ [(s.now, ⟨ev.point, .MOVE, p.pid⟩)]) := planInv_reuse hP hfind hmemu
  have hfind2 : pdFind? (reuseUpd s ev.id p.pid
      { p with timestamp := s.now, pos := ev.point, occupied := 0 }).pointers ev.id =
      some { p with timestamp := s.now, pos := ev.point, occupied := 0 } := by
    unfold reuseUpd
    exact pdFind?_pdSet_self _ _ _
  have hnm0 : ev.id ∉ s.mark_as_released := not_marked_of_find_none hP hfind
  refine ⟨hP1, IdsInv_transfer hI ?_ ?_ ?_⟩
  · intro id' hid
    show pdFind? (pdSet s.pointers ev.id _) id' = _
    rw [pdFind?_pdSet_ne _ _ _ _ (fun h => hid h.symm)]
  · intro id' _
    exact Iff.rfl
  · exact Or.inr (Or.inl ⟨⟨_, hfind2⟩, hnm0, hmt⟩)

/-- A FLICK/HOLD sample on a live pointer. -/
theorem step_live_keep {s : PMState} {B m : ℤ} {T : List TimedTouch}
    {ev : FrameEvent} {R : List FrameEvent} {ptr : Pointer}
    (hP : PlanInv s B m T) (hI : IdsInv (ev :: R) s)
    (hfind : pdFind? s.pointers ev.id = some ptr)
    (hnm : ev.id ∉ s.mark_as_released)
    (hmt : isMidTail (idActs R ev.id) = true) :
    PlanInv (liveUpd s ev.id { ptr with timestamp := s.now, pos := ev.point }) B m
      (T ++ [(s.now, ⟨ev.point, .MOVE, ptr.pid⟩)]) ∧
    IdsInv R (liveUpd s ev.id { ptr with timestamp := s.now, pos := ev.point }) := by
  have hP1 : PlanInv (liveUpd s ev.id
      { ptr with timestamp := s.now, pos := ev.point }) B m
      (T ++ [(s.now, ⟨ev.point, .MOVE, ptr.pid⟩)]) :=
    planInv_set_live hP hfind hnm rfl
  have hfind2 : pdFind? (liveUpd s ev.id
      { ptr with timestamp := s.now, pos := ev.point }).pointers ev.id =
      some { ptr with timestamp := s.now, pos := ev.point } := by
    unfold liveUpd
    exact pdFind?_pdSet_self _ _ _
  refine ⟨hP1, IdsInv_transfer hI ?_ ?_ ?_⟩
  · intro id' hid
    show pdFind? (pdSet s.pointers ev.id _) id' = _
    rw [pdFind?_pdSet_ne _ _ _ _ (fun h => hid h.symm)]
  · intro id' _
    exact Iff.rfl
  · exact Or.inr (Or.inl ⟨⟨_, hfind2⟩, hnm, hmt⟩)

/-- A FLICK_END/HOLD_END sample on a live pointer, then released. -/
theorem step_live_release {s : PMState} {B m : ℤ} {T : List TimedTouch}
    {ev : FrameEvent} {R : List FrameEvent} {ptr : Pointer}
    (hP : PlanInv s B m T) (hI : IdsInv (ev :: R) s)
    (hfind : pdFind? s.pointers ev.id = some ptr)
    (hnm : ev.id ∉ s.mark_as_released) (htl : idActs R ev.id = []) :
    PlanInv (parkRelease (liveUpd s ev.id
        { ptr with timestamp := s.now, pos := ev.point }) ev.id
        { ptr with timestamp := s.now, pos := ev.point }) B m
      (T ++ [(s.now, ⟨ev.point, .MOVE, ptr.pid⟩)]) ∧
    IdsInv R (parkRelease (liveUpd s ev.id
      { ptr with timestamp := s.now, pos := ev.point }) ev.id
      { ptr with timestamp := s.now, pos := ev.point }) := by
  have hP1 : PlanInv (liveUpd s ev.id
      { ptr with timestamp := s.now, pos := ev.point }) B m
      (T ++ [(s.now, ⟨ev.point, .MOVE, ptr.pid⟩)]) :=
    planInv_set_live hP hfind hnm rfl
  have hfind2 : pdFind? (liveUpd s ev.id
      { ptr with timestamp := s.now, pos := ev.point }).pointers ev.id =
      some { ptr with timestamp := s.now, pos := ev.point } := by
    unfold liveUpd
    exact pdFind?_pdSet_self _ _ _
  have hnm1 : ev.id ∉ (liveUpd s ev.id
      { ptr with timestamp := s.now, pos := ev.point }).mark_as_released := hnm
  refine ⟨planInv_release hP1 hfind2 hnm1, ?_⟩
  refine IdsInv_transfer hI ?_ ?_ ?_
  · intro id' hid
    show pdFind? (pdSet s.pointers ev.id _) id' = _
    rw [pdFind?_pdSet_ne _ _ _ _ (fun h => hid h.symm)]
  · intro id' hid
    show id' ∈ s.mark_as_released ++ [ev.id] ↔ _
    simp [hid]
  · refine Or.inr (Or.inr ⟨⟨_, hfind2⟩, ?_, htl⟩)
    show ev.id ∈ s.mark_as_released ++ [ev.id]
    simp

theorem isGesture_flick_start (tl : List FrameEventAction) :
    isGesture (.FLICK_START :: tl) = isMidTail tl := rfl

theorem isGesture_hold_start (tl : List FrameEventAction) :
    isGesture (.HOLD_START :: tl) = isMidTail tl := rfl

theorem isGesture_flick (tl : List FrameEventAction) :
    isGesture (.FLICK :: tl) = false := by
  cases tl <;> rfl

theorem isGesture_hold (tl : List FrameEventAction) :
    isGesture (.HOLD :: tl) = false := by
  cases tl <;> rfl

theorem isGesture_flick_end (tl : List FrameEventAction) :
    isGesture (.FLICK_END :: tl) = false := by
  cases tl <;> rfl

theorem isGesture_hold_end (tl : List FrameEventAction) :
    isGesture (.HOLD_END :: tl) = false := by
  cases tl <;> rfl

theorem isMidTail_middle_inv {a : FrameEventAction} {tl : List FrameEventAction}
    (hae : isEnder a = false) (h : isMidTail (a :: tl) = true) :
    isMidTail tl = true := by
  cases tl with
  | nil => rw [show isMidTail [a] = isEnder a from rfl, hae] at h; cases h
  | cons b t =>
      simp only [isMidTail, Bool.and_eq_true] at h
      exact h.2

theorem isMidTail_ender_inv {a : FrameEventAction} {tl : List FrameEventAction}
    (ha : isMiddle a = false) (h : isMidTail (a :: tl) = true) : tl = [] := by
  cases tl with
  | nil => rfl
  | cons b t =>
      simp only [isMidTail, ha, Bool.false_and] at h
      cases h

/-- One planning-loop event: the invariant is carried, exactly one touch is
emitted, and the remaining stream stays well formed. -/
theorem processEvent_inv {ext : ExtFuns} {B m : ℤ} {s : PMState}
    {T out : List TimedTouch} {kf : Bool} {ev : FrameEvent} {R : List FrameEvent}
    (hP : PlanInv s B m T) (hI : IdsInv (ev :: R) s) :
    ∃ x : TimedTouch,
      (processEvent ext (out, s, kf) ev).1 = out ++ [x] ∧
      PlanInv (processEvent ext (out, s, kf) ev).2.1 B m (T ++ [x]) ∧
      IdsInv R (processEvent ext (out, s, kf) ev).2.1 := by
  obtain ⟨a, pt, id⟩ := ev
  cases a with
  | TAP =>
      have hacts_eq : idActs (FrameEvent.mk .TAP pt id :: R) id =
          .TAP :: idActs R id := idActs_cons_self _ R
      have hcase : pdFind? s.pointers id = none ∧ idActs R id = [] := by
        rcases hI id with ⟨h1, h2⟩ | ⟨⟨ptr, h1⟩, h2, h3⟩ | ⟨⟨ptr, h1⟩, h2, h3⟩
        · refine ⟨h1, ?_⟩
          rcases h2 with h2 | h2
          · rw [hacts_eq] at h2
            cases h2
          · rw [hacts_eq] at h2
            exact isGesture_tap_tail h2
        · rw [hacts_eq, isMidTail_cons_dead (show isMiddle FrameEventAction.TAP = false from rfl) (show isEnder FrameEventAction.TAP = false from rfl)] at h3
          cases h3
        · rw [hacts_eq] at h3
          cases h3
      obtain ⟨hfind, htl⟩ := hcase
      have hstep := step_fresh_release hP hI hfind htl
      have hfind2 : pdFind? (liveUpd (pmNew s).2 id
          (Pointer.mk (pmNew s).1 pt s.now 0)).pointers id =
          some (Pointer.mk (pmNew s).1 pt s.now 0) := by
        unfold liveUpd
        exact pdFind?_pdSet_self _ _ _
      have hred : processEvent ext (out, s, kf) (FrameEvent.mk .TAP pt id) =
          (out ++ [(s.now, ⟨pt, .DOWN, (pmNew s).1⟩)],
            parkRelease (liveUpd (pmNew s).2 id (Pointer.mk (pmNew s).1 pt s.now 0))
              id (Pointer.mk (pmNew s).1 pt s.now 0), true) := by
        unfold processEvent
        dsimp only
        rw [acquire_true_eq hfind]
        dsimp only
        rw [release_eq hfind2]
      rw [hred]
      exact ⟨(s.now, ⟨pt, .DOWN, (pmNew s).1⟩), rfl, hstep.1, hstep.2⟩
  | DRAG =>
      have hacts_eq : idActs (FrameEvent.mk .DRAG pt id :: R) id =
          .DRAG :: idActs R id := idActs_cons_self _ R
      have hcase : pdFind? s.pointers id = none ∧ idActs R id = [] := by
        rcases hI id with ⟨h1, h2⟩ | ⟨⟨ptr, h1⟩, h2, h3⟩ | ⟨⟨ptr, h1⟩, h2, h3⟩
        · refine ⟨h1, ?_⟩
          rcases h2 with h2 | h2
          · rw [hacts_eq] at h2
            cases h2
          · rw [hacts_eq] at h2
            exact isGesture_drag_tail h2
        · rw [hacts_eq, isMidTail_cons_dead (show isMiddle FrameEventAction.DRAG = false from rfl) (show isEnder FrameEventAction.DRAG = false from rfl)] at h3
          cases h3
        · rw [hacts_eq] at h3
          cases h3
      obtain ⟨hfind, htl⟩ := hcase
      rcases hfold : reuseFold ext (FrameEvent.mk .DRAG pt id) s with _ | ⟨npid, sc, p⟩
      · have hstep := step_fresh_release hP hI hfind htl
        have hfind2 : pdFind? (liveUpd (pmNew s).2 id
            (Pointer.mk (pmNew s).1 pt s.now 0)).pointers id =
            some (Pointer.mk (pmNew s).1 pt s.now 0) := by
          unfold liveUpd
          exact pdFind?_pdSet_self _ _ _
        have hred : processEvent ext (out, s, kf) (FrameEvent.mk .DRAG pt id) =
            (out ++ [(s.now, ⟨pt, .DOWN, (pmNew s).1⟩)],
              parkRelease (liveUpd (pmNew s).2 id
                (Pointer.mk (pmNew s).1 pt s.now 0))
                id (Pointer.mk (pmNew s).1 pt s.now 0), kf) := by
          unfold processEvent
          dsimp only
          rw [acquire_false_none_eq hfind hfold]
          dsimp only
          rw [if_pos (show (true = true) from rfl)]
          rw [release_eq hfind2]
        rw [hred]
        exact ⟨(s.now, ⟨pt, .DOWN, (pmNew s).1⟩), rfl, hstep.1, hstep.2⟩
      · obtain ⟨hmemu, hnpid⟩ := reuseFold_mem hP.unused_pid_eq hfold
        subst hnpid
        have hstep := step_reuse_release hP hI hfind hmemu htl
        have hfind2 : pdFind? (reuseUpd s id p.pid
            { p with timestamp := s.now, pos := pt, occupied := 0 }).pointers id =
            some { p with timestamp := s.now, pos := pt, occupied := 0 } := by
          unfold reuseUpd
          exact pdFind?_pdSet_self _ _ _
        have hred : processEvent ext (out, s, kf) (FrameEvent.mk .DRAG pt id) =
            (out ++ [(s.now, ⟨pt, .MOVE, p.pid⟩)],
              parkRelease (reuseUpd s id p.pid
                { p with timestamp := s.now, pos := pt, occupied := 0 }) id
                { p with timestamp := s.now, pos := pt, occupied := 0 }, kf) := by
          unfold processEvent
          dsimp only
          rw [acquire_false_some_eq hfind hfold]
          dsimp only
          rw [if_neg (show ¬(false = true) by simp)]
          rw [release_eq hfind2]
        rw [hred]
        exact ⟨(s.now, ⟨pt, .MOVE, p.pid⟩), rfl, hstep.1, hstep.2⟩
  | FLICK_START =>
      have hacts_eq : idActs (FrameEvent.mk .FLICK_START pt id :: R) id =
          .FLICK_START :: idActs R id := idActs_cons_self _ R
      have hcase : pdFind? s.pointers id = none ∧
          isMidTail (idActs R id) = true := by
        rcases hI id with ⟨h1, h2⟩ | ⟨⟨ptr, h1⟩, h2, h3⟩ | ⟨⟨ptr, h1⟩, h2, h3⟩
        · refine ⟨h1, ?_⟩
          rcases h2 with h2 | h2
          · rw [hacts_eq] at h2
            cases h2
          · rw [hacts_eq, isGesture_flick_start] at h2
            exact h2
        · rw [hacts_eq, isMidTail_cons_dead (show isMiddle FrameEventAction.FLICK_START = false from rfl) (show isEnder FrameEventAction.FLICK_START = false from rfl)] at h3
          cases h3
        · rw [hacts_eq] at h3
          cases h3
      obtain ⟨hfind, hmt⟩ := hcase
      rcases hfold : reuseFold ext (FrameEvent.mk .FLICK_START pt id) s with
        _ | ⟨npid, sc, p⟩
      · have hstep := step_fresh_keep hP hI hfind hmt
        have hred : processEvent ext (out, s, kf) (FrameEvent.mk .FLICK_START pt id) =
            (out ++ [(s.now, ⟨pt, .DOWN, (pmNew s).1⟩)],
              liveUpd (pmNew s).2 id (Pointer.mk (pmNew s).1 pt s.now 0), kf) := by
          unfold processEvent
          dsimp only
          rw [acquire_false_none_eq hfind hfold]
          dsimp only
          rw [if_pos (show (true = true) from rfl)]
        rw [hred]
        exact ⟨(s.now, ⟨pt, .DOWN, (pmNew s).1⟩), rfl, hstep.1, hstep.2⟩
      · obtain ⟨hmemu, hnpid⟩ := reuseFold_mem hP.unused_pid_eq hfold
        subst hnpid
        have hstep := step_reuse_keep hP hI hfind hmemu hmt
        have hred : processEvent ext (out, s, kf) (FrameEvent.mk .FLICK_START pt id) =
            (out ++ [(s.now, ⟨pt, .MOVE, p.pid⟩)],
              reuseUpd s id p.pid
                { p with timestamp := s.now, pos := pt, occupied := 0 }, kf) := by
          unfold processEvent
          dsimp only
          rw [acquire_false_some_eq hfind hfold]
          dsimp only
          rw [if_neg (show ¬(false = true) by simp)]
        rw [hred]
        exact ⟨(s.now, ⟨pt, .MOVE, p.pid⟩), rfl, hstep.1, hstep.2⟩
  | FLICK =>
      have hacts_eq : idActs (FrameEvent.mk .FLICK pt id :: R) id =
          .FLICK :: idActs R id := idActs_cons_self _ R
      have hcase : ∃ ptr, pdFind? s.pointers id = some ptr ∧
          id ∉ s.mark_as_released ∧ isMidTail (idActs R id) = true := by
        rcases hI id with ⟨h1, h2⟩ | ⟨⟨ptr, h1⟩, h2, h3⟩ | ⟨⟨ptr, h1⟩, h2, h3⟩
        · rcases h2 with h2 | h2
          · rw [hacts_eq] at h2
            cases h2
          · rw [hacts_eq, isGesture_flick] at h2
            cases h2
        · rw [hacts_eq] at h3
          exact ⟨ptr, h1, h2, isMidTail_middle_inv (show isEnder FrameEventAction.FLICK = false from rfl) h3⟩
        · rw [hacts_eq] at h3
          cases h3
      obtain ⟨ptr, hfind, hnm, hmt⟩ := hcase
      have hstep := step_live_keep hP hI hfind hnm hmt
      have hred : processEvent ext (out, s, kf) (FrameEvent.mk .FLICK pt id) =
          (out ++ [(s.now, ⟨pt, .MOVE, ptr.pid⟩)],
            liveUpd s id { ptr with timestamp := s.now, pos := pt }, kf) := by
        unfold processEvent
        dsimp only
        rw [acquire_live_eq hfind]
      rw [hred]
      exact ⟨(s.now, ⟨pt, .MOVE, ptr.pid⟩), rfl, hstep.1, hstep.2⟩
  | FLICK_END =>
      have hacts_eq : idActs (FrameEvent.mk .FLICK_END pt id :: R) id =
          .FLICK_END :: idActs R id := idActs_cons_self _ R
      have hcase : ∃ ptr, pdFind? s.pointers id = some ptr ∧
          id ∉ s.mark_as_released ∧ idActs R id = [] := by
        rcases hI id with ⟨h1, h2⟩ | ⟨⟨ptr, h1⟩, h2, h3⟩ | ⟨⟨ptr, h1⟩, h2, h3⟩
        · rcases h2 with h2 | h2
          · rw [hacts_eq] at h2
            cases h2
          · rw [hacts_eq, isGesture_flick_end] at h2
            cases h2
        · rw [hacts_eq] at h3
          exact ⟨ptr, h1, h2, isMidTail_ender_inv (show isMiddle FrameEventAction.FLICK_END = false from rfl) h3⟩
        · rw [hacts_eq] at h3
          cases h3
      obtain ⟨ptr, hfind, hnm, htl⟩ := hcase
      have hstep := step_live_release hP hI hfind hnm htl
      have hfind2 : pdFind? (liveUpd s id
          { ptr with timestamp := s.now, pos := pt }).pointers id =
          some { ptr with timestamp := s.now, pos := pt } := by
        unfold liveUpd
        exact pdFind?_pdSet_self _ _ _
      have hred : processEvent ext (out, s, kf) (FrameEvent.mk .FLICK_END pt id) =
          (out ++ [(s.now, ⟨pt, .MOVE, ptr.pid⟩)],
            parkRelease (liveUpd s id { ptr with timestamp := s.now, pos := pt })
              id { ptr with timestamp := s.now, pos := pt }, kf) := by
        unfold processEvent
        dsimp only
        rw [acquire_live_eq hfind]
        dsimp only
        rw [release_eq hfind2]
      rw [hred]
      exact ⟨(s.now, ⟨pt, .MOVE, ptr.pid⟩), rfl, hstep.1, hstep.2⟩
  | HOLD_START =>
      have hacts_eq : idActs (FrameEvent.mk .HOLD_START pt id :: R) id =
          .HOLD_START :: idActs R id := idActs_cons_self _ R
      have hcase : pdFind? s.pointers id = none ∧
          isMidTail (idActs R id) = true := by
        rcases hI id with ⟨h1, h2⟩ | ⟨⟨ptr, h1⟩, h2, h3⟩ | ⟨⟨ptr, h1⟩, h2, h3⟩
        · refine ⟨h1, ?_⟩
          rcases h2 with h2 | h2
          · rw [hacts_eq] at h2
            cases h2
          · rw [hacts_eq, isGesture_hold_start] at h2
            exact h2
        · rw [hacts_eq, isMidTail_cons_dead (show isMiddle FrameEventAction.HOLD_START = false from rfl) (show isEnder FrameEventAction.HOLD_START = false from rfl)] at h3
          cases h3
        · rw [hacts_eq] at h3
          cases h3
      obtain ⟨hfind, hmt⟩ := hcase
      have hstep := step_fresh_keep hP hI hfind hmt
      have hred : processEvent ext (out, s, kf) (FrameEvent.mk .HOLD_START pt id) =
          (out ++ [(s.now, ⟨pt, .DOWN, (pmNew s).1⟩)],
            liveUpd (pmNew s).2 id (Pointer.mk (pmNew s).1 pt s.now 0), true) := by
        unfold processEvent
        dsimp only
        rw [acquire_true_eq hfind]
      rw [hred]
      exact ⟨(s.now, ⟨pt, .DOWN, (pmNew s).1⟩), rfl, hstep.1, hstep.2⟩
  | HOLD =>
      have hacts_eq : idActs (FrameEvent.mk .HOLD pt id :: R) id =
          .HOLD :: idActs R id := idActs_cons_self _ R
      have hcase : ∃ ptr, pdFind? s.pointers id = some ptr ∧
          id ∉ s.mark_as_released ∧ isMidTail (idActs R id) = true := by
        rcases hI id with ⟨h1, h2⟩ | ⟨⟨ptr, h1⟩, h2, h3⟩ | ⟨⟨ptr, h1⟩, h2, h3⟩
        · rcases h2 with h2 | h2
          · rw [hacts_eq] at h2
            cases h2
          · rw [hacts_eq, isGesture_hold] at h2
            cases h2
        · rw [hacts_eq] at h3
          exact ⟨ptr, h1, h2, isMidTail_middle_inv (show isEnder FrameEventAction.HOLD = false from rfl) h3⟩
        · rw [hacts_eq] at h3
          cases h3
      obtain ⟨ptr, hfind, hnm, hmt⟩ := hcase
      have hstep := step_live_keep hP hI hfind hnm hmt
      have hred : processEvent ext (out, s, kf) (FrameEvent.mk .HOLD pt id) =
          (out ++ [(s.now, ⟨pt, .MOVE, ptr.pid⟩)],
            liveUpd s id { ptr with timestamp := s.now, pos := pt }, kf) := by
        unfold processEvent
        dsimp only
        rw [acquire_live_eq hfind]
      rw [hred]
      exact ⟨(s.now, ⟨pt, .MOVE, ptr.pid⟩), rfl, hstep.1, hstep.2⟩
  | HOLD_END =>
      have hacts_eq : idActs (FrameEvent.mk .HOLD_END pt id :: R) id =
          .HOLD_END :: idActs R id := idActs_cons_self _ R
      have hcase : ∃ ptr, pdFind? s.pointers id = some ptr ∧
          id ∉ s.mark_as_released ∧ idActs R id = [] := by
        rcases hI id with ⟨h1, h2⟩ | ⟨⟨ptr, h1⟩, h2, h3⟩ | ⟨⟨ptr, h1⟩, h2, h3⟩
        · rcases h2 with h2 | h2
          · rw [hacts_eq] at h2
            cases h2
          · rw [hacts_eq, isGesture_hold_end] at h2
            cases h2
        · rw [hacts_eq] at h3
          exact ⟨ptr, h1, h2, isMidTail_ender_inv (show isMiddle FrameEventAction.HOLD_END = false from rfl) h3⟩
        · rw [hacts_eq] at h3
          cases h3
      obtain ⟨ptr, hfind, hnm, htl⟩ := hcase
      have hstep := step_live_release hP hI hfind hnm htl
      have hfind2 : pdFind? (liveUpd s id
          { ptr with timestamp := s.now, pos := pt }).pointers id =
          some { ptr with timestamp := s.now, pos := pt } := by
        unfold liveUpd
        exact pdFind?_pdSet_self _ _ _
      have hred : processEvent ext (out, s, kf) (FrameEvent.mk .HOLD_END pt id) =
          (out ++ [(s.now, ⟨pt, .MOVE, ptr.pid⟩)],
            parkRelease (liveUpd s id { ptr with timestamp := s.now, pos := pt })
              id { ptr with timestamp := s.now, pos := pt }, kf) := by
        unfold processEvent
        dsimp only
        rw [acquire_live_eq hfind]
        dsimp only
        rw [release_eq hfind2]
      rw [hred]
      exact ⟨(s.now, ⟨pt, .MOVE, ptr.pid⟩), rfl, hstep.1, hstep.2⟩

/-- The whole event loop of one frame preserves the invariant, appending
one touch per event. -/
theorem foldl_processEvent_inv {ext : ExtFuns} {B m : ℤ} :
    ∀ (evs R : List FrameEvent) (out : List TimedTouch) (s : PMState) (kf : Bool)
      (T : List TimedTouch),
      PlanInv s B m T → IdsInv (evs ++ R) s →
      ∃ G : List TimedTouch,
        (evs.foldl (processEvent ext) (out, s, kf)).1 = out ++ G ∧
        PlanInv (evs.foldl (processEvent ext) (out, s, kf)).2.1 B m (T ++ G) ∧
        IdsInv R (evs.foldl (processEvent ext) (out, s, kf)).2.1 := by
  intro evs
  induction evs with
  | nil =>
      intro R out s kf T hP hI
      exact ⟨[], by simp, by simpa using hP, by simpa using hI⟩
  | cons ev rest ih =>
      intro R out s kf T hP hI
      rw [List.cons_append] at hI
      obtain ⟨x, hx1, hx2, hx3⟩ := processEvent_inv hP hI
      rcases hPE : processEvent ext (out, s, kf) ev with ⟨out1, s1, kf1⟩
      rw [hPE] at hx1 hx2 hx3
      dsimp only at hx1 hx2 hx3
      obtain ⟨G, hG1, hG2, hG3⟩ := ih R out1 s1 kf1 (T ++ [x]) hx2 hx3
      refine ⟨x :: G, ?_, ?_, ?_⟩
      · simp only [List.foldl_cons, hPE]
        rw [hG1, hx1]
        simp
      · simp only [List.foldl_cons, hPE]
        rw [show T ++ x :: G = (T ++ [x]) ++ G by simp]
        exact hG2
      · simp only [List.foldl_cons, hPE]
        exact hG3

/-- Per-pid selection from a batch of recycle/finish UP events: with
distinct keys equal to the pids, a pid picks out at most its own UP. -/
theorem pidTouches_ups (d : PyDict ℕ Pointer) (hnd : (d.map (·.1)).Nodup)
    (hpe : ∀ e ∈ d, e.2.pid = e.1) (r : ℕ) :
    pidTouches (d.map (fun e =>
      ((e.2.timestamp + 1 : ℤ), VirtualTouchEvent.mk e.2.pos .UP e.2.pid))) r =
      match pdFind? d r with
      | some v => [((v.timestamp + 1 : ℤ), VirtualTouchEvent.mk v.pos .UP v.pid)]
      | none => [] := by
  induction d with
  | nil => rfl
  | cons a t ih =>
      simp only [List.map_cons, List.nodup_cons] at hnd
      have hpa : a.2.pid = a.1 := hpe a (List.mem_cons_self a t)
      have hpe' : ∀ e ∈ t, e.2.pid = e.1 := fun e he => hpe e (List.mem_cons_of_mem a he)
      by_cases har : a.1 = r
      · rw [List.map_cons, show pidTouches (((a.2.timestamp + 1 : ℤ),
            VirtualTouchEvent.mk a.2.pos .UP a.2.pid) ::
            t.map (fun e => ((e.2.timestamp + 1 : ℤ),
              VirtualTouchEvent.mk e.2.pos .UP e.2.pid))) r =
            pidTouches [((a.2.timestamp + 1 : ℤ),
              VirtualTouchEvent.mk a.2.pos .UP a.2.pid)] r ++
            pidTouches (t.map (fun e => ((e.2.timestamp + 1 : ℤ),
              VirtualTouchEvent.mk e.2.pos .UP e.2.pid))) r from
            pidTouches_append [_] _ r]
        rw [pidTouches_single_eq _ _ (by simpa using hpa.trans har), ih hnd.2 hpe']
        have hnone : pdFind? t r = none := by
          rw [pdFind?_eq_none_iff]
          intro hmem
          exact hnd.1 (har ▸ hmem)
        rw [hnone, pdFind?, if_pos har]
        simp
      · rw [List.map_cons, show pidTouches (((a.2.timestamp + 1 : ℤ),
            VirtualTouchEvent.mk a.2.pos .UP a.2.pid) ::
            t.map (fun e => ((e.2.timestamp + 1 : ℤ),
              VirtualTouchEvent.mk e.2.pos .UP e.2.pid))) r =
            pidTouches [((a.2.timestamp + 1 : ℤ),
              VirtualTouchEvent.mk a.2.pos .UP a.2.pid)] r ++
            pidTouches (t.map (fun e => ((e.2.timestamp + 1 : ℤ),
              VirtualTouchEvent.mk e.2.pos .UP e.2.pid))) r from
            pidTouches_append [_] _ r]
        rw [pidTouches_single_ne _ _ (fun h => har (hpa.symm.trans h)),
          ih hnd.2 hpe', pdFind?, if_neg har]
        simp

/-- Field-level characterisation of `recycle(is_keyframe=False)`. -/
theorem recycle_false_fields (s : PMState) :
    (recycle false s).1 = [] ∧
    (recycle false s).2.1.pointers = s.mark_as_released.foldl pdErase s.pointers ∧
    (recycle false s).2.1.unused = pdMerge s.unused s.unused_now ∧
    (recycle false s).2.1.unused_now = [] ∧
    (recycle false s).2.1.mark_as_released = [] ∧
    (recycle false s).2.1.now = s.now ∧
    (recycle false s).2.1.begin_ = s.begin_ ∧
    (recycle false s).2.1.delta = s.delta ∧
    (recycle false s).2.1.max_pointer_id = s.max_pointer_id ∧
    (recycle false s).2.1.recycled = s.recycled := by
  unfold recycle
  simp only [if_neg Bool.false_ne_true]
  split <;> exact ⟨rfl, rfl, rfl, rfl, rfl, rfl, rfl, rfl, rfl, rfl⟩

theorem foldl_ite_pmDel_begin_delta (l : List (ℕ × Pointer)) (t : PMState)
    (c : ℕ × Pointer → Prop) [DecidablePred c] :
    (l.foldl (fun t e => if c e then pmDel t e.2.pid else t) t).begin_ = t.begin_ ∧
    (l.foldl (fun t e => if c e then pmDel t e.2.pid else t) t).delta = t.delta := by
  induction l generalizing t with
  | nil => exact ⟨rfl, rfl⟩
  | cons a r ih =>
      simp only [List.foldl_cons]
      by_cases h : c a
      · rw [if_pos h]
        have h1 := ih (pmDel t a.2.pid)
        have h2 := pmDel_proj t a.2.pid
        exact ⟨h1.1.trans h2.2.1, h1.2.trans h2.2.2⟩
      · rw [if_neg h]
        exact ih t

/-- The marked-removal pass after the aging loop keeps exactly the
survivors (incremented) — extracted from the C3 computation. -/
theorem erase_marked_eq (s : PMState) (hk : (s.unused.map (·.1)).Nodup)
    (hpe : ∀ e ∈ s.unused, e.2.pid = e.1) :
    ((s.unused.filter (fun e => decide (e.2.occupied + 1 > 1))).map
        (fun e => e.2.pid)).foldl pdErase
      (s.unused.map (fun e => (e.1, incPtr e.2))) =
    (s.unused.filter (fun e => decide (¬ e.2.occupied + 1 > 1))).map
      (fun e => (e.1, incPtr e.2)) := by
  rw [foldl_pdErase_eq_filter _ _ (by simpa using hk), List.filter_map]
  congr 1
  apply List.filter_congr
  intro e he
  simp only [Function.comp, decide_eq_decide, incPtr]
  constructor
  · intro hnot hcond
    apply hnot
    simp only [List.mem_map, List.mem_filter]
    exact ⟨e, ⟨he, by simpa using hcond⟩, hpe e he⟩
  · intro hncond hmem
    simp only [List.mem_map, List.mem_filter] at hmem
    obtain ⟨e', ⟨he', hc'⟩, hpe'⟩ := hmem
    have : e' = e := nodupKeys_eq_of_key_eq hk he' he ((hpe e' he').symm.trans hpe')
    subst this
    exact hncond (by simpa using hc')

/-- Field-level characterisation of `recycle(is_keyframe=True)`. -/
theorem recycle_true_fields (s : PMState) (hk : (s.unused.map (·.1)).Nodup)
    (hpe : ∀ e ∈ s.unused, e.2.pid = e.1) :
    (recycle true s).1 =
      (s.unused.filter (fun e => decide (e.2.occupied + 1 > 1))).map
        (fun e => (e.2.pid, e.2.timestamp + 1, e.2.pos)) ∧
    (recycle true s).2.1.pointers = s.mark_as_released.foldl pdErase s.pointers ∧
    (recycle true s).2.1.unused =
      pdMerge ((s.unused.filter (fun e => decide (¬ e.2.occupied + 1 > 1))).map
        (fun e => (e.1, incPtr e.2))) s.unused_now ∧
    (recycle true s).2.1.unused_now = [] ∧
    (recycle true s).2.1.mark_as_released = [] ∧
    (recycle true s).2.1.now = s.now ∧
    (recycle true s).2.1.begin_ = s.begin_ ∧
    (recycle true s).2.1.delta = s.delta ∧
    ((recycle true s).2.1.max_pointer_id, (recycle true s).2.1.recycled) =
      (s.unused.filter (fun e => decide (e.2.occupied + 1 > 1))).foldl
        (fun a e => allocDel s.begin_ s.delta a e.2.pid)
        (s.max_pointer_id, s.recycled) := by
  have hmarked := erase_marked_eq s hk hpe
  have hfield := foldl_ite_pmDel_fields s.unused
    ({ s with pointers := s.mark_as_released.foldl pdErase s.pointers,
              mark_as_released := [] })
    (fun e => 0 < e.2.occupied)
  have hbd := foldl_ite_pmDel_begin_delta s.unused
    ({ s with pointers := s.mark_as_released.foldl pdErase s.pointers,
              mark_as_released := [] })
    (fun e => 0 < e.2.occupied)
  have hfd := foldl_ite_filter s.unused (fun e => e.2.occupied + 1 > 1)
    (fun t e => pmDel t e.2.pid)
    ({ s with pointers := s.mark_as_released.foldl pdErase s.pointers,
              mark_as_released := [] })
  have hproj := foldl_pmDel_proj
    (s.unused.filter (fun e => decide (0 < e.2.occupied)))
    ({ s with pointers := s.mark_as_released.foldl pdErase s.pointers,
              mark_as_released := [] })
  refine ⟨?_, ?_, ?_, ?_, ?_, ?_, ?_, ?_, ?_⟩ <;>
    (unfold recycle
     simp only [if_true, foldl_recycleStep, List.nil_append]
     split <;> simp_all [hmarked, hfd])

/-- Stream well-formedness survives `recycle`: marked ids disappear from
`pointers` and the mark list is cleared. -/
theorem IdsInv_recycle {R : List FrameEvent} {s : PMState} (hI : IdsInv R s)
    {s3 : PMState}
    (hp3 : s3.pointers =
      s.pointers.filter (fun e => decide (e.1 ∉ s.mark_as_released)))
    (hm3 : s3.mark_as_released = []) : IdsInv R s3 := by
  intro id
  have hfind3 : pdFind? s3.pointers id =
      if decide (id ∉ s.mark_as_released) = true then pdFind? s.pointers id
      else none := by
    rw [hp3]
    exact pdFind?_filter_key s.pointers (fun k => decide (k ∉ s.mark_as_released)) id
  rcases hI id with ⟨h1, h2⟩ | ⟨h1, h2, h3⟩ | ⟨h1, h2, h3⟩
  · left
    refine ⟨?_, h2⟩
    rw [hfind3]
    split
    · exact h1
    · rfl
  · right
    left
    refine ⟨?_, by simp [hm3], h3⟩
    rw [hfind3, if_pos (by simpa using h2)]
    exact h1
  · left
    refine ⟨?_, Or.inl h3⟩
    rw [hfind3, if_neg (by simpa using h2)]

/-- `recycle(False)` at a frame end: the invariant is re-established at the
boundary `B = m`, with no UP events. -/
theorem recycle_inv_false {B m : ℤ} {s : PMState} {T : List TimedTouch}
    {R : List FrameEvent} (hBm : B < m)
    (hP : PlanInv s B m T) (hI : IdsInv R s) :
    PlanInv (recycle false s).2.1 m m (T ++ ((recycle false s).1.map upTouch)) ∧
    IdsInv R (recycle false s).2.1 := by
  obtain ⟨hups, hptr, hunused, hunow, hmark, hnow3, hbeg, hdel, hmax, hrec⟩ :=
    recycle_false_fields s
  have hptrf : (recycle false s).2.1.pointers =
      s.pointers.filter (fun e => decide (e.1 ∉ s.mark_as_released)) := by
    rw [hptr, foldl_pdErase_eq_filter _ _ hP.ptr_keys_nodup]
  have hdisjC := (List.nodup_append.1 hP.live_nodup).2.2
  have hdisjAU := (List.nodup_append.1 (List.nodup_append.1 hP.live_nodup).1).2.2
  have hmerge : pdMerge s.unused s.unused_now = s.unused ++ s.unused_now := by
    refine pdMerge_disjoint _ _ hP.unow_keys_nodup ?_
    intro k hk hmem
    exact hdisjC (List.mem_append.2 (Or.inr hmem)) hk
  have hunused' : (recycle false s).2.1.unused = s.unused ++ s.unused_now := by
    rw [hunused, hmerge]
  have hlive3 : livePidsMid (recycle false s).2.1 = livePidsMid s := by
    unfold livePidsMid
    rw [hptrf, hunused', hunow, hmark]
    simp [List.append_assoc]
  rw [hups]
  simp only [List.map_nil, List.append_nil]
  refine ⟨⟨?_, ?_, ?_, ?_, ?_, ?_, ?_, ?_, ?_, ?_, ?_, ?_, ?_, ?_, ?_, ?_, ?_,
    ?_, ?_, ?_, ?_, ?_, ?_, ?_, ?_, ?_, ?_⟩, IdsInv_recycle hI hptrf hmark⟩
  · -- ptr_keys_nodup
    rw [hptrf]
    exact hP.ptr_keys_nodup.sublist (filter_key_keys _ _)
  · -- unused_keys_nodup
    rw [hunused', List.map_append, List.nodup_append]
    refine ⟨hP.unused_keys_nodup, hP.unow_keys_nodup, ?_⟩
    intro a ha hb
    exact hdisjC (List.mem_append.2 (Or.inr ha)) hb
  · -- unow_keys_nodup
    rw [hunow]
    exact List.nodup_nil
  · -- unused_pid_eq
    intro e he
    rw [hunused'] at he
    rcases List.mem_append.1 he with he | he
    · exact hP.unused_pid_eq e he
    · exact hP.unow_pid_eq e he
  · -- unow_pid_eq
    intro e he
    rw [hunow] at he
    cases he
  · -- mark_nodup
    rw [hmark]
    exact List.nodup_nil
  · -- mark_sub
    intro id hid
    rw [hmark] at hid
    cases hid
  · -- live_nodup
    rw [hlive3]
    exact hP.live_nodup
  · -- rec_nodup
    rw [hrec]
    exact hP.rec_nodup
  · -- rec_range
    intro p hp
    rw [hrec] at hp
    rw [hbeg, hmax]
    exact hP.rec_range p hp
  · -- live_range
    intro p hp
    rw [hlive3] at hp
    rw [hbeg, hmax]
    exact hP.live_range p hp
  · -- rec_live_disj
    intro p hp hmem
    rw [hrec] at hp
    rw [hlive3] at hmem
    exact hP.rec_live_disj p hp hmem
  · -- delta_eq
    rw [hdel]
    exact hP.delta_eq
  · -- begin_le_max
    rw [hbeg, hmax]
    exact hP.begin_le_max
  · -- now_eq
    rw [hnow3]
    exact hP.now_eq
  · -- ts_ptr
    intro e he
    rw [hptrf] at he
    exact hP.ts_ptr e (List.mem_of_mem_filter he)
  · -- ts_unused
    intro e he
    rw [hunused'] at he
    rcases List.mem_append.1 he with he | he
    · exact le_trans (hP.ts_unused e he) (le_of_lt hBm)
    · exact hP.ts_unow e he
  · -- ts_unow
    intro e he
    rw [hunow] at he
    cases he
  · -- occ_aged
    intro e he h1le
    rw [hunused'] at he
    rcases List.mem_append.1 he with he | he
    · exact le_trans (hP.occ_aged e he h1le) (le_of_lt hBm)
    · have h0 := hP.occ_unow e he
      rw [h0] at h1le
      omega
  · -- occ_ptr
    intro e he
    rw [hptrf] at he
    exact hP.occ_ptr e (List.mem_of_mem_filter he)
  · -- occ_unow
    intro e he
    rw [hunow] at he
    cases he
  · -- f_times
    exact hP.f_times
  · -- f_sorted
    exact hP.f_sorted
  · -- open_ptr
    intro e he _
    rw [hptrf] at he
    have hf := List.mem_filter.1 he
    exact hP.open_ptr e hf.1 (by simpa using hf.2)
  · -- open_unused
    intro e he
    rw [hunused'] at he
    rcases List.mem_append.1 he with he | he
    · exact hP.open_unused e he
    · exact hP.open_unow e he
  · -- open_unow
    intro e he
    rw [hunow] at he
    cases he
  · -- f_closed
    intro r hr
    rw [hlive3] at hr
    exact hP.f_closed r hr

/-- `recycle(True)` at a keyframe end: aged pointers are UP'd at
`timestamp + 1`, survivors and the frame's releases become the new
`unused`, the freed pids re-enter the allocator, and the invariant is
re-established at the boundary `B = m`. -/
theorem recycle_inv_true {B m : ℤ} {s : PMState} {T : List TimedTouch}
    {R : List FrameEvent} (hBm : B < m)
    (hP : PlanInv s B m T) (hI : IdsInv R s) :
    PlanInv (recycle true s).2.1 m m (T ++ ((recycle true s).1.map upTouch)) ∧
    IdsInv R (recycle true s).2.1 := by
  obtain ⟨hups, hptr, hunused, hunow, hmark, hnow3, hbeg, hdel, halloc⟩ :=
    recycle_true_fields s hP.unused_keys_nodup hP.unused_pid_eq
  have hptrf : (recycle true s).2.1.pointers =
      s.pointers.filter (fun e => decide (e.1 ∉ s.mark_as_released)) := by
    rw [hptr, foldl_pdErase_eq_filter _ _ hP.ptr_keys_nodup]
  have hdisjC := (List.nodup_append.1 hP.live_nodup).2.2
  have hdisjAU := (List.nodup_append.1 (List.nodup_append.1 hP.live_nodup).1).2.2
  have hsurvkeys : (((s.unused.filter (fun e => decide (¬ e.2.occupied + 1 > 1))).map
      (fun e => (e.1, incPtr e.2))).map (·.1)) =
      (s.unused.filter (fun e => decide (¬ e.2.occupied + 1 > 1))).map (·.1) := by
    rw [List.map_map]
    rfl
  have hremnd : (((s.unused.filter (fun e => decide (e.2.occupied + 1 > 1))).map
      (·.1))).Nodup := hP.unused_keys_nodup.sublist (filter_key_keys _ _)
  have hsurvnd : (((s.unused.filter (fun e => decide (¬ e.2.occupied + 1 > 1))).map
      (·.1))).Nodup := hP.unused_keys_nodup.sublist (filter_key_keys _ _)
  have hrempe : ∀ e ∈ s.unused.filter (fun e => decide (e.2.occupied + 1 > 1)),
      e.2.pid = e.1 :=
    fun e he => hP.unused_pid_eq e (List.mem_of_mem_filter he)
  have hremocc : ∀ e ∈ s.unused.filter (fun e => decide (e.2.occupied + 1 > 1)),
      1 ≤ e.2.occupied := by
    intro e he
    have := (List.mem_filter.1 he).2
    simp only [decide_eq_true_eq] at this
    omega
  have hsurvocc : ∀ e ∈ s.unused.filter (fun e => decide (¬ e.2.occupied + 1 > 1)),
      e.2.occupied = 0 := by
    intro e he
    have := (List.mem_filter.1 he).2
    simp only [decide_eq_true_eq] at this
    omega
  have hUK_live : ∀ k ∈ s.unused.map (·.1), k ∈ livePidsMid s := by
    intro k hk
    unfold livePidsMid
    exact List.mem_append.2 (Or.inl (List.mem_append.2 (Or.inr hk)))
  have hmerge : pdMerge ((s.unused.filter (fun e =>
      decide (¬ e.2.occupied + 1 > 1))).map (fun e => (e.1, incPtr e.2)))
      s.unused_now =
      (s.unused.filter (fun e => decide (¬ e.2.occupied + 1 > 1))).map
        (fun e => (e.1, incPtr e.2)) ++ s.unused_now := by
    refine pdMerge_disjoint _ _ hP.unow_keys_nodup ?_
    intro k hk hmem
    rw [hsurvkeys] at hmem
    exact hdisjC (List.mem_append.2 (Or.inr ((filter_key_keys _ _).subset hmem))) hk
  have hunused' : (recycle true s).2.1.unused =
      (s.unused.filter (fun e => decide (¬ e.2.occupied + 1 > 1))).map
        (fun e => (e.1, incPtr e.2)) ++ s.unused_now := by
    rw [hunused, hmerge]
  have hupsT : (recycle true s).1.map upTouch =
      (s.unused.filter (fun e => decide (e.2.occupied + 1 > 1))).map
        (fun e => ((e.2.timestamp + 1 : ℤ),
          VirtualTouchEvent.mk e.2.pos .UP e.2.pid)) := by
    rw [hups, List.map_map]
    rfl
  have hA_not_rem : ∀ e ∈ s.pointers, e.1 ∉ s.mark_as_released →
      pdFind? (s.unused.filter (fun e => decide (e.2.occupied + 1 > 1)))
        e.2.pid = none := by
    intro e he hem
    rw [pdFind?_eq_none_iff]
    intro hmem
    exact hdisjAU
      (List.mem_map_of_mem _ (List.mem_filter.2 ⟨he, by simpa using hem⟩))
      ((filter_key_keys _ _).subset hmem)
  have hsurv_not_rem : ∀ k ∈ (s.unused.filter (fun e =>
      decide (¬ e.2.occupied + 1 > 1))).map (·.1),
      pdFind? (s.unused.filter (fun e => decide (e.2.occupied + 1 > 1))) k =
        none := by
    intro k hk
    rw [pdFind?_eq_none_iff]
    intro hmem
    obtain ⟨e, he, hek⟩ := List.mem_map.1 hk
    obtain ⟨e', he', hek'⟩ := List.mem_map.1 hmem
    have heq : e = e' := nodupKeys_eq_of_key_eq hP.unused_keys_nodup
      (List.mem_of_mem_filter he) (List.mem_of_mem_filter he')
      (hek.trans hek'.symm)
    subst heq
    have h1 := (List.mem_filter.1 he).2
    have h2 := (List.mem_filter.1 he').2
    simp only [decide_eq_true_eq] at h1 h2
    exact h1 h2
  have hW_not_rem : ∀ k ∈ s.unused_now.map (·.1),
      pdFind? (s.unused.filter (fun e => decide (e.2.occupied + 1 > 1))) k =
        none := by
    intro k hk
    rw [pdFind?_eq_none_iff]
    intro hmem
    exact hdisjC (List.mem_append.2 (Or.inr ((filter_key_keys _ _).subset hmem))) hk
  have htr : ∀ r : ℕ, pidTouches (T ++ (recycle true s).1.map upTouch) r =
      pidTouches T r ++
        (match pdFind? (s.unused.filter (fun e =>
            decide (e.2.occupied + 1 > 1))) r with
          | some v => [((v.timestamp + 1 : ℤ), VirtualTouchEvent.mk v.pos .UP v.pid)]
          | none => []) := by
    intro r
    rw [pidTouches_append, hupsT, pidTouches_ups _ hremnd hrempe r]
  have htr_none : ∀ r : ℕ,
      pdFind? (s.unused.filter (fun e => decide (e.2.occupied + 1 > 1))) r = none →
      pidTouches (T ++ (recycle true s).1.map upTouch) r = pidTouches T r := by
    intro r h
    rw [htr r, h]
    simp
  have htr_some : ∀ (r : ℕ) (v : Pointer),
      pdFind? (s.unused.filter (fun e => decide (e.2.occupied + 1 > 1))) r = some v →
      pidTouches (T ++ (recycle true s).1.map upTouch) r =
        pidTouches T r ++ [((v.timestamp + 1 : ℤ),
          VirtualTouchEvent.mk v.pos .UP v.pid)] := by
    intro r v h
    rw [htr r, h]
  have hft : ∀ (l : PyDict ℕ Pointer),
      l.filter (fun e => decide (e.1 ∉ ([] : List ℕ))) = l := by
    intro l
    apply List.filter_eq_self.2
    intro e _
    simp
  have hlive3 : livePidsMid (recycle true s).2.1 =
      (s.pointers.filter (fun e => decide (e.1 ∉ s.mark_as_released))).map
        (fun e => e.2.pid) ++
      (s.unused.filter (fun e => decide (¬ e.2.occupied + 1 > 1))).map (·.1) ++
      s.unused_now.map (·.1) := by
    unfold livePidsMid
    rw [hptrf, hunused', hunow, hmark, hft]
    simp only [List.map_append, hsurvkeys, List.map_nil, List.append_nil,
      List.append_assoc]
  have hlivesub : (livePidsMid (recycle true s).2.1).Sublist (livePidsMid s) := by
    rw [hlive3]
    unfold livePidsMid
    exact ((List.Sublist.refl _).append
      ((List.filter_sublist _).map _)).append (List.Sublist.refl _)
  have hlive_not_rem : ∀ r ∈ livePidsMid (recycle true s).2.1,
      pdFind? (s.unused.filter (fun e => decide (e.2.occupied + 1 > 1))) r =
        none := by
    intro r hr
    rw [hlive3] at hr
    rcases List.mem_append.1 hr with hr | hr
    · rcases List.mem_append.1 hr with hr | hr
      · obtain ⟨e, he, hek⟩ := List.mem_map.1 hr
        have hf := List.mem_filter.1 he
        exact hek ▸ hA_not_rem e hf.1 (by simpa using hf.2)
      · exact hsurv_not_rem r hr
    · exact hW_not_rem r hr
  have halloc2 : ((recycle true s).2.1.max_pointer_id,
      (recycle true s).2.1.recycled) =
      (((s.unused.filter (fun e => decide (e.2.occupied + 1 > 1))).map
        (·.1))).foldl (allocDel s.begin_ 1) (s.max_pointer_id, s.recycled) := by
    rw [halloc, hP.delta_eq,
      show ((s.unused.filter (fun e => decide (e.2.occupied + 1 > 1))).foldl
          (fun a e => allocDel s.begin_ 1 a e.2.pid)
          (s.max_pointer_id, s.recycled)) =
        (((s.unused.filter (fun e => decide (e.2.occupied + 1 > 1))).map
          (fun e => e.2.pid)).foldl (allocDel s.begin_ 1)
          (s.max_pointer_id, s.recycled)) from (List.foldl_map _ _ _ _).symm,
      List.map_congr_left hrempe]
  have hL4 : ∀ p ∈ (s.unused.filter
      (fun e => decide (e.2.occupied + 1 > 1))).map (·.1),
      s.begin_ ≤ p ∧ p < s.max_pointer_id := by
    intro p hp
    exact hP.live_range p (hUK_live p ((filter_key_keys _ _).subset hp))
  have hL5 : ∀ p ∈ (s.unused.filter
      (fun e => decide (e.2.occupied + 1 > 1))).map (·.1), p ∉ s.recycled := by
    intro p hp hprec
    exact hP.rec_live_disj p hprec (hUK_live p ((filter_key_keys _ _).subset hp))
  have hL6 : ∀ p ∈ livePidsMid (recycle true s).2.1,
      s.begin_ ≤ p ∧ p < s.max_pointer_id := by
    intro p hp
    exact hP.live_range p (hlivesub.subset hp)
  have hL7 : ∀ p ∈ livePidsMid (recycle true s).2.1, p ∉ s.recycled := by
    intro p hp hprec
    exact hP.rec_live_disj p hprec (hlivesub.subset hp)
  have hL8 : ∀ p ∈ livePidsMid (recycle true s).2.1,
      p ∉ (s.unused.filter (fun e => decide (e.2.occupied + 1 > 1))).map (·.1) := by
    intro p hp hpk
    have := hlive_not_rem p hp
    rw [pdFind?_eq_none_iff] at this
    exact this hpk
  have happ := allocDel_fold_inv s.begin_
      ((s.unused.filter (fun e => decide (e.2.occupied + 1 > 1))).map (·.1))
      s.max_pointer_id s.recycled (livePidsMid (recycle true s).2.1)
      hP.rec_nodup hP.rec_range hremnd hL4 hL5 hL6 hL7 hL8 hP.begin_le_max
  obtain ⟨hrecnd3, hrecr3, hliver3, hblm3⟩ := happ
  have hmax3 := congrArg Prod.fst halloc2
  have hrec3 := congrArg Prod.snd halloc2
  dsimp only at hmax3 hrec3
  have hmemu3 : ∀ e ∈ (recycle true s).2.1.unused,
      (∃ v ∈ s.unused.filter (fun e => decide (¬ e.2.occupied + 1 > 1)),
        e = (v.1, incPtr v.2)) ∨ e ∈ s.unused_now := by
    rw [hunused']
    intro e he
    rcases List.mem_append.1 he with he | he
    · obtain ⟨v, hv, hev⟩ := List.mem_map.1 he
      exact Or.inl ⟨v, hv, hev.symm⟩
    · exact Or.inr he
  refine ⟨⟨?_, ?_, ?_, ?_, ?_, ?_, ?_, ?_, ?_, ?_, ?_, ?_, ?_, ?_, ?_, ?_, ?_,
    ?_, ?_, ?_, ?_, ?_, ?_, ?_, ?_, ?_, ?_⟩, IdsInv_recycle hI hptrf hmark⟩
  · -- ptr_keys_nodup
    rw [hptrf]
    exact hP.ptr_keys_nodup.sublist (filter_key_keys _ _)
  · -- unused_keys_nodup
    rw [hunused', List.map_append, hsurvkeys, List.nodup_append]
    refine ⟨hsurvnd, hP.unow_keys_nodup, ?_⟩
    intro a ha hb
    exact hdisjC (List.mem_append.2 (Or.inr ((filter_key_keys _ _).subset ha))) hb
  · -- unow_keys_nodup
    rw [hunow]
    exact List.nodup_nil
  · -- unused_pid_eq
    intro e he
    rcases hmemu3 e he with ⟨v, hv, rfl⟩ | he2
    · exact hP.unused_pid_eq v (List.mem_of_mem_filter hv)
    · exact hP.unow_pid_eq e he2
  · -- unow_pid_eq
    intro e he
    rw [hunow] at he
    cases he
  · -- mark_nodup
    rw [hmark]
    exact List.nodup_nil
  · -- mark_sub
    intro id hid
    rw [hmark] at hid
    cases hid
  · -- live_nodup
    exact hP.live_nodup.sublist hlivesub
  · -- rec_nodup
    rw [hrec3]
    exact hrecnd3
  · -- rec_range
    intro p hp
    rw [hrec3] at hp
    rw [hbeg, hmax3]
    exact hrecr3 p hp
  · -- live_range
    intro p hp
    rw [hbeg, hmax3]
    exact (hliver3 p hp).1
  · -- rec_live_disj
    intro p hp hmem
    rw [hrec3] at hp
    exact (hliver3 p hmem).2 hp
  · -- delta_eq
    rw [hdel]
    exact hP.delta_eq
  · -- begin_le_max
    rw [hbeg, hmax3]
    exact hblm3
  · -- now_eq
    rw [hnow3]
    exact hP.now_eq
  · -- ts_ptr
    intro e he
    rw [hptrf] at he
    exact hP.ts_ptr e (List.mem_of_mem_filter he)
  · -- ts_unused
    intro e he
    rcases hmemu3 e he with ⟨v, hv, rfl⟩ | he2
    · have hts := hP.ts_unused v (List.mem_of_mem_filter hv)
      simp only [incPtr]
      omega
    · exact hP.ts_unow e he2
  · -- ts_unow
    intro e he
    rw [hunow] at he
    cases he
  · -- occ_aged
    intro e he h1
    rcases hmemu3 e he with ⟨v, hv, rfl⟩ | he2
    · have hts := hP.ts_unused v (List.mem_of_mem_filter hv)
      have hocc := hsurvocc v hv
      simp only [incPtr]
      omega
    · have h0 := hP.occ_unow e he2
      rw [h0] at h1
      omega
  · -- occ_ptr
    intro e he
    rw [hptrf] at he
    exact hP.occ_ptr e (List.mem_of_mem_filter he)
  · -- occ_unow
    intro e he
    rw [hunow] at he
    cases he
  · -- f_times
    intro x hx
    rcases List.mem_append.1 hx with hx | hx
    · exact hP.f_times x hx
    · rw [hupsT] at hx
      obtain ⟨e, he, hex⟩ := List.mem_map.1 hx
      have hocc := hremocc e he
      have hts := hP.ts_unused e (List.mem_of_mem_filter he)
      have haged := hP.occ_aged e (List.mem_of_mem_filter he) hocc
      subst hex
      simp only
      omega
  · -- f_sorted
    intro r
    cases hfr : pdFind? (s.unused.filter
        (fun e => decide (e.2.occupied + 1 > 1))) r with
    | none => rw [htr_none r hfr]; exact hP.f_sorted r
    | some v =>
        rw [htr_some r v hfr]
        refine pairwise_le_append_single (hP.f_sorted r) ?_
        have hmemrv : (r, v) ∈ s.unused :=
          List.mem_of_mem_filter (pdFind?_mem hfr)
        have hpidrv : v.pid = r := hP.unused_pid_eq (r, v) hmemrv
        have hopen := hP.open_unused (r, v) hmemrv
        rw [show ((r, v) : ℕ × Pointer).2.pid = r from hpidrv] at hopen
        intro y hy
        have h2 : y.1 ≤ v.timestamp := lastTime_le (hP.f_sorted r) hopen.2 hy
        show y.1 ≤ v.timestamp + 1
        omega
  · -- open_ptr
    intro e he _
    rw [hptrf] at he
    have hf := List.mem_filter.1 he
    rw [htr_none e.2.pid (hA_not_rem e hf.1 (by simpa using hf.2))]
    exact hP.open_ptr e hf.1 (by simpa using hf.2)
  · -- open_unused
    intro e he
    rcases hmemu3 e he with ⟨v, hv, rfl⟩ | he2
    · have hk : v.1 ∈ (s.unused.filter
          (fun e => decide (¬ e.2.occupied + 1 > 1))).map (·.1) :=
        List.mem_map_of_mem _ hv
      have hpid : ((v.1, incPtr v.2) : ℕ × Pointer).2.pid = v.2.pid := rfl
      rw [hpid, hP.unused_pid_eq v (List.mem_of_mem_filter hv),
        htr_none v.1 (hsurv_not_rem v.1 hk)]
      have hopen := hP.open_unused v (List.mem_of_mem_filter hv)
      rw [hP.unused_pid_eq v (List.mem_of_mem_filter hv)] at hopen
      exact ⟨hopen.1, hopen.2⟩
    · have hk : e.1 ∈ s.unused_now.map (·.1) := List.mem_map_of_mem _ he2
      rw [hP.unow_pid_eq e he2, htr_none e.1 (hW_not_rem e.1 hk)]
      have hopen := hP.open_unow e he2
      rw [hP.unow_pid_eq e he2] at hopen
      exact hopen
  · -- open_unow
    intro e he
    rw [hunow] at he
    cases he
  · -- f_closed
    intro r hr
    cases hfr : pdFind? (s.unused.filter
        (fun e => decide (e.2.occupied + 1 > 1))) r with
    | some v =>
        rw [htr_some r v hfr, touchActs_append]
        have hmemrv : (r, v) ∈ s.unused :=
          List.mem_of_mem_filter (pdFind?_mem hfr)
        have hopen := hP.open_unused (r, v) hmemrv
        rw [show ((r, v) : ℕ × Pointer).2.pid = r
          from hP.unused_pid_eq (r, v) hmemrv] at hopen
        exact openRun_append_up hopen.1
    | none =>
        rw [htr_none r hfr]
        refine hP.f_closed r ?_
        intro hrlive
        unfold livePidsMid at hrlive
        rcases List.mem_append.1 hrlive with h1 | h1
        · rcases List.mem_append.1 h1 with h1 | h1
          · refine hr ?_
            rw [hlive3]
            exact List.mem_append.2 (Or.inl (List.mem_append.2 (Or.inl h1)))
          · obtain ⟨e, he, hek⟩ := List.mem_map.1 h1
            by_cases hc : e.2.occupied + 1 > 1
            · have hrem : e ∈ s.unused.filter
                  (fun e => decide (e.2.occupied + 1 > 1)) :=
                List.mem_filter.2 ⟨he, by simpa using hc⟩
              have := pdFind?_of_mem hremnd hrem
              rw [hek, hfr] at this
              cases this
            · have hsv : e ∈ s.unused.filter
                  (fun e => decide (¬ e.2.occupied + 1 > 1)) :=
                List.mem_filter.2 ⟨he, by simpa using hc⟩
              refine hr ?_
              rw [hlive3]
              refine List.mem_append.2 (Or.inl (List.mem_append.2 (Or.inr ?_)))
              exact hek ▸ List.mem_map_of_mem _ hsv
        · refine hr ?_
          rw [hlive3]
          exact List.mem_append.2 (Or.inr h1)

theorem recycle_inv {B m : ℤ} {s : PMState} {T : List TimedTouch}
    {R : List FrameEvent} (kf : Bool) (hBm : B < m)
    (hP : PlanInv s B m T) (hI : IdsInv R s) :
    PlanInv (recycle kf s).2.1 m m (T ++ ((recycle kf s).1.map upTouch)) ∧
    IdsInv R (recycle kf s).2.1 ∧
    (recycle kf s).2.1.mark_as_released = [] ∧
    (recycle kf s).2.1.unused_now = [] := by
  cases kf
  · obtain ⟨h1, h2⟩ := recycle_inv_false hBm hP hI
    exact ⟨h1, h2, (recycle_false_fields s).2.2.2.2.1,
      (recycle_false_fields s).2.2.2.1⟩
  · obtain ⟨h1, h2⟩ := recycle_inv_true hBm hP hI
    have hf := recycle_true_fields s hP.unused_keys_nodup hP.unused_pid_eq
    exact ⟨h1, h2, hf.2.2.2.2.1, hf.2.2.2.1⟩

theorem set_now_self {s : PMState} {n : ℤ} (h : s.now = n) :
    { s with now := n } = s := by
  rw [← h]

/-- Weakening of the invariant when the planning loop advances `now`. -/
theorem planInv_set_now {s : PMState} {B m : ℤ} {T : List TimedTouch}
    (hP : PlanInv s B m T) {m' : ℤ} (hm : m ≤ m') :
    PlanInv { s with now := m' } B m' T := by
  refine ⟨hP.ptr_keys_nodup, hP.unused_keys_nodup, hP.unow_keys_nodup,
    hP.unused_pid_eq, hP.unow_pid_eq, hP.mark_nodup, hP.mark_sub, hP.live_nodup,
    hP.rec_nodup, hP.rec_range, hP.live_range, hP.rec_live_disj, hP.delta_eq,
    hP.begin_le_max, rfl, ?_, hP.ts_unused, ?_, hP.occ_aged, hP.occ_ptr,
    hP.occ_unow, ?_, hP.f_sorted, hP.open_ptr, hP.open_unused, hP.open_unow,
    hP.f_closed⟩
  · intro e he
    exact le_trans (hP.ts_ptr e he) hm
  · intro e he
    exact le_trans (hP.ts_unow e he) hm
  · intro x hx
    exact le_trans (hP.f_times x hx) hm

/-- One full frame of the planning loop: set `now`, process the events,
recycle.  The invariant moves to the new boundary `f.1`. -/
theorem processFrame_inv {ext : ExtFuns} {m₀ : ℤ} {s : PMState}
    {T : List TimedTouch} {f : ℤ × List FrameEvent} {R : List FrameEvent}
    (hm : m₀ < f.1)
    (hP : PlanInv { s with now := m₀ } m₀ m₀ T)
    (hI : IdsInv (f.2 ++ R) s) :
    ∃ G, (processFrame ext s f).1 = G ∧
      PlanInv (processFrame ext s f).2.1 f.1 f.1 (T ++ G) ∧
      IdsInv R (processFrame ext s f).2.1 ∧
      (processFrame ext s f).2.1.mark_as_released = [] ∧
      (processFrame ext s f).2.1.unused_now = [] := by
  obtain ⟨t, evs⟩ := f
  have hP0 : PlanInv { s with now := t } m₀ t T := planInv_set_now hP (le_of_lt hm)
  have hIs0 : IdsInv (evs ++ R) { s with now := t } := hI
  obtain ⟨G1, hG1, hG2, hG3⟩ :=
    foldl_processEvent_inv evs R [] { s with now := t } false T hP0 hIs0
  rcases hPE : processFrameEvents ext { s with now := t } evs with ⟨out1, s1, kf1⟩
  unfold processFrameEvents at hPE
  rw [hPE] at hG1 hG2 hG3
  dsimp only at hG1 hG2 hG3
  rw [List.nil_append] at hG1
  subst hG1
  obtain ⟨hR1, hR2, hRm, hRu⟩ := recycle_inv kf1 hm hG2 hG3
  rcases hRE : recycle kf1 s1 with ⟨ups, s2, err⟩
  rw [hRE] at hR1 hR2 hRm hRu
  dsimp only at hR1 hR2 hRm hRu
  have hred : processFrame ext s (t, evs) = (out1 ++ ups.map upTouch, s2, err) := by
    unfold processFrame processFrameEvents
    dsimp only
    rw [hPE]
    dsimp only
    rw [hRE]
  rw [hred]
  refine ⟨out1 ++ ups.map upTouch, rfl, ?_, hR2, hRm, hRu⟩
  rw [show T ++ (out1 ++ ups.map upTouch) = (T ++ out1) ++ ups.map upTouch by
    rw [List.append_assoc]]
  exact hR1

/-- The whole planning loop: under strictly increasing frame keys and a
well-formed remaining stream, a run that does not raise carries the
invariant to the final state. -/
theorem planFrames_inv {ext : ExtFuns} :
    ∀ (fs : List (ℤ × List FrameEvent)) (R : List FrameEvent) (s : PMState)
      (m₀ : ℤ) (T : List TimedTouch),
      (∀ f ∈ fs, m₀ < f.1) → ((fs.map (·.1)).Pairwise (· < ·)) →
      PlanInv { s with now := m₀ } m₀ m₀ T →
      IdsInv (fs.flatMap (·.2) ++ R) s →
      s.mark_as_released = [] → s.unused_now = [] →
      ∀ out s' err, planFrames ext fs s = (out, s', err) → err = none →
      ∃ m₁, m₀ ≤ m₁ ∧ PlanInv { s' with now := m₁ } m₁ m₁ (T ++ out) ∧
        IdsInv R s' ∧ s'.mark_as_released = [] ∧ s'.unused_now = [] := by
  intro fs
  induction fs with
  | nil =>
      intro R s m₀ T _ _ hP hI hmark hunow out s' err hpl _
      unfold planFrames at hpl
      injection hpl with h1 h2
      injection h2 with h2 h3
      subst h1
      subst h2
      exact ⟨m₀, le_refl _, by simpa using hP, by simpa using hI, hmark, hunow⟩
  | cons f rest ih =>
      intro R s m₀ T hfs hsort hP hI hmark hunow out s' err hpl herr
      subst herr
      have hm : m₀ < f.1 := hfs f (List.mem_cons_self f rest)
      have hI' : IdsInv (f.2 ++ (rest.flatMap (·.2) ++ R)) s := by
        rw [← List.append_assoc, ← List.flatMap_cons]
        exact hI
      obtain ⟨G, hG1, hG2, hG3, hGm, hGu⟩ := processFrame_inv hm hP hI'
      rcases hPF : processFrame ext s f with ⟨out1, s1, err1⟩
      rw [hPF] at hG1 hG2 hG3 hGm hGu
      dsimp only at hG1 hG2 hG3 hGm hGu
      subst hG1
      cases err1 with
      | some e =>
          unfold planFrames at hpl
          rw [hPF] at hpl
          dsimp only at hpl
          injection hpl with h1 h2
          injection h2 with h2 h3
          cases h3
      | none =>
          have hP1 : PlanInv { s1 with now := f.1 } f.1 f.1 (T ++ out1) := by
            rw [set_now_self hG2.now_eq]
            exact hG2
          simp only [List.map_cons] at hsort
          have hsort' := List.pairwise_cons.1 hsort
          rcases hPL2 : planFrames ext rest s1 with ⟨out2, s2, err2⟩
          have hpl2 : planFrames ext (f :: rest) s = (out1 ++ out2, s2, err2) := by
            unfold planFrames
            rw [hPF]
            dsimp only
            rw [hPL2]
          rw [hpl2] at hpl
          injection hpl with h1 h2
          injection h2 with h2 h3
          subst h1
          subst h2
          obtain ⟨m₁, hm₁, hQ1, hQ2, hQ3, hQ4⟩ :=
            ih R s1 f.1 (T ++ out1)
              (fun g hg => hsort'.1 g.1 (List.mem_map_of_mem (·.1) hg))
              hsort'.2 hP1 hG3 hGm hGu out2 s2 err2 hPL2 h3
          refine ⟨m₁, le_trans (le_of_lt hm) hm₁, ?_, hQ2, hQ3, hQ4⟩
          rw [show T ++ (out1 ++ out2) = (T ++ out1) ++ out2 by
            rw [List.append_assoc]]
          exact hQ1

/-- After the last frame the stream is exhausted: `pointers` must be empty,
so `finish` drains exactly `unused`, closing every remaining run. -/
theorem final_balanced {s : PMState} {m₁ : ℤ} {F : List TimedTouch}
    (hP : PlanInv { s with now := m₁ } m₁ m₁ F)
    (hI : IdsInv ([] : List FrameEvent) s)
    (hmark : s.mark_as_released = []) (hunow : s.unused_now = []) :
    (∀ r : ℕ, balancedRuns (touchActs
      (pidTouches (F ++ (finish s).map upTouch) r)) = true) ∧
    (∀ r : ℕ, (pidTouches (F ++ (finish s).map upTouch) r).Pairwise
      (fun a b => a.1 ≤ b.1)) := by
  have hkeys : (s.pointers.map (·.1)).Nodup := hP.ptr_keys_nodup
  have hptr_nil : s.pointers = [] := by
    rw [List.eq_nil_iff_forall_not_mem]
    intro e he
    have hfind : pdFind? s.pointers e.1 = some e.2 := pdFind?_of_mem hkeys he
    rcases hI e.1 with ⟨h1, _⟩ | ⟨_, _, h3⟩ | ⟨_, h2, _⟩
    · rw [h1] at hfind
      cases hfind
    · rw [show idActs ([] : List FrameEvent) e.1 = [] from rfl] at h3
      cases h3
    · rw [hmark] at h2
      cases h2
  have hfin : (finish s).map upTouch = s.unused.map (fun e =>
      ((e.2.timestamp + 1 : ℤ), VirtualTouchEvent.mk e.2.pos .UP e.2.pid)) := by
    unfold finish
    rw [hunow, hptr_nil]
    simp only [List.map_nil, List.append_nil, List.map_map]
    rfl
  have htr : ∀ r : ℕ, pidTouches (F ++ (finish s).map upTouch) r =
      pidTouches F r ++
        (match pdFind? s.unused r with
          | some v => [((v.timestamp + 1 : ℤ), VirtualTouchEvent.mk v.pos .UP v.pid)]
          | none => []) := by
    intro r
    rw [pidTouches_append, hfin,
      pidTouches_ups _ hP.unused_keys_nodup hP.unused_pid_eq r]
  have hlive : livePidsMid { s with now := m₁ } = s.unused.map (·.1) := by
    unfold livePidsMid
    rw [show ({ s with now := m₁ } : PMState).pointers = s.pointers from rfl,
      hptr_nil]
    rw [show ({ s with now := m₁ } : PMState).unused_now = s.unused_now from rfl,
      hunow]
    simp
  constructor
  · intro r
    cases hfr : pdFind? s.unused r with
    | some v =>
        rw [htr r, hfr, touchActs_append]
        have hmemrv : (r, v) ∈ s.unused := pdFind?_mem hfr
        have hopen := hP.open_unused (r, v) hmemrv
        rw [show ((r, v) : ℕ × Pointer).2.pid = r
          from hP.unused_pid_eq (r, v) hmemrv] at hopen
        exact openRun_append_up hopen.1
    | none =>
        have hnl : r ∉ livePidsMid { s with now := m₁ } := by
          rw [hlive]
          rw [pdFind?_eq_none_iff] at hfr
          exact hfr
        rw [htr r, hfr]
        rw [show (pidTouches F r ++ []) = pidTouches F r from List.append_nil _]
        exact hP.f_closed r hnl
  · intro r
    cases hfr : pdFind? s.unused r with
    | some v =>
        rw [htr r, hfr]
        refine pairwise_le_append_single (hP.f_sorted r) ?_
        have hmemrv : (r, v) ∈ s.unused := pdFind?_mem hfr
        have hopen := hP.open_unused (r, v) hmemrv
        rw [show ((r, v) : ℕ × Pointer).2.pid = r
          from hP.unused_pid_eq (r, v) hmemrv] at hopen
        intro y hy
        have h2 : y.1 ≤ v.timestamp := lastTime_le (hP.f_sorted r) hopen.2 hy
        show y.1 ≤ v.timestamp + 1
        omega
    | none =>
        rw [htr r, hfr]
        rw [show (pidTouches F r ++ []) = pidTouches F r from List.append_nil _]
        exact hP.f_sorted r

theorem pdSet_keys_mem [DecidableEq κ] {d : PyDict κ ν} {k : κ} (v : ν)
    (hnd : (d.map (·.1)).Nodup) (h : k ∈ d.map (·.1)) :
    (pdSet d k v).map (·.1) = d.map (·.1) := by
  rw [pdSet_eq_map v hnd h, List.map_map]
  apply List.map_congr_left
  intro e _
  by_cases he : e.1 = k <;> simp [Function.comp, he]

/-- The bucket map `buildMap` collects, per key, exactly the payloads of
that key in emission order; its keys are duplicate-free. -/
theorem buildMap_spec (F : List (ℤ × α)) :
    (∀ t : ℤ, (pdFind? (buildMap F) t).getD [] =
      (F.filter (fun x => x.1 == t)).map (·.2)) ∧
    (∀ t : ℤ, t ∈ (buildMap F).map (·.1) ↔ t ∈ F.map (·.1)) ∧
    ((buildMap F).map (·.1)).Nodup := by
  induction F using List.reverseRecOn with
  | nil => exact ⟨fun t => rfl, fun t => Iff.rfl, List.nodup_nil⟩
  | append_singleton F x ih =>
      obtain ⟨ih1, ih2, ih3⟩ := ih
      have hstep : buildMap (F ++ [x]) = addTouch (buildMap F) x.1 x.2 := by
        unfold buildMap
        rw [List.foldl_append]
        rfl
      have hgoal1 : ∀ t : ℤ, (pdFind? (buildMap (F ++ [x])) t).getD [] =
          ((F ++ [x]).filter (fun y => y.1 == t)).map (·.2) := by
        intro t
        rw [hstep]
        unfold addTouch
        by_cases ht : t = x.1
        · subst ht
          rw [pdFind?_pdSet_self]
          rw [List.filter_append, List.map_append, ← ih1 x.1]
          rw [List.filter_cons_of_pos (by simp), List.filter_nil]
          rfl
        · rw [pdFind?_pdSet_ne _ _ _ _ (fun h => ht h.symm)]
          rw [List.filter_append, List.map_append, ← ih1 t]
          rw [List.filter_cons_of_neg (by simpa using fun h : x.1 = t => ht h.symm),
            List.filter_nil]
          simp
      refine ⟨hgoal1, ?_, ?_⟩
      · intro t
        rw [hstep]
        unfold addTouch
        by_cases hx : x.1 ∈ (buildMap F).map (·.1)
        · rw [pdSet_keys_mem _ ih3 hx]
          rw [ih2 t]
          constructor
          · intro h
            simp only [List.map_append, List.mem_append]
            exact Or.inl h
          · intro h
            simp only [List.map_append, List.mem_append, List.map_cons,
              List.map_nil, List.mem_singleton] at h
            rcases h with h | h
            · exact h
            · rw [h]
              exact (ih2 x.1).1 hx
        · rw [pdSet_of_fresh _ hx]
          simp only [List.map_append, List.mem_append, List.map_cons,
            List.map_nil, List.mem_singleton]
          rw [ih2 t]
      · rw [hstep]
        unfold addTouch
        by_cases hx : x.1 ∈ (buildMap F).map (·.1)
        · rw [pdSet_keys_mem _ ih3 hx]
          exact ih3
        · rw [pdSet_of_fresh _ hx]
          simp only [List.map_append, List.map_cons, List.map_nil]
          rw [List.nodup_append]
          refine ⟨ih3, List.nodup_singleton _, ?_⟩
          intro a ha hb
          simp only [List.mem_singleton] at hb
          exact hx (hb ▸ ha)

theorem pdFind?_perm [DecidableEq κ] (d1 d2 : PyDict κ ν) (hperm : d1.Perm d2)
    (hnd : (d1.map (·.1)).Nodup) (k : κ) : pdFind? d1 k = pdFind? d2 k := by
  have hnd2 : (d2.map (·.1)).Nodup := ((hperm.map (·.1)).nodup_iff).1 hnd
  cases h1 : pdFind? d1 k with
  | none =>
      rw [pdFind?_eq_none_iff] at h1
      rw [eq_comm, pdFind?_eq_none_iff]
      intro hmem
      exact h1 ((hperm.map (·.1)).mem_iff.2 hmem)
  | some v =>
      have hmem : (k, v) ∈ d2 := hperm.subset (pdFind?_mem h1)
      exact (pdFind?_of_mem hnd2 hmem).symm

theorem sortEnt_perm (l : List (ℤ × α)) : (sortEnt l).Perm l :=
  List.perm_insertionSort _ l

theorem sortEnt_sorted (l : List (ℤ × α)) :
    (sortEnt l).Pairwise (fun a b => a.1 ≤ b.1) := by
  haveI hto : IsTotal (ℤ × α) (fun a b => a.1 ≤ b.1) := ⟨fun a b => le_total a.1 b.1⟩
  haveI htr : IsTrans (ℤ × α) (fun a b => a.1 ≤ b.1) :=
    ⟨fun a b c h1 h2 => le_trans h1 h2⟩
  exact List.sorted_insertionSort _ l

theorem flatMap_bucket_filter (L : PyDict ℤ (List α))
    (hnd : (L.map (·.1)).Nodup) (t : ℤ) :
    ((L.flatMap (fun e => e.2.map (fun x => (e.1, x)))).filter
      (fun x => x.1 == t)) =
      (match pdFind? L t with
        | some l => l.map (fun x => (t, x))
        | none => []) := by
  induction L with
  | nil => rfl
  | cons a r ih =>
      simp only [List.map_cons, List.nodup_cons] at hnd
      rw [List.flatMap_cons, List.filter_append]
      by_cases ha : a.1 = t
      · subst ha
        have h1 : (a.2.map (fun x => (a.1, x))).filter (fun x => x.1 == a.1) =
            a.2.map (fun x => (a.1, x)) := by
          apply List.filter_eq_self.2
          intro e he
          obtain ⟨x, _, hex⟩ := List.mem_map.1 he
          subst hex
          simp
        have hnone : pdFind? r a.1 = none := by
          rw [pdFind?_eq_none_iff]
          exact hnd.1
        rw [h1, ih hnd.2, hnone, pdFind?, if_pos rfl]
        simp
      · have h1 : (a.2.map (fun x => (a.1, x))).filter (fun x => x.1 == t) = [] := by
          apply List.filter_eq_nil_iff.2
          intro e he
          obtain ⟨x, _, hex⟩ := List.mem_map.1 he
          subst hex
          simpa using ha
        rw [h1, ih hnd.2, pdFind?, if_neg ha]
        simp

theorem pairwise_of_forall {R : α → α → Prop} (h : ∀ x y, R x y) :
    ∀ l : List α, l.Pairwise R := by
  intro l
  induction l with
  | nil => exact List.Pairwise.nil
  | cons a t ih => exact List.Pairwise.cons (fun y _ => h a y) ih

/-- Flattening key-sorted buckets gives a key-sorted event list. -/
theorem flatMap_bucket_sorted (L : PyDict ℤ (List α))
    (hs : L.Pairwise (fun a b => a.1 ≤ b.1)) :
    (L.flatMap (fun e => e.2.map (fun x => (e.1, x)))).Pairwise
      (fun a b => a.1 ≤ b.1) := by
  induction L with
  | nil => exact List.Pairwise.nil
  | cons a r ih =>
      rw [List.flatMap_cons, List.pairwise_append]
      refine ⟨?_, ih (List.pairwise_cons.1 hs).2, ?_⟩
      · refine List.pairwise_map.2 ?_
        exact pairwise_of_forall (fun x y => le_refl a.1) a.2
      · intro x hx y hy
        obtain ⟨x0, _, hx0⟩ := List.mem_map.1 hx
        obtain ⟨e, he, hye⟩ := List.mem_flatMap.1 hy
        obtain ⟨y0, _, hy0⟩ := List.mem_map.1 hye
        subst hx0
        subst hy0
        exact (List.pairwise_cons.1 hs).1 e he

theorem chron_key_sorted (m : PyDict ℤ (List α)) :
    (chron m).Pairwise (fun a b => a.1 ≤ b.1) :=
  flatMap_bucket_sorted (sortEnt m) (sortEnt_sorted m)

/-- Per-key stability: the chronological flattening of `buildMap F` has
exactly the key-`t` events of `F`, in order. -/
theorem chron_filter_key (F : List (ℤ × α)) (t : ℤ) :
    (chron (buildMap F)).filter (fun x => x.1 == t) =
      F.filter (fun x => x.1 == t) := by
  obtain ⟨hB1, hB2, hB3⟩ := buildMap_spec F
  have hperm := sortEnt_perm (buildMap F)
  have hnd2 : ((sortEnt (buildMap F)).map (·.1)).Nodup :=
    ((hperm.map (·.1)).nodup_iff).2 hB3
  unfold chron
  rw [flatMap_bucket_filter _ hnd2 t, pdFind?_perm _ _ hperm hnd2 t]
  cases hf : pdFind? (buildMap F) t with
  | none =>
      rw [pdFind?_eq_none_iff] at hf
      have hnotF : t ∉ F.map (·.1) := fun h => hf ((hB2 t).2 h)
      rw [eq_comm]
      apply List.filter_eq_nil_iff.2
      intro z hz
      simp only [beq_iff_eq]
      intro hzt
      exact hnotF (hzt ▸ List.mem_map_of_mem (·.1) hz)
  | some l =>
      have hl : l = (F.filter (fun x => x.1 == t)).map (·.2) := by
        have := hB1 t
        rw [hf] at this
        exact this
      subst hl
      show (List.map (fun x => (t, x))
          (List.map (fun x => x.2) (List.filter (fun x => x.1 == t) F))) =
        List.filter (fun x => x.1 == t) F
      rw [List.map_map, eq_comm]
      conv_lhs => rw [show F.filter (fun x => x.1 == t) =
        (F.filter (fun x => x.1 == t)).map id from (List.map_id _).symm]
      apply List.map_congr_left
      intro e he
      have h1 : e.1 = t := by simpa using (List.mem_filter.1 he).2
      show e = (t, e.2)
      rw [← h1]

/-- Two weakly key-sorted lists with identical per-key filters are equal:
sorting by a stable sort commutes with bucketing. -/
theorem filter_eq_of_sorted {α : Type} :
    ∀ (l₁ l₂ : List (ℤ × α)),
      l₁.Pairwise (fun a b => a.1 ≤ b.1) → l₂.Pairwise (fun a b => a.1 ≤ b.1) →
      (∀ t : ℤ, l₁.filter (fun x => x.1 == t) = l₂.filter (fun x => x.1 == t)) →
      l₁ = l₂ := by
  intro l₁
  induction l₁ with
  | nil =>
      intro l₂ _ _ hf
      cases l₂ with
      | nil => rfl
      | cons y t2 =>
          have h := hf y.1
          rw [List.filter_nil, List.filter_cons_of_pos (by simp)] at h
          cases h
  | cons x t1 ih =>
      intro l₂ hs1 hs2 hf
      cases l₂ with
      | nil =>
          have h := hf x.1
          rw [List.filter_cons_of_pos (by simp), List.filter_nil] at h
          cases h
      | cons y t2 =>
          have hkey : x.1 = y.1 := by
            by_contra hne
            rcases lt_or_gt_of_ne hne with hlt | hgt
            · have h2 := hf x.1
              rw [List.filter_cons_of_pos (by simp)] at h2
              have hrhs : (y :: t2).filter (fun z => z.1 == x.1) = [] := by
                apply List.filter_eq_nil_iff.2
                intro z hz
                simp only [beq_iff_eq]
                intro hzx
                rcases List.mem_cons.1 hz with rfl | hz2
                · omega
                · have := List.rel_of_pairwise_cons hs2 hz2
                  omega
              rw [hrhs] at h2
              cases h2
            · have hlhs : (x :: t1).filter (fun z => z.1 == y.1) = [] := by
                apply List.filter_eq_nil_iff.2
                intro z hz
                simp only [beq_iff_eq]
                intro hzy
                rcases List.mem_cons.1 hz with rfl | hz2
                · omega
                · have := List.rel_of_pairwise_cons hs1 hz2
                  omega
              have h2 := hf y.1
              rw [hlhs, List.filter_cons_of_pos (by simp)] at h2
              cases h2
          have h3 := hf x.1
          rw [List.filter_cons_of_pos (by simp),
            List.filter_cons_of_pos (by simp [hkey.symm])] at h3
          injection h3 with hxy h4
          subst hxy
          refine congrArg (x :: ·) (ih t2 (List.pairwise_cons.1 hs1).2
            (List.pairwise_cons.1 hs2).2 ?_)
          intro t
          by_cases ht : t = x.1
          · subst ht
            exact h4
          · have h5 := hf t
            rw [List.filter_cons_of_neg (by simpa using fun h : x.1 = t => ht h.symm),
              List.filter_cons_of_neg (by simpa using fun h : x.1 = t => ht h.symm)]
              at h5
            exact h5

/-- Stability along any payload predicate whose selected subsequence is
time-sorted in the flat list. -/
theorem chron_filter_pred {α : Type} (F : List (ℤ × α)) (p : α → Bool)
    (hs : (F.filter (fun x => p x.2)).Pairwise (fun a b => a.1 ≤ b.1)) :
    (chron (buildMap F)).filter (fun x => p x.2) =
      F.filter (fun x => p x.2) := by
  refine filter_eq_of_sorted _ _ ?_ hs ?_
  · exact (chron_key_sorted (buildMap F)).filter _
  · intro t
    have h1 : ∀ (l : List (ℤ × α)),
        (l.filter (fun x => p x.2)).filter (fun x => x.1 == t) =
          (l.filter (fun x => x.1 == t)).filter (fun x => p x.2) := by
      intro l
      rw [List.filter_filter, List.filter_filter]
      apply List.filter_congr
      intro e _
      rw [Bool.and_comm]
    rw [h1, h1, chron_filter_key]

/-- The pointer-id action sequence read back from the bucketed output map
is the per-pid subsequence of the flat emission trace. -/
theorem pidSeq_eq (F : List TimedTouch) (pid : ℕ)
    (hs : (pidTouches F pid).Pairwise (fun a b => a.1 ≤ b.1)) :
    pidSeq (buildMap F) pid = touchActs (pidTouches F pid) := by
  unfold pidSeq touchActs pidTouches
  rw [show (fun x : TimedTouch => x.2.pointer_id == pid) =
    (fun x : TimedTouch => (fun v : VirtualTouchEvent => v.pointer_id == pid) x.2)
    from rfl]
  rw [chron_filter_pred F (fun v => v.pointer_id == pid) hs]

theorem isMidTail_middles (l : List FrameEventAction)
    (hl : ∀ a ∈ l, isMiddle a = true) {e : FrameEventAction}
    (he : isEnder e = true) : isMidTail (l ++ [e]) = true := by
  induction l with
  | nil => simpa [isMidTail] using he
  | cons a t ih =>
      have ha := hl a (List.mem_cons_self a t)
      have ht := ih (fun b hb => hl b (List.mem_cons_of_mem a hb))
      cases t with
      | nil => simp [isMidTail, ha, he]
      | cons b t2 =>
          rw [List.cons_append, show isMidTail (a :: (b :: t2 ++ [e])) =
            (isMiddle a && isMidTail (b :: t2 ++ [e])) from rfl]
          rw [List.cons_append] at ht
          simp [ha, ht]

theorem mem_flickOffsets_bounds {o : ℤ} (h : o ∈ flickOffsets) :
    -19 ≤ o ∧ o ≤ 19 := by
  have h1 := List.mem_of_mem_filter h
  rw [show FLICK_START_MS + 1 = (-19 : ℤ) from rfl] at h1
  have h2 := (mem_range_map_add 39 (-19) o).1 h1
  omega

theorem pairwise_le_range_map_add (n : ℕ) (c : ℤ) :
    (((List.range n).map (fun (i : ℕ) => (i : ℤ) + c)).Pairwise (· ≤ ·)) := by
  refine List.pairwise_map.2 ?_
  refine List.Pairwise.imp ?_ (List.pairwise_lt_range n)
  intro a b hab
  omega

theorem flickOffsets_sorted : flickOffsets.Pairwise (· ≤ ·) := by
  unfold flickOffsets
  exact (pairwise_le_range_map_add 39 (FLICK_START_MS + 1)).sublist
    (List.filter_sublist _)

theorem mem_holdOffsets_bounds {hold_ms o : ℤ} (h : o ∈ holdOffsets hold_ms) :
    1 ≤ o ∧ o ≤ hold_ms - 1 := by
  have h1 := List.mem_of_mem_filter h
  have h2 := (mem_range_map_add ((hold_ms - 1).toNat) 1 o).1 h1
  rcases h2 with ⟨h3, h4⟩
  by_cases h5 : 1 ≤ hold_ms
  · rw [Int.toNat_of_nonneg (by omega)] at h4
    omega
  · rw [show (hold_ms - 1).toNat = 0 by omega] at h4
    omega

theorem holdOffsets_sorted (hold_ms : ℤ) :
    (holdOffsets hold_ms).Pairwise (· ≤ ·) := by
  unfold holdOffsets
  exact (pairwise_le_range_map_add _ 1).sublist (List.filter_sublist _)

/-- Every frame event a note synthesizes carries the note's event id. -/
theorem noteEvents_id (ext : ExtFuns) (line : LineModel) (event : Note) (id : ℕ) :
    ∀ x ∈ noteEvents ext line event id, x.2.id = id := by
  intro x hx
  unfold noteEvents at hx
  rcases event with ⟨ty, time, xx, hold⟩
  cases ty <;> simp only at hx
  · rw [List.mem_singleton] at hx
    subst hx
    rfl
  · rw [List.mem_singleton] at hx
    subst hx
    rfl
  · rcases List.mem_append.1 hx with hx | hx
    · rcases List.mem_append.1 hx with hx | hx
      · rw [List.mem_singleton] at hx
        subst hx
        rfl
      · obtain ⟨o, _, ho⟩ := List.mem_map.1 hx
        subst ho
        rfl
    · rw [List.mem_singleton] at hx
      subst hx
      rfl
  · rcases List.mem_append.1 hx with hx | hx
    · rcases List.mem_append.1 hx with hx | hx
      · rw [List.mem_singleton] at hx
        subst hx
        rfl
      · obtain ⟨o, _, ho⟩ := List.mem_map.1 hx
        subst ho
        rfl
    · rw [List.mem_singleton] at hx
      subst hx
      rfl

/-- The frame events of one note are weakly time-sorted (for a HOLD this
needs the hold duration to be nonnegative). -/
theorem noteEvents_sorted (ext : ExtFuns) (line : LineModel) (event : Note)
    (id : ℕ) (hhold : event.type = NoteType.HOLD →
      0 ≤ ⌈line.seconds event.hold * 1000⌉) :
    (noteEvents ext line event id).Pairwise (fun a b => a.1 ≤ b.1) := by
  unfold noteEvents
  rcases event with ⟨ty, time, xx, hold⟩
  cases ty <;> simp only
  · exact List.pairwise_singleton _ _
  · exact List.pairwise_singleton _ _
  · -- FLICK
    rw [List.pairwise_append]
    refine ⟨?_, List.pairwise_singleton _ _, ?_⟩
    · rw [List.pairwise_append]
      refine ⟨List.pairwise_singleton _ _, ?_, ?_⟩
      · refine List.pairwise_map.2 ?_
        refine List.Pairwise.imp ?_ flickOffsets_sorted
        intro a b hab
        omega
      · intro a ha b hb
        rw [List.mem_singleton] at ha
        subst ha
        obtain ⟨o, ho, hb2⟩ := List.mem_map.1 hb
        subst hb2
        have := mem_flickOffsets_bounds ho
        show pyInt (line.seconds time * 1000 + 1 / 2) + FLICK_START_MS ≤ _ + o
        rw [show FLICK_START_MS = (-20 : ℤ) from rfl]
        omega
    · intro a ha b hb
      rw [List.mem_singleton] at hb
      subst hb
      rcases List.mem_append.1 ha with ha | ha
      · rw [List.mem_singleton] at ha
        subst ha
        show _ + FLICK_START_MS ≤ _ + FLICK_END_MS
        rw [show FLICK_START_MS = (-20 : ℤ) from rfl,
          show FLICK_END_MS = (20 : ℤ) from rfl]
        omega
      · obtain ⟨o, ho, ha2⟩ := List.mem_map.1 ha
        subst ha2
        have := mem_flickOffsets_bounds ho
        show _ + o ≤ _ + FLICK_END_MS
        rw [show FLICK_END_MS = (20 : ℤ) from rfl]
        omega
  · -- HOLD
    have hh : (0 : ℤ) ≤ ⌈line.seconds hold * 1000⌉ := hhold rfl
    rw [List.pairwise_append]
    refine ⟨?_, List.pairwise_singleton _ _, ?_⟩
    · rw [List.pairwise_append]
      refine ⟨List.pairwise_singleton _ _, ?_, ?_⟩
      · refine List.pairwise_map.2 ?_
        refine List.Pairwise.imp ?_ (holdOffsets_sorted _)
        intro a b hab
        omega
      · intro a ha b hb
        rw [List.mem_singleton] at ha
        subst ha
        obtain ⟨o, ho, hb2⟩ := List.mem_map.1 hb
        subst hb2
        have := mem_holdOffsets_bounds ho
        show pyInt (line.seconds time * 1000 + 1 / 2) ≤ _ + o
        omega
    · intro a ha b hb
      rw [List.mem_singleton] at hb
      subst hb
      rcases List.mem_append.1 ha with ha | ha
      · rw [List.mem_singleton] at ha
        subst ha
        show pyInt (line.seconds time * 1000 + 1 / 2) ≤ _ + ⌈line.seconds hold * 1000⌉
        omega
      · obtain ⟨o, ho, ha2⟩ := List.mem_map.1 ha
        subst ha2
        have := mem_holdOffsets_bounds ho
        show _ + o ≤ _ + ⌈line.seconds hold * 1000⌉
        omega

/-- Per note, the synthesized actions form a single gesture. -/
theorem noteEvents_gesture (ext : ExtFuns) (line : LineModel) (event : Note)
    (id : ℕ) :
    isGesture ((noteEvents ext line event id).map (fun x => x.2.action)) = true := by
  unfold noteEvents
  rcases event with ⟨ty, time, xx, hold⟩
  cases ty <;> simp only
  · rfl
  · rfl
  · rw [List.map_append, List.map_append]
    rw [List.map_cons, List.map_nil, List.map_cons, List.map_nil,
      List.singleton_append, List.cons_append]
    rw [isGesture_flick_start]
    refine isMidTail_middles _ ?_ rfl
    intro a ha
    obtain ⟨x, hx, hax⟩ := List.mem_map.1 ha
    obtain ⟨o, _, ho⟩ := List.mem_map.1 hx
    subst hax
    subst ho
    rfl
  · rw [List.map_append, List.map_append]
    rw [List.map_cons, List.map_nil, List.map_cons, List.map_nil,
      List.singleton_append, List.cons_append]
    rw [isGesture_hold_start]
    refine isMidTail_middles _ ?_ rfl
    intro a ha
    obtain ⟨x, hx, hax⟩ := List.mem_map.1 ha
    obtain ⟨o, _, ho⟩ := List.mem_map.1 hx
    subst hax
    subst ho
    rfl

/-- Sanity condition on the chart: every HOLD note has a nonnegative hold
duration in ms (`line.seconds` of a nonnegative beat count is nonnegative
for any real chart). -/
def holdOk (chart : Chart) : Prop :=
  ∀ lm ∈ chart.judge_lines, ∀ n ∈ lm.notes_above ++ lm.notes_below,
    n.type = NoteType.HOLD → 0 ≤ ⌈lm.seconds n.hold * 1000⌉

theorem mem_allNotes {chart : Chart} {p : LineModel × Note}
    (h : p ∈ allNotes chart) :
    p.1 ∈ chart.judge_lines ∧ p.2 ∈ p.1.notes_above ++ p.1.notes_below := by
  unfold allNotes at h
  obtain ⟨lm, hlm, hp⟩ := List.mem_flatMap.1 h
  obtain ⟨n, hn, hpn⟩ := List.mem_map.1 hp
  subst hpn
  exact ⟨hlm, hn⟩

/-- Per-id slice of the synthesized flat stream: each event id is hit by at
most one note, so the slice is that note's event list (or empty). -/
theorem synth_filter_aux (ext : ExtFuns) (id : ℕ) :
    ∀ (l : List (LineModel × Note)) (k : ℕ),
      ((l.enumFrom k).flatMap (fun e => noteEvents ext e.2.1 e.2.2 e.1)).filter
          (fun x => x.2.id == id) = [] ∨
      ∃ p ∈ l,
        ((l.enumFrom k).flatMap (fun e => noteEvents ext e.2.1 e.2.2 e.1)).filter
            (fun x => x.2.id == id) = noteEvents ext p.1 p.2 id := by
  intro l
  induction l with
  | nil => intro k; left; rfl
  | cons p rest ih =>
      intro k
      rw [show List.enumFrom k (p :: rest) = (k, p) :: List.enumFrom (k+1) rest
        from rfl]
      rw [List.flatMap_cons, List.filter_append]
      have hrest0 := ih (k + 1)
      by_cases hk : k = id
      · subst hk
        have h1 : (noteEvents ext p.1 p.2 k).filter (fun x => x.2.id == k) =
            noteEvents ext p.1 p.2 k := by
          apply List.filter_eq_self.2
          intro x hx
          simpa using noteEvents_id ext p.1 p.2 k x hx
        have h2 : ((List.enumFrom (k+1) rest).flatMap
            (fun e => noteEvents ext e.2.1 e.2.2 e.1)).filter
            (fun x => x.2.id == k) = [] := by
          apply List.filter_eq_nil_iff.2
          intro x hx
          obtain ⟨⟨i, q⟩, he, hx2⟩ := List.mem_flatMap.1 hx
          have hi : k + 1 ≤ i := (List.mem_enumFrom he).1
          have hxid := noteEvents_id ext q.1 q.2 i x hx2
          simp only [beq_iff_eq]
          rw [hxid]
          omega
        right
        refine ⟨p, List.mem_cons_self p rest, ?_⟩
        rw [h1, h2, List.append_nil]
      · have h1 : (noteEvents ext p.1 p.2 k).filter (fun x => x.2.id == id) = [] := by
          apply List.filter_eq_nil_iff.2
          intro x hx
          have hxid := noteEvents_id ext p.1 p.2 k x hx
          simp only [beq_iff_eq]
          rw [hxid]
          exact hk
        rw [h1, List.nil_append]
        rcases hrest0 with h | ⟨q, hq, heq⟩
        · left; exact h
        · right; exact ⟨q, List.mem_cons_of_mem p hq, heq⟩

/-- Each id's slice of `synthFlat` is one note's event list or empty. -/
theorem synthFlat_filter (ext : ExtFuns) (chart : Chart) (id : ℕ) :
    (synthFlat ext chart).filter (fun x => x.2.id == id) = [] ∨
    ∃ p ∈ allNotes chart,
      (synthFlat ext chart).filter (fun x => x.2.id == id) =
        noteEvents ext p.1 p.2 id := by
  unfold synthFlat
  rw [show (allNotes chart).enum = (allNotes chart).enumFrom 0 from rfl]
  exact synth_filter_aux ext id (allNotes chart) 0

theorem synthFlat_filter_sorted (ext : ExtFuns) {chart : Chart}
    (hhold : holdOk chart) (id : ℕ) :
    ((synthFlat ext chart).filter (fun x => x.2.id == id)).Pairwise
      (fun a b => a.1 ≤ b.1) := by
  rcases synthFlat_filter ext chart id with h | ⟨p, hp, heq⟩
  · rw [h]; exact List.Pairwise.nil
  · rw [heq]
    obtain ⟨hlm, hn⟩ := mem_allNotes hp
    exact noteEvents_sorted ext p.1 p.2 id (fun ht => hhold p.1 hlm p.2 hn ht)

theorem flatMap_pair_snd {α : Type} (L : List (ℤ × List α)) :
    (L.flatMap (fun e => e.2.map (fun x => (e.1, x)))).map (fun x => x.2) =
      L.flatMap (fun e => e.2) := by
  induction L with
  | nil => rfl
  | cons a t ih =>
      rw [List.flatMap_cons, List.flatMap_cons, List.map_append, ih,
        List.map_map]
      congr 1
      simp [Function.comp]

/-- The per-id action trace of the sorted planned stream equals the per-id
action trace of the flat synthesized stream (bucketing then sorting is
stable). -/
theorem planned_idActs (ext : ExtFuns) {chart : Chart} (hhold : holdOk chart)
    (id : ℕ) :
    idActs ((sortEnt (buildMap (synthFlat ext chart))).flatMap (fun e => e.2)) id =
      ((synthFlat ext chart).filter (fun x => x.2.id == id)).map
        (fun x => x.2.action) := by
  unfold idActs
  rw [← flatMap_pair_snd (sortEnt (buildMap (synthFlat ext chart)))]
  rw [show ((sortEnt (buildMap (synthFlat ext chart))).flatMap
      (fun e => e.2.map (fun x => (e.1, x)))) = chron (buildMap (synthFlat ext chart))
    from rfl]
  rw [List.filter_map]
  rw [show ((fun (e : FrameEvent) => e.id == id) ∘ (fun x : ℤ × FrameEvent => x.2)) =
    (fun x : ℤ × FrameEvent => (fun (e : FrameEvent) => e.id == id) x.2) from rfl]
  rw [chron_filter_pred (synthFlat ext chart) (fun e => e.id == id)
    (synthFlat_filter_sorted ext hhold id)]
  rw [List.map_map]
  rfl

/-- The initial manager state satisfies `IdsInv` for the planned stream. -/
theorem synth_IdsInv (ext : ExtFuns) {chart : Chart} (hhold : holdOk chart) :
    IdsInv ((sortEnt (buildMap (synthFlat ext chart))).flatMap (fun e => e.2))
      (PMState.init 1000 1) := by
  intro id
  left
  refine ⟨rfl, ?_⟩
  rw [planned_idActs ext hhold id]
  rcases synthFlat_filter ext chart id with h | ⟨p, hp, heq⟩
  · left; rw [h]; rfl
  · right
    rw [heq]
    exact noteEvents_gesture ext p.1 p.2 id

/-- The frame keys handed to the planning loop are strictly increasing. -/
theorem frames_keys_strict (ext : ExtFuns) (chart : Chart) :
    ((sortEnt (buildMap (synthFlat ext chart))).map (fun f => f.1)).Pairwise
      (· < ·) := by
  have h1 : ((sortEnt (buildMap (synthFlat ext chart))).map (fun f => f.1)).Pairwise
      (· ≤ ·) := by
    refine List.pairwise_map.2 ?_
    exact sortEnt_sorted (buildMap (synthFlat ext chart))
  have h2 : ((sortEnt (buildMap (synthFlat ext chart))).map (fun f => f.1)).Nodup := by
    have h3 := (buildMap_spec (synthFlat ext chart)).2.2
    exact ((sortEnt_perm (buildMap (synthFlat ext chart))).map
      (fun f => f.1)).nodup_iff.2 h3
  refine (h1.and h2).imp ?_
  intro a b hab
  exact lt_of_le_of_ne hab.1 hab.2

/-- The fresh manager state (with `now` patched to any value) satisfies the
planner invariant on the empty trace. -/
theorem planInv_init (b : ℕ) (m₀ : ℤ) :
    PlanInv { PMState.init b 1 with now := m₀ } m₀ m₀ [] := by
  refine ⟨List.nodup_nil, List.nodup_nil, List.nodup_nil,
    ?_, ?_, List.nodup_nil, ?_, ?_, List.nodup_nil, ?_, ?_, ?_, rfl, le_refl _,
    rfl, ?_, ?_, ?_, ?_, ?_, ?_, ?_, ?_, ?_, ?_, ?_, ?_⟩ <;>
    first
      | exact fun e he => absurd he (List.not_mem_nil e)
      | exact fun p hp => absurd hp (List.not_mem_nil p)
      | exact List.nodup_nil
      | intro r
        exact List.Pairwise.nil
      | intro r _
        rfl

/-- The planner invariant at any frame boundary of a real planning run:
after any prefix `fs₁` of the sorted frame list has been planned without
error, the state satisfies `PlanInv` (at some boundary ms) and `IdsInv` for
the remaining stream, and the per-frame scratch collections are empty. -/
theorem planFrames_inv_closed (ext : ExtFuns) {chart : Chart}
    (hhold : holdOk chart) (fs₁ fs₂ : List (ℤ × List FrameEvent))
    (hsplit : sortEnt (buildMap (synthFlat ext chart)) = fs₁ ++ fs₂)
    (out : List TimedTouch) (s' : PMState)
    (hpl : planFrames ext fs₁ (PMState.init 1000 1) = (out, s', none)) :
    ∃ m₁, PlanInv { s' with now := m₁ } m₁ m₁ out ∧
      IdsInv (fs₂.flatMap (fun f => f.2)) s' ∧
      s'.mark_as_released = [] ∧ s'.unused_now = [] := by
  have hstrict_full := frames_keys_strict ext chart
  rw [hsplit, List.map_append] at hstrict_full
  have hstrict1 : (fs₁.map (fun f => f.1)).Pairwise (· < ·) :=
    hstrict_full.sublist (List.sublist_append_left _ _)
  have hIfull := synth_IdsInv ext hhold
  rw [hsplit, List.flatMap_append] at hIfull
  cases fs₁ with
  | nil =>
      unfold planFrames at hpl
      injection hpl with h1 h2
      injection h2 with h2 h3
      subst h1
      subst h2
      refine ⟨0, planInv_init 1000 0, ?_, rfl, rfl⟩
      rw [List.flatMap_nil, List.nil_append] at hIfull
      exact hIfull
  | cons hd tl =>
      have hbound : ∀ f ∈ hd :: tl, hd.1 - 1 < f.1 := by
        intro f hf
        rcases List.mem_cons.1 hf with rfl | hf2
        · omega
        · have h2 : hd.1 < f.1 := List.rel_of_pairwise_cons hstrict1
            (List.mem_map_of_mem (fun f => f.1) hf2)
          omega
      obtain ⟨m₁, _, hP, hI, hm, hu⟩ :=
        planFrames_inv (hd :: tl) (fs₂.flatMap (fun f => f.2))
          (PMState.init 1000 1) (hd.1 - 1) [] hbound hstrict1
          (planInv_init 1000 (hd.1 - 1)) hIfull rfl rfl out s' none hpl rfl
      refine ⟨m₁, ?_, hI, hm, hu⟩
      rw [List.nil_append] at hP
      exact hP

/-- C1: for every chart (with nonnegative HOLD durations) on which `solve`
succeeds, every pointer id's chronological action sequence in the output
matches the language `(DOWN MOVE* UP)*`: runs are always well formed and
closed — but, refuting the claim's "exactly once", a pid can carry several
such runs because freed pids are reallocated. -/
theorem claim_C1_balanced (ext : ExtFuns) (chart : Chart)
    (hhold : holdOk chart) (out : PyDict ℤ (List VirtualTouchEvent))
    (h : solve ext chart = .ok out) (pid : ℕ) :
    balancedRuns (pidSeq out pid) = true := by
  unfold solve at h
  dsimp only at h
  rcases hpl : planFrames ext (sortEnt (buildMap (synthFlat ext chart)))
      (PMState.init 1000 1) with ⟨out0, sf, err⟩
  rw [hpl] at h
  cases err with
  | some e => exact Except.noConfusion h
  | none =>
      dsimp only at h
      injection h with h
      subst h
      obtain ⟨m₁, hP, hI, hm, hu⟩ :=
        planFrames_inv_closed ext hhold _ [] (List.append_nil _).symm out0 sf hpl
      rw [List.flatMap_nil] at hI
      obtain ⟨hbal, hsort⟩ := final_balanced hP hI hm hu
      rw [pidSeq_eq _ pid (hsort pid)]
      exact hbal pid

/-- Four TAP notes at ms 0, 1, 2, 3: enough keyframes for the aging recycle
to free pid 1000 and the allocator to hand it out again. -/
def chartC1CE : Chart :=
  ⟨[lineW [tapNote 0, tapNote (1/1000), tapNote (2/1000), tapNote (3/1000)]]⟩

def outC1CE : PyDict ℤ (List VirtualTouchEvent) :=
  match solve extW chartC1CE with
  | .ok o => o
  | .error _ => []

/-- C1 counterexample: planning `chartC1CE` succeeds and pid 1000's
chronological action sequence is `DOWN UP DOWN UP` — two runs, not the
claimed single `DOWN MOVE* UP` (two DOWNs instead of exactly one). -/
theorem claim_C1_counterexample :
    solve extW chartC1CE = .ok outC1CE ∧
    pidSeq outC1CE 1000 = [.DOWN, .UP, .DOWN, .UP] ∧
    (pidSeq outC1CE 1000).count .DOWN = 2 := by decide

/-- A single TAP note. -/
def chartC1W : Chart := ⟨[lineW [tapNote 0]]⟩

def outC1W : PyDict ℤ (List VirtualTouchEvent) :=
  match solve extW chartC1W with
  | .ok o => o
  | .error _ => []

theorem chartC1W_holdOk : holdOk chartC1W := by
  intro lm hlm n hn ht
  rw [show chartC1W.judge_lines = [lineW [tapNote 0]] from rfl,
    List.mem_singleton] at hlm
  subst hlm
  rw [show (lineW [tapNote 0]).notes_above ++ (lineW [tapNote 0]).notes_below
    = [tapNote 0] from rfl, List.mem_singleton] at hn
  subst hn
  cases ht

/-- Witness for C1: on the one-TAP chart `solve` succeeds and pid 1000's
sequence is balanced. -/
theorem claim_C1_witness :
    holdOk chartC1W ∧ solve extW chartC1W = .ok outC1W ∧
    balancedRuns (pidSeq outC1W 1000) = true :=
  ⟨chartC1W_holdOk, by decide,
    claim_C1_balanced extW chartC1W chartC1W_holdOk outC1W (by decide) 1000⟩

/-- C9: at every frame boundary of a successful planning run (after any
prefix of the sorted frame list, i.e. whenever `recycle` has completed),
each pid occurs in at most one of the three collections: `pointers` values,
`unused` values, `unused_now` values.  The claim's "at every point" is
refuted by `claim_C9_counterexample`: mid-frame, between `release` and
`recycle`, a released pointer sits in both `pointers` and `unused_now`. -/
theorem claim_C9_disjoint (ext : ExtFuns) (chart : Chart)
    (hhold : holdOk chart) (fs₁ fs₂ : List (ℤ × List FrameEvent))
    (hsplit : sortEnt (buildMap (synthFlat ext chart)) = fs₁ ++ fs₂)
    (out : List TimedTouch) (s' : PMState)
    (hpl : planFrames ext fs₁ (PMState.init 1000 1) = (out, s', none)) :
    (s'.pointers.map (fun e => e.2.pid) ++ s'.unused.map (fun e => e.2.pid) ++
      s'.unused_now.map (fun e => e.2.pid)).Nodup := by
  obtain ⟨m₁, hP, hI, hm, hu⟩ :=
    planFrames_inv_closed ext hhold fs₁ fs₂ hsplit out s' hpl
  have hln := hP.live_nodup
  have h1 : livePidsMid { s' with now := m₁ } =
      s'.pointers.map (fun e => e.2.pid) ++ s'.unused.map (fun e => e.1) ++
        s'.unused_now.map (fun e => e.1) := by
    unfold livePidsMid
    rw [show ({ s' with now := m₁ } : PMState).mark_as_released =
      s'.mark_as_released from rfl, hm]
    rw [List.filter_eq_self.2 (fun e _ => by simp)]
  rw [h1] at hln
  have h2 : s'.unused.map (fun e => e.1) = s'.unused.map (fun e => e.2.pid) := by
    apply List.map_congr_left
    intro e he
    exact (hP.unused_pid_eq e he).symm
  have h3 : s'.unused_now.map (fun e => e.1) =
      s'.unused_now.map (fun e => e.2.pid) := by
    rw [hu]
    rfl
  rw [h2, h3] at hln
  exact hln

/-- One TAP note: its frame reaches a mid-frame state with the released
pointer still in `pointers` and already in `unused_now`. -/
def chartC9 : Chart := ⟨[lineW [tapNote 0]]⟩

/-- The single frame the synthesizer produces for `chartC9`. -/
def frameC9 : ℤ × List FrameEvent :=
  (sortEnt (buildMap (synthFlat extW chartC9))).headI

/-- The planner state after `chartC9`'s event loop (acquire, DOWN,
release), before `recycle` runs. -/
def midC9 : PMState :=
  (processFrameEvents extW { PMState.init 1000 1 with now := frameC9.1 }
    frameC9.2).2.1

/-- C9 counterexample: at the mid-frame state of the one-TAP chart, pid
1000 occurs both among the `pointers` values and among the `unused_now`
values, so the three collections are not pairwise disjoint at that point
of the planning run. -/
theorem claim_C9_counterexample :
    midC9.pointers.map (fun e => e.2.pid) = [1000] ∧
    midC9.unused_now.map (fun e => e.2.pid) = [1000] ∧
    ¬ (midC9.pointers.map (fun e => e.2.pid) ++
        midC9.unused.map (fun e => e.2.pid) ++
        midC9.unused_now.map (fun e => e.2.pid)).Nodup := by decide

def chartC9W : Chart := ⟨[lineW [tapNote 0]]⟩

theorem chartC9W_holdOk : holdOk chartC9W := by
  intro lm hlm n hn ht
  rw [show chartC9W.judge_lines = [lineW [tapNote 0]] from rfl,
    List.mem_singleton] at hlm
  subst hlm
  rw [show (lineW [tapNote 0]).notes_above ++ (lineW [tapNote 0]).notes_below
    = [tapNote 0] from rfl, List.mem_singleton] at hn
  subst hn
  cases ht

def fsC9W : List (ℤ × List FrameEvent) := sortEnt (buildMap (synthFlat extW chartC9W))

def planC9W : List TimedTouch × PMState × Option PlanError :=
  planFrames extW fsC9W (PMState.init 1000 1)

/-- Witness for C9: at the end of the one-TAP planning run the three pid
collections are pairwise disjoint. -/
theorem claim_C9_witness :
    holdOk chartC9W ∧
    (planC9W.2.1.pointers.map (fun e => e.2.pid) ++
      planC9W.2.1.unused.map (fun e => e.2.pid) ++
      planC9W.2.1.unused_now.map (fun e => e.2.pid)).Nodup :=
  ⟨chartC9W_holdOk,
    claim_C9_disjoint extW chartC9W chartC9W_holdOk fsC9W []
      (List.append_nil fsC9W).symm planC9W.1 planC9W.2.1 (by decide)⟩
